import Mathlib

/-!
# ccb: a one-expression compiler (tokenizer, recursive-descent parser, stack code generator)

Shallow embedding of `src/ccb.c`.

Conventions of the embedding.

* A C string (`char*` to a NUL-terminated buffer) is the `List Char` of its
  characters before the terminating NUL.  A pointer into `user_input` is the
  offset from its start (`loc - user_input`); reading through it is `deref`.
* The global `token` (cursor into the linked list of tokens) is the list of
  tokens from the cursor on; `[]` is the NULL pointer.  The global
  `user_input` is passed explicitly to the functions that read it.
* `exit(1)` inside `error_at` is the outcome `Outcome.error`; dereferencing
  NULL is `Outcome.null`.  Loops and the mutual recursion of the parser are
  driven by a fuel counter, `Outcome.fuel` being the only artefact of the
  model; the fuel handed out by `tokenize` and `parse` is proved sufficient.
* `int` is `Int` reduced by `toInt32`, `long` and the 64-bit registers are
  `Int` reduced by `wrap64`.
* Each `Char` of the input stands for one byte of `argv[1]`.  `tokenize` stops
  at the first byte outside ASCII, so an offset counted in characters is the
  offset in bytes wherever the program reports one.
* `gen` and `main` print lines of assembly; a printed line is a `Line`, whose
  text is `Line.text` and whose effect on the target machine is `step`.
-/

namespace Ccb

/-! ## Data model -/

/-- Kinds of token: `TokenKind` of the source. -/
inductive TokenKind where
  | TK_RESERVED
  | TK_NUM
  | TK_EOF
deriving DecidableEq, Repr

/-- A token: `struct Token` of the source.  The field `next` is the tail of the
list the token sits in; `str` is the offset of the pointer from `user_input`. -/
structure Token where
  kind : TokenKind
  val : Int
  str : Nat
deriving DecidableEq, Repr

/-- Kinds of AST node: `NodeKind` of the source. -/
inductive NodeKind where
  | ND_ADD
  | ND_SUB
  | ND_MUL
  | ND_DIV
  | ND_NUM
deriving DecidableEq, Repr

/-- An AST node: `struct Node` with its `NodeKind`, one constructor per kind.
`Num` carries `val`, the operator kinds carry `lhs` and `rhs`. -/
inductive Node where
  | Num (val : Int)
  | Add (lhs rhs : Node)
  | Sub (lhs rhs : Node)
  | Mul (lhs rhs : Node)
  | Div (lhs rhs : Node)
deriving DecidableEq, Repr

/-- How a call ends: normally with a value, in `error_at` (which exits with
status 1 after reporting location `loc` and the message), on a NULL
dereference, or by exhausting the fuel of the model. -/
inductive Outcome (α : Type) where
  | ok (a : α)
  | error (loc : Nat) (msg : String)
  | null
  | fuel
deriving DecidableEq, Repr

/-- Sequencing of outcomes: run `k` on a normal return, pass anything else on. -/
def Outcome.bind {α β : Type} (x : Outcome α) (k : α → Outcome β) : Outcome β :=
  match x with
  | .ok a => k a
  | .error loc msg => .error loc msg
  | .null => .null
  | .fuel => .fuel

/-! ## Machine integers and libc -/

/-- Conversion to `int` (32-bit two's complement). -/
def toInt32 (x : Int) : Int := (x + 2147483648) % 4294967296 - 2147483648

/-- Reduction to a signed 64-bit value. -/
def wrap64 (x : Int) : Int := (x + 9223372036854775808) % 18446744073709551616 - 9223372036854775808

/-- The constant `LONG_MAX` of an LP64 platform. -/
def LONG_MAX : Int := 9223372036854775807

/-- The constant `LONG_MIN` of an LP64 platform. -/
def LONG_MIN : Int := -9223372036854775808

/-- The libc predicate `isspace` in the C locale: space, `\t`, `\n`, `\v`, `\f`, `\r`. -/
def isspace (c : Char) : Bool :=
  c.toNat = 32 || (9 ≤ c.toNat && c.toNat ≤ 13)

/-- The libc predicate `isdigit`. -/
def isdigit (c : Char) : Bool :=
  48 ≤ c.toNat && c.toNat ≤ 57

/-- Value of a run of decimal digits, most significant first. -/
def digitsVal (ds : List Char) : Nat :=
  ds.foldl (fun a c => 10 * a + (c.toNat - 48)) 0

/-- The libc function `strtol(p, &end, 10)`: skips white space, reads an
optional sign and the longest run of digits, returns the value clamped to
`[LONG_MIN, LONG_MAX]` and the rest of the string.  Without a digit the value
is 0 and the end pointer is `p`. -/
def strtol (p : List Char) : Int × List Char :=
  let q := p.dropWhile isspace
  let sr : Bool × List Char :=
    match q with
    | [] => (false, q)
    | c :: r => if c = '-' then (true, r) else if c = '+' then (false, r) else (false, q)
  let ds := sr.2.takeWhile isdigit
  if ds.isEmpty then (0, p)
  else
    let v : Int := if sr.1 then -(digitsVal ds : Int) else (digitsVal ds : Int)
    (max LONG_MIN (min LONG_MAX v), sr.2.dropWhile isdigit)

/-- Reading `p[0]` for the pointer `user_input + off`; the byte at the end of
the string is the terminating NUL. -/
def deref (user_input : List Char) (off : Nat) : Char :=
  user_input.getD off (Char.ofNat 0)

/-! ## Error reporting -/

/-- Output of `printf("%*s", pos, " ")`: the one-character string `" "` padded on
the left with spaces to the width `pos`. -/
def pad_spaces (pos : Nat) : String :=
  String.mk (List.replicate (pos - 1) ' ') ++ " "

/-- What `error_at` writes to standard error before `exit(1)`, for the
location `loc - user_input = pos` and the formatted message. -/
def error_at (user_input : List Char) (pos : Nat) (msg : String) : String :=
  String.mk user_input ++ "\n" ++ pad_spaces pos ++ "^ " ++ msg ++ "\n"

/-- Message of `tokenize` for an unknown character. -/
def msg_tokenize : String := "トークナイズできません"

/-- Message of `expect_number`. -/
def msg_not_number : String := "数ではありません"

/-- Message of `expect(op)`: the format `'%c'ではありません` filled with `op`. -/
def msg_expect (op : Char) : String :=
  String.mk [Char.ofNat 39, op, Char.ofNat 39] ++ "ではありません"

/-! ## Tokenizer -/

/-- The function `new_token`: a zeroed token (`calloc`) with `kind` and `str` set. -/
def new_token (kind : TokenKind) (str : Nat) : Token :=
  { kind := kind, val := 0, str := str }

/-- Whether `c` is one of the reserved characters tested by `tokenize`. -/
def is_reserved (c : Char) : Bool :=
  c = '+' || c = '-' || c = '*' || c = '/' || c = '(' || c = ')'

/-- Link a token in front of the tokens produced by the rest of the scan. -/
def link (t : Token) (r : Outcome (List Token)) : Outcome (List Token) :=
  r.bind (fun ts => .ok (t :: ts))

/-- The `while (*p)` loop of `tokenize` together with the final
`new_token(TK_EOF, cur, p)`.  The pointer `p` is its offset `pos` and the
characters `p` points at; the result is the list linked after `cur`. -/
def tokenize_loop : Nat → Nat → List Char → Outcome (List Token)
  | 0, _, _ => .fuel
  | _ + 1, pos, [] => .ok [new_token .TK_EOF pos]
  | f + 1, pos, c :: rest =>
    if isspace c then
      tokenize_loop f (pos + 1) rest
    else if is_reserved c then
      link (new_token .TK_RESERVED pos) (tokenize_loop f (pos + 1) rest)
    else if isdigit c then
      let r := strtol (c :: rest)
      link { new_token .TK_NUM pos with val := toInt32 r.1 }
        (tokenize_loop f (pos + ((c :: rest).length - r.2.length)) r.2)
    else
      .error pos msg_tokenize

/-- The function `tokenize`, applied to the whole input. -/
def tokenize (p : List Char) : Outcome (List Token) :=
  tokenize_loop (p.length + 1) 0 p

/-! ## Parser -/

/-- The function `new_node`.  The parser calls it with the four operator
kinds only; with `ND_NUM` the node would be read through `val` alone, which
`calloc` leaves at 0. -/
def new_node (kind : NodeKind) (lhs rhs : Node) : Node :=
  match kind with
  | .ND_ADD => .Add lhs rhs
  | .ND_SUB => .Sub lhs rhs
  | .ND_MUL => .Mul lhs rhs
  | .ND_DIV => .Div lhs rhs
  | .ND_NUM => .Num 0

/-- The function `new_node_num`. -/
def new_node_num (val : Int) : Node := .Num val

/-- The test `token->kind != TK_RESERVED || token->str[0] != op` shared by
`consume` and `expect`. -/
def not_op (user_input : List Char) (op : Char) (t : Token) : Bool :=
  t.kind != .TK_RESERVED || deref user_input t.str != op

/-- The function `consume`: on a match the cursor moves on and the value
returned is `token` converted to `bool`, true when the new cursor is not NULL. -/
def consume (user_input : List Char) (op : Char) : List Token → Outcome (Bool × List Token)
  | [] => .null
  | t :: next =>
    if not_op user_input op t then .ok (false, t :: next)
    else .ok (!next.isEmpty, next)

/-- The function `expect`. -/
def expect (user_input : List Char) (op : Char) : List Token → Outcome (Unit × List Token)
  | [] => .null
  | t :: next =>
    if not_op user_input op t then .error t.str (msg_expect op)
    else .ok ((), next)

/-- The function `expect_number`. -/
def expect_number : List Token → Outcome (Int × List Token)
  | [] => .null
  | t :: next =>
    if t.kind != .TK_NUM then .error t.str msg_not_number
    else .ok (t.val, next)

/-- The function `at_eof`. -/
def at_eof : List Token → Outcome Bool
  | [] => .null
  | t :: _ => .ok (t.kind == .TK_EOF)

mutual
/-- The function `expr`: one `mul`, then the `for (;;)` loop. -/
def expr (ui : List Char) : Nat → List Token → Outcome (Node × List Token)
  | 0, _ => .fuel
  | f + 1, tok => (mul ui f tok).bind (fun r => expr_loop ui f r.1 r.2)
/-- The `for (;;)` loop of `expr`, entered with the accumulated `node`. -/
def expr_loop (ui : List Char) : Nat → Node → List Token → Outcome (Node × List Token)
  | 0, _, _ => .fuel
  | f + 1, node, tok =>
    (consume ui '+' tok).bind (fun c =>
      if c.1 then (mul ui f c.2).bind (fun r => expr_loop ui f (new_node .ND_ADD node r.1) r.2)
      else (consume ui '-' c.2).bind (fun d =>
        if d.1 then (mul ui f d.2).bind (fun r => expr_loop ui f (new_node .ND_SUB node r.1) r.2)
        else .ok (node, d.2)))
/-- The function `mul`: one `primary`, then the `for (;;)` loop. -/
def mul (ui : List Char) : Nat → List Token → Outcome (Node × List Token)
  | 0, _ => .fuel
  | f + 1, tok => (primary ui f tok).bind (fun r => mul_loop ui f r.1 r.2)
/-- The `for (;;)` loop of `mul`, entered with the accumulated `node`. -/
def mul_loop (ui : List Char) : Nat → Node → List Token → Outcome (Node × List Token)
  | 0, _, _ => .fuel
  | f + 1, node, tok =>
    (consume ui '*' tok).bind (fun c =>
      if c.1 then (primary ui f c.2).bind (fun r => mul_loop ui f (new_node .ND_MUL node r.1) r.2)
      else (consume ui '/' c.2).bind (fun d =>
        if d.1 then (primary ui f d.2).bind (fun r => mul_loop ui f (new_node .ND_DIV node r.1) r.2)
        else .ok (node, d.2)))
/-- The function `primary`. -/
def primary (ui : List Char) : Nat → List Token → Outcome (Node × List Token)
  | 0, _ => .fuel
  | f + 1, tok =>
    (consume ui '(' tok).bind (fun c =>
      if c.1 then
        (expr ui f c.2).bind (fun r =>
          (expect ui ')' r.2).bind (fun e => .ok (r.1, e.2)))
      else (expect_number c.2).bind (fun n => .ok (new_node_num n.1, n.2)))
end

/-- Fuel that lets `expr` run to completion from the cursor `tok`. -/
def parse_fuel (tok : List Token) : Nat := 3 * tok.length + 3

/-- The call `expr()` of `main`, started with `token = tok`. -/
def parse (ui : List Char) (tok : List Token) : Outcome (Node × List Token) :=
  expr ui (parse_fuel tok) tok

/-! ## Code generator -/

/-- One line of the assembly listing written to standard output. -/
inductive Line where
  | intel_directive
  | globl_main
  | label_main
  | push_imm (val : Int)
  | pop_rdi
  | pop_rax
  | add_rax_rdi
  | sub_rax_rdi
  | imul_rax_rdi
  | cqo
  | idiv_rdi
  | push_rax
  | ret
deriving DecidableEq, Repr

/-- The text of a line, as the `printf` calls of `gen` and `main` write it. -/
def Line.text : Line → String
  | .intel_directive => ".intel_syntax noprefix\n"
  | .globl_main => ".globl main\n"
  | .label_main => "main:\n"
  | .push_imm val => "    push " ++ toString val ++ "\n"
  | .pop_rdi => "    pop rdi\n"
  | .pop_rax => "    pop rax\n"
  | .add_rax_rdi => "   add rax, rdi\n"
  | .sub_rax_rdi => "   sub rax, rdi\n"
  | .imul_rax_rdi => "   imul rax, rdi\n"
  | .cqo => "   cqo\n"
  | .idiv_rdi => "   idiv rdi\n"
  | .push_rax => "    push rax\n"
  | .ret => "    ret\n"

/-- The function `gen`: the lines it prints, in order. -/
def gen : Node → List Line
  | .Num val => [.push_imm val]
  | .Add lhs rhs => gen lhs ++ gen rhs ++ [.pop_rdi, .pop_rax, .add_rax_rdi, .push_rax]
  | .Sub lhs rhs => gen lhs ++ gen rhs ++ [.pop_rdi, .pop_rax, .sub_rax_rdi, .push_rax]
  | .Mul lhs rhs => gen lhs ++ gen rhs ++ [.pop_rdi, .pop_rax, .imul_rax_rdi, .push_rax]
  | .Div lhs rhs => gen lhs ++ gen rhs ++ [.pop_rdi, .pop_rax, .cqo, .idiv_rdi, .push_rax]

/-! ## Target machine -/

/-- State of the x86-64 machine as far as the listing uses it: three 64-bit
registers held as signed values and the stack of 64-bit slots pushed so far,
top first. -/
structure Machine where
  rax : Int
  rdi : Int
  rdx : Int
  stack : List Int
deriving DecidableEq, Repr

/-- One instruction.  `none` is a fault: popping a slot that was never pushed,
or the divide error of `idiv` (zero divisor, or a quotient outside 64 bits).
Directives and the label do nothing. -/
def step (l : Line) (m : Machine) : Option Machine :=
  match l with
  | .intel_directive => some m
  | .globl_main => some m
  | .label_main => some m
  | .push_imm val => some { m with stack := wrap64 val :: m.stack }
  | .pop_rdi =>
    match m.stack with
    | [] => none
    | v :: s => some { m with rdi := v, stack := s }
  | .pop_rax =>
    match m.stack with
    | [] => none
    | v :: s => some { m with rax := v, stack := s }
  | .add_rax_rdi => some { m with rax := wrap64 (m.rax + m.rdi) }
  | .sub_rax_rdi => some { m with rax := wrap64 (m.rax - m.rdi) }
  | .imul_rax_rdi => some { m with rax := wrap64 (m.rax * m.rdi) }
  | .cqo => some { m with rdx := if m.rax < 0 then -1 else 0 }
  | .idiv_rdi =>
    let dividend : Int := m.rdx * 18446744073709551616 + m.rax % 18446744073709551616
    if m.rdi = 0 then none
    else
      let q := Int.tdiv dividend m.rdi
      if q < -9223372036854775808 ∨ 9223372036854775808 ≤ q then none
      else some { m with rax := q, rdx := Int.tmod dividend m.rdi }
  | .push_rax => some { m with stack := m.rax :: m.stack }
  | .ret => some m

/-- Execution of a run of lines; `ret` leaves the routine, so nothing after it runs. -/
def exec : List Line → Machine → Option Machine
  | [], m => some m
  | .ret :: _, m => some m
  | l :: ls, m => (step l m).bind (exec ls)

/-- The reference evaluator: the value of an expression in 64-bit two's
complement, division truncating toward zero. -/
def eval : Node → Int
  | .Num n => n
  | .Add l r => wrap64 (eval l + eval r)
  | .Sub l r => wrap64 (eval l - eval r)
  | .Mul l r => wrap64 (eval l * eval r)
  | .Div l r => wrap64 (Int.tdiv (eval l) (eval r))

/-- No `Div` node is evaluated with a zero divisor or with the pair `(-2^63, -1)`. -/
def DivSafe : Node → Prop
  | .Num _ => True
  | .Add l r => DivSafe l ∧ DivSafe r
  | .Sub l r => DivSafe l ∧ DivSafe r
  | .Mul l r => DivSafe l ∧ DivSafe r
  | .Div l r => DivSafe l ∧ DivSafe r ∧ eval r ≠ 0 ∧
      ¬ (eval l = -9223372036854775808 ∧ eval r = -1)

/-- Every `val` of the tree is a value of the C type `int`. -/
def IntLeaves : Node → Prop
  | .Num n => -2147483648 ≤ n ∧ n ≤ 2147483647
  | .Add l r => IntLeaves l ∧ IntLeaves r
  | .Sub l r => IntLeaves l ∧ IntLeaves r
  | .Mul l r => IntLeaves l ∧ IntLeaves r
  | .Div l r => IntLeaves l ∧ IntLeaves r

/-! ## The program -/

/-- What a run of the program leaves behind: the listing on standard output,
the text on standard error and the exit status. -/
structure Process where
  listing : List Line
  stderr : String
  status : Nat
deriving DecidableEq, Repr

/-- The bytes on standard output. -/
def Process.stdout (p : Process) : String :=
  String.join (p.listing.map Line.text)

/-- Turn a call that may end in `error_at` into the run it causes: on an error
nothing has been printed yet, the diagnostic goes to standard error and the
status is 1. -/
def or_exit {α : Type} (user_input : List Char) (x : Outcome α)
    (k : α → Outcome Process) : Outcome Process :=
  match x with
  | .ok a => k a
  | .error loc msg => .ok { listing := [], stderr := error_at user_input loc msg, status := 1 }
  | .null => .null
  | .fuel => .fuel

/-- The function `main`, given `argv` (so `argc = argv.length`). -/
def main (argv : List (List Char)) : Outcome Process :=
  match argv with
  | [_, arg] =>
    or_exit arg (tokenize arg) (fun token =>
      or_exit arg (parse arg token) (fun r =>
        .ok { listing := [.intel_directive, .globl_main, .label_main] ++ gen r.1 ++ [.pop_rax, .ret],
              stderr := "", status := 0 }))
  | _ => .ok { listing := [], stderr := "引数の個数が正しくありません\n\n", status := 1 }

/-! ## Vocabulary of the statements -/

/-- The scan of `tokenize` resumed at offset `pos`, where the characters `p`
remain, with fuel for all of them. -/
def tokenize_at (pos : Nat) (p : List Char) : Outcome (List Token) :=
  tokenize_loop (p.length + 1) pos p

/-- The value `tokenize` stores in `val` for a run of digits: `strtol` clamps
to `LONG_MAX` and the assignment converts to `int`. -/
def num_val (ds : List Char) : Int :=
  toInt32 (min LONG_MAX (digitsVal ds : Int))

/-- A character `tokenize` has no case for: not white space, not reserved, not a digit. -/
def is_other (c : Char) : Bool :=
  !isspace c && !is_reserved c && !isdigit c

/-- Whether a string begins with a digit. -/
def starts_digit : List Char → Bool
  | [] => false
  | c :: _ => isdigit c

/-- Whether a string ends with a digit. -/
def ends_digit : List Char → Bool
  | [] => false
  | [c] => isdigit c
  | _ :: c :: rest => ends_digit (c :: rest)

/-- Move a token by `k` characters to the right. -/
def Token.shift (k : Nat) (t : Token) : Token :=
  { t with str := t.str + k }

/-- Move the locations in the outcome of a scan by `k` characters to the right. -/
def shift_outcome (k : Nat) : Outcome (List Token) → Outcome (List Token)
  | .ok ts => .ok (ts.map (Token.shift k))
  | .error loc msg => .error (loc + k) msg
  | .null => .null
  | .fuel => .fuel

/-- What the parser reads of a token: the character of a reserved token (read
through `str`), the value of a number, or the end of input. -/
inductive Tok where
  | op (c : Char)
  | num (v : Int)
  | eof
deriving DecidableEq, Repr

/-- The reading of a token whose `str` points into `ui`. -/
def view (ui : List Char) (t : Token) : Tok :=
  match t.kind with
  | .TK_RESERVED => .op (deref ui t.str)
  | .TK_NUM => .num t.val
  | .TK_EOF => .eof

/-- The nonterminals of the grammar `expr`, `mul`, `primary`. -/
inductive NT where
  | expr
  | mul
  | primary
deriving DecidableEq, Repr

/-- Derivations of the grammar
`expr = mul (("+" | "-") mul)*`, `mul = primary (("*" | "/") primary)*`,
`primary = "(" expr ")" | number`, with the tree each derivation denotes. -/
inductive Derives : NT → List Tok → Node → Prop where
  | num (v : Int) : Derives .primary [.num v] (.Num v)
  | paren {a : List Tok} {t : Node} :
      Derives .expr a t → Derives .primary (.op '(' :: a ++ [.op ')']) t
  | mul_one {a : List Tok} {t : Node} : Derives .primary a t → Derives .mul a t
  | mul_mul {a b : List Tok} {l r : Node} :
      Derives .mul a l → Derives .primary b r → Derives .mul (a ++ .op '*' :: b) (.Mul l r)
  | mul_div {a b : List Tok} {l r : Node} :
      Derives .mul a l → Derives .primary b r → Derives .mul (a ++ .op '/' :: b) (.Div l r)
  | expr_one {a : List Tok} {t : Node} : Derives .mul a t → Derives .expr a t
  | expr_add {a b : List Tok} {l r : Node} :
      Derives .expr a l → Derives .mul b r → Derives .expr (a ++ .op '+' :: b) (.Add l r)
  | expr_sub {a b : List Tok} {l r : Node} :
      Derives .expr a l → Derives .mul b r → Derives .expr (a ++ .op '-' :: b) (.Sub l r)

/-- The cursor leads to a `TK_EOF` token at the end of the list. -/
def ends_eof (c : List Token) : Prop :=
  ∃ a e, c = a ++ [e] ∧ e.kind = .TK_EOF

/-- The call `F`, given enough fuel, ends with `res`. -/
def Run {α : Type} (F : Nat → Outcome α) (res : Outcome α) : Prop :=
  res ≠ .fuel ∧ ∃ f0, ∀ f, f0 ≤ f → F f = res

/-- How a call that ended with `x` is followed: by `P` after a normal return,
by the same abnormal end `res` otherwise. -/
def follows {α β : Type} (x : Outcome α) (P : α → Prop) (res : Outcome β) : Prop :=
  match x with
  | .ok a => P a
  | .error loc msg => res = .error loc msg
  | .null => res = .null
  | .fuel => False

/-- What completeness of the parser says for each nonterminal: after the
tokens of a derivation the parser goes on as its loops do from the tree built. -/
def Complete (ui : List Char) : NT → List Tok → Node → Prop
  | .primary, a, t => ∀ toks rest, toks.map (view ui) = a →
      Run (fun f => primary ui f (toks ++ rest)) (.ok (t, rest))
  | .mul, a, t => ∀ toks rest res, toks.map (view ui) = a →
      Run (fun f => mul_loop ui f t rest) res → Run (fun f => mul ui f (toks ++ rest)) res
  | .expr, a, t => ∃ (K : Node → Node) (m : Node), t = K m ∧
      ∀ toks rest res, toks.map (view ui) = a →
        Run (fun f => (mul_loop ui f m rest).bind (fun q => expr_loop ui f (K q.1) q.2)) res →
        Run (fun f => expr ui f (toks ++ rest)) res

/-- What the parser reads of the tokens of `p` before `TK_EOF`, when `tokenize`
succeeds on `p`. -/
def lexv (p : List Char) : Option (List Tok) :=
  match tokenize p with
  | .ok ts => some (ts.dropLast.map (view p))
  | _ => none

/-- Whether the node is an addition or a subtraction. -/
def is_add_sub : Node → Bool
  | .Add _ _ => true
  | .Sub _ _ => true
  | _ => false

/-- No `Mul` or `Div` node of the tree has an `Add` or `Sub` node as a direct child. -/
def prec_ok : Node → Bool
  | .Num _ => true
  | .Add l r => prec_ok l && prec_ok r
  | .Sub l r => prec_ok l && prec_ok r
  | .Mul l r => prec_ok l && prec_ok r && !is_add_sub l && !is_add_sub r
  | .Div l r => prec_ok l && prec_ok r && !is_add_sub l && !is_add_sub r

/-- The tree has no `Add` and no `Sub` node. -/
def no_add_sub : Node → Bool
  | .Num _ => true
  | .Add _ _ => false
  | .Sub _ _ => false
  | .Mul l r => no_add_sub l && no_add_sub r
  | .Div l r => no_add_sub l && no_add_sub r

/-- Shape of the tree of a derivation without parentheses, by nonterminal. -/
def flat_shape : NT → Node → Prop
  | .primary, t => ∃ n, t = .Num n
  | .mul, t => no_add_sub t = true
  | .expr, t => prec_ok t = true

/-- An integer literal: a non-empty run of decimal digits. -/
def is_literal (n : List Char) : Bool :=
  !n.isEmpty && n.all isdigit

/-- The input `n0 o1 n1 ... ok nk`, operators and literals separated by single spaces. -/
def chain_input (n0 : List Char) : List (Char × List Char) → List Char
  | [] => n0
  | q :: rest => n0 ++ ' ' :: q.1 :: ' ' :: chain_input q.2 rest

/-- The operator node built for an operator character. -/
def op_node (o : Char) (l r : Node) : Node :=
  if o = '+' then .Add l r
  else if o = '-' then .Sub l r
  else if o = '*' then .Mul l r
  else .Div l r

/-- The left fold `(((n0 o1 n1) o2 n2) ... ok nk)`, each literal a `Num` leaf
holding the value `tokenize` gives it. -/
def chain_tree (n0 : List Char) (rest : List (Char × List Char)) : Node :=
  rest.foldl (fun acc q => op_node q.1 acc (.Num (num_val q.2))) (.Num (num_val n0))

/-- What the parser reads of `chain_input`. -/
def chain_views (n0 : List Char) (rest : List (Char × List Char)) : List Tok :=
  .num (num_val n0) :: rest.flatMap (fun q => [.op q.1, .num (num_val q.2)])

/-- Every operator node on the left spine has a `Num` leaf as right child, down
to a `Num` leaf. -/
def left_comb : Node → Bool
  | .Num _ => true
  | .Add l (.Num _) => left_comb l
  | .Sub l (.Num _) => left_comb l
  | .Mul l (.Num _) => left_comb l
  | .Div l (.Num _) => left_comb l
  | _ => false

/-- Whether the token is located inside the run `run` that follows `pre` in the input. -/
def in_run (pre run : List Char) (t : Token) : Bool :=
  decide (pre.length ≤ t.str ∧ t.str < pre.length + run.length)

/-- The lines printed by some call of `gen` appear, in order, on the listing `l`. -/
def prints_gen (l : List Line) : Prop :=
  ∃ t, (gen t).Sublist l

/-- The values of the `Num` leaves of a tree, from left to right. -/
def leaves : Node → List Int
  | .Num val => [val]
  | .Add l r => leaves l ++ leaves r
  | .Sub l r => leaves l ++ leaves r
  | .Mul l r => leaves l ++ leaves r
  | .Div l r => leaves l ++ leaves r

/-- The number of `Add`, `Sub` and `Mul` nodes of a tree. -/
def count_arith : Node → Nat
  | .Num _ => 0
  | .Add l r => count_arith l + count_arith r + 1
  | .Sub l r => count_arith l + count_arith r + 1
  | .Mul l r => count_arith l + count_arith r + 1
  | .Div l r => count_arith l + count_arith r

/-- The number of `Div` nodes of a tree. -/
def count_div : Node → Nat
  | .Num _ => 0
  | .Add l r => count_div l + count_div r
  | .Sub l r => count_div l + count_div r
  | .Mul l r => count_div l + count_div r
  | .Div l r => count_div l + count_div r + 1

/-- The literal of a line `push <literal>`. -/
def imm_of : Line → Option Int
  | .push_imm val => some val
  | _ => none

/-- Whether the line is a `push`. -/
def is_push : Line → Bool
  | .push_imm _ => true
  | .push_rax => true
  | _ => false

/-- Whether the line is a `pop`. -/
def is_pop : Line → Bool
  | .pop_rdi => true
  | .pop_rax => true
  | _ => false

/-- The two global variables of the program.  `token` is the list that starts
at the token pointed at, `[]` for NULL; `user_input` is a `char*`, kept as an
offset into the memory `mem` that holds the characters of `argv[1]`. -/
structure Globals where
  token : List Token
  user_input : Nat
deriving DecidableEq, Repr

/-- How a function that works on the global variables ends: it returns a value
and leaves new globals, or it ends the process in `exit(1)` with a text on
standard error, or it dereferences NULL, or the model is out of fuel. -/
inductive Effect (α : Type) where
  | ret (a : α) (g : Globals)
  | exit (stderr : String)
  | null
  | fuel
deriving DecidableEq, Repr

/-- Sequencing of effects: `k` runs on the value and on the globals left. -/
def Effect.bind {α β : Type} (x : Effect α) (k : α → Globals → Effect β) : Effect β :=
  match x with
  | .ret a g => k a g
  | .exit s => .exit s
  | .null => .null
  | .fuel => .fuel

/-- The function `error_at` reading the global `user_input`: the line printed
with `%s` is the string at `user_input`, and `pos = loc - user_input`.  A
negative width of `%*s` pads on the other side with as many spaces, so the
characters printed are those for the absolute value. -/
def error_at_g {α : Type} (mem : List Char) (loc : Nat) (msg : String) (g : Globals) :
    Effect α :=
  .exit (error_at (mem.drop g.user_input) (Int.natAbs ((loc : Int) - (g.user_input : Int))) msg)

/-- The function `tokenize` called with the pointer `p`: the loop itself works
on `p` and on local variables, and its `error_at` reads `user_input`. -/
def tokenize_g (mem : List Char) (p : Nat) (g : Globals) : Effect (List Token) :=
  match tokenize_loop ((mem.drop p).length + 1) p (mem.drop p) with
  | .ok toks => .ret toks g
  | .error loc msg => error_at_g mem loc msg g
  | .null => .null
  | .fuel => .fuel

/-- The function `consume`, reading and assigning the global `token`. -/
def consume_g (mem : List Char) (op : Char) (g : Globals) : Effect Bool :=
  match g.token with
  | [] => .null
  | t :: next =>
    if not_op mem op t then .ret false g
    else .ret (!next.isEmpty) { g with token := next }

/-- The function `expect`, reading and assigning the global `token`. -/
def expect_g (mem : List Char) (op : Char) (g : Globals) : Effect Unit :=
  match g.token with
  | [] => .null
  | t :: next =>
    if not_op mem op t then error_at_g mem t.str (msg_expect op) g
    else .ret () { g with token := next }

/-- The function `expect_number`, reading and assigning the global `token`. -/
def expect_number_g (mem : List Char) (g : Globals) : Effect Int :=
  match g.token with
  | [] => .null
  | t :: next =>
    if t.kind != .TK_NUM then error_at_g mem t.str msg_not_number g
    else .ret t.val { g with token := next }

mutual
/-- The function `expr` on the globals. -/
def expr_g (mem : List Char) : Nat → Globals → Effect Node
  | 0, _ => .fuel
  | f + 1, g => (mul_g mem f g).bind (fun node g1 => expr_loop_g mem f node g1)
/-- The `for (;;)` loop of `expr` on the globals. -/
def expr_loop_g (mem : List Char) : Nat → Node → Globals → Effect Node
  | 0, _, _ => .fuel
  | f + 1, node, g =>
    (consume_g mem '+' g).bind (fun b g1 =>
      if b then (mul_g mem f g1).bind (fun r g2 => expr_loop_g mem f (new_node .ND_ADD node r) g2)
      else (consume_g mem '-' g1).bind (fun b2 g2 =>
        if b2 then
          (mul_g mem f g2).bind (fun r g3 => expr_loop_g mem f (new_node .ND_SUB node r) g3)
        else .ret node g2))
/-- The function `mul` on the globals. -/
def mul_g (mem : List Char) : Nat → Globals → Effect Node
  | 0, _ => .fuel
  | f + 1, g => (primary_g mem f g).bind (fun node g1 => mul_loop_g mem f node g1)
/-- The `for (;;)` loop of `mul` on the globals. -/
def mul_loop_g (mem : List Char) : Nat → Node → Globals → Effect Node
  | 0, _, _ => .fuel
  | f + 1, node, g =>
    (consume_g mem '*' g).bind (fun b g1 =>
      if b then
        (primary_g mem f g1).bind (fun r g2 => mul_loop_g mem f (new_node .ND_MUL node r) g2)
      else (consume_g mem '/' g1).bind (fun b2 g2 =>
        if b2 then
          (primary_g mem f g2).bind (fun r g3 => mul_loop_g mem f (new_node .ND_DIV node r) g3)
        else .ret node g2))
/-- The function `primary` on the globals. -/
def primary_g (mem : List Char) : Nat → Globals → Effect Node
  | 0, _ => .fuel
  | f + 1, g =>
    (consume_g mem '(' g).bind (fun b g1 =>
      if b then
        (expr_g mem f g1).bind (fun node g2 =>
          (expect_g mem ')' g2).bind (fun _ g3 => .ret node g3))
      else (expect_number_g mem g1).bind (fun v g2 => .ret (new_node_num v) g2))
end

/-- The statements of `main` that work on the globals, started with the values
`g`: `user_input = argv[1]`, where `argv[1]` is the start of the memory `arg`;
`token = tokenize(user_input)`; `expr()`. -/
def front_g (arg : List Char) (g : Globals) : Effect Node :=
  let g1 : Globals := { g with user_input := 0 }
  (tokenize_g arg g1.user_input g1).bind (fun toks g2 =>
    let g3 : Globals := { g2 with token := toks }
    expr_g arg (parse_fuel g3.token) g3)

/-- The function `main` started with the values `g` of the global variables. -/
def main_from (g : Globals) (argv : List (List Char)) : Outcome Process :=
  match argv with
  | [_, arg] =>
    match front_g arg g with
    | .ret node _ =>
      .ok { listing := [.intel_directive, .globl_main, .label_main] ++ gen node ++ [.pop_rax, .ret],
            stderr := "", status := 0 }
    | .exit s => .ok { listing := [], stderr := s, status := 1 }
    | .null => .null
    | .fuel => .fuel
  | _ => .ok { listing := [], stderr := "引数の個数が正しくありません\n\n", status := 1 }

/-- A call of the model that passes the cursor, seen as a call on the globals
`g`: the cursor returned is assigned to `token`, an error is reported by
`error_at` with the `user_input` of `g`. -/
def lift_g {α : Type} (mem : List Char) (g : Globals) : Outcome (α × List Token) → Effect α
  | .ok a => .ret a.1 { g with token := a.2 }
  | .error loc msg => error_at_g mem loc msg g
  | .null => .null
  | .fuel => .fuel

/-- The tree of the left fold `(((n0 o1 n1) o2 n2) ... ok nk)` whose leaves hold
the literals read in base 10. -/
def literal_tree (n0 : List Char) (rest : List (Char × List Char)) : Node :=
  rest.foldl (fun acc q => op_node q.1 acc (.Num (digitsVal q.2))) (.Num (digitsVal n0))

/-- The cursors the parser can be in, starting with `token = toks`: the global
`token` is assigned only in `consume`, `expect` and `expect_number`, so every
cursor of a run is reached through returns of these three. -/
inductive Reach (ui : List Char) (toks : List Token) : List Token → Prop where
  | start : Reach ui toks toks
  | consume {c c' : List Token} {op : Char} {b : Bool} :
      Reach ui toks c → consume ui op c = .ok (b, c') → Reach ui toks c'
  | expect {c c' : List Token} {op : Char} {u : Unit} :
      Reach ui toks c → expect ui op c = .ok (u, c') → Reach ui toks c'
  | expect_number {c c' : List Token} {v : Int} :
      Reach ui toks c → expect_number c = .ok (v, c') → Reach ui toks c'

/-- The fully parenthesised rendering of a tree: a leaf as its decimal digits,
an operator node as `(` lhs op rhs `)`. -/
def render : Node → List Char
  | .Num val => Nat.toDigits 10 val.toNat
  | .Add l r => '(' :: render l ++ '+' :: render r ++ [')']
  | .Sub l r => '(' :: render l ++ '-' :: render r ++ [')']
  | .Mul l r => '(' :: render l ++ '*' :: render r ++ [')']
  | .Div l r => '(' :: render l ++ '/' :: render r ++ [')']

/-- What the parser reads of `render t`. -/
def tree_views : Node → List Tok
  | .Num val => [.num val]
  | .Add l r => .op '(' :: tree_views l ++ .op '+' :: tree_views r ++ [.op ')']
  | .Sub l r => .op '(' :: tree_views l ++ .op '-' :: tree_views r ++ [.op ')']
  | .Mul l r => .op '(' :: tree_views l ++ .op '*' :: tree_views r ++ [.op ')']
  | .Div l r => .op '(' :: tree_views l ++ .op '/' :: tree_views r ++ [.op ')']

/-- The string `s'` is obtained from `s` by inserting white space characters,
none of them between two adjacent digits. -/
inductive WsInsert : List Char → List Char → Prop where
  | refl (s : List Char) : WsInsert s s
  | step {s a b : List Char} (w : Char) :
      WsInsert s (a ++ b) → isspace w = true →
      ¬ (ends_digit a = true ∧ starts_digit b = true) → WsInsert s (a ++ w :: b)

/-- What a token holds apart from its offset: its kind, its value and the
character its `str` points at in `ui`. -/
def reading (ui : List Char) (t : Token) : TokenKind × Int × Char :=
  (t.kind, t.val, deref ui t.str)

/-- Two calls end alike: both return, with values related by `R`, or both stop
in `error_at` with the same message, or both end abnormally in the same way. -/
def Outcome.rel {α β : Type} (R : α → β → Prop) : Outcome α → Outcome β → Prop
  | .ok a, .ok b => R a b
  | .error _ msg, .error _ msg' => msg = msg'
  | .null, .null => True
  | .fuel, .fuel => True
  | _, _ => False

/-- Two cursors show the parser the same tokens, each through its own input. -/
def same_views (ui ui' : List Char) (c c' : List Token) : Prop :=
  c.map (view ui) = c'.map (view ui')
/-! ## Machine integers -/

theorem wrap64_lower (x : Int) : -9223372036854775808 ≤ wrap64 x := by
  unfold wrap64; omega

theorem wrap64_upper (x : Int) : wrap64 x < 9223372036854775808 := by
  unfold wrap64; omega

theorem wrap64_id (x : Int) (h1 : -9223372036854775808 ≤ x) (h2 : x < 9223372036854775808) :
    wrap64 x = x := by
  unfold wrap64; omega

theorem eval_range (t : Node) (h : IntLeaves t) :
    -9223372036854775808 ≤ eval t ∧ eval t < 9223372036854775808 := by
  cases t with
  | Num n => simp only [IntLeaves] at h; simp only [eval]; omega
  | Add l r => exact ⟨wrap64_lower _, wrap64_upper _⟩
  | Sub l r => exact ⟨wrap64_lower _, wrap64_upper _⟩
  | Mul l r => exact ⟨wrap64_lower _, wrap64_upper _⟩
  | Div l r => exact ⟨wrap64_lower _, wrap64_upper _⟩

/-! ## Execution of generated code -/

theorem exec_append (a b : List Line) (m : Machine) (h : Line.ret ∉ a) :
    exec (a ++ b) m = (exec a m).bind (exec b) := by
  induction a generalizing m with
  | nil => simp [exec]
  | cons l ls ih =>
    have hl : l ≠ Line.ret := fun e => h (by simp [e])
    have hls : Line.ret ∉ ls := fun e => h (by simp [e])
    cases l <;> first
      | exact absurd rfl hl
      | (simp only [List.cons_append, exec]
         cases hs : step _ m with
         | none => simp
         | some m' => simp [ih m' hls])

theorem gen_no_ret (t : Node) : Line.ret ∉ gen t := by
  induction t <;> simp_all [gen]

theorem tdiv_range (a b : Int) (ha1 : -9223372036854775808 ≤ a) (ha2 : a < 9223372036854775808)
    (hb : b ≠ 0) (hab : ¬ (a = -9223372036854775808 ∧ b = -1)) :
    -9223372036854775808 ≤ Int.tdiv a b ∧ Int.tdiv a b < 9223372036854775808 := by
  have hq : (Int.tdiv a b).natAbs = a.natAbs / b.natAbs := Int.natAbs_tdiv a b
  rcases Nat.lt_or_ge b.natAbs 2 with hlt | hge
  · have hb1 : b = 1 ∨ b = -1 := by omega
    rcases hb1 with rfl | rfl
    · rw [Int.tdiv_one]; omega
    · have hneg : Int.tdiv a (-1) = -a := by
        rw [Int.tdiv_neg, Int.tdiv_one]
      rw [hneg]; omega
  · have h2 : a.natAbs / b.natAbs ≤ a.natAbs / 2 := Nat.div_le_div_left hge (by decide)
    omega

theorem step_idiv (rax rdi rdx : Int) (s : List Int)
    (h1 : -9223372036854775808 ≤ rax) (h2 : rax < 9223372036854775808)
    (hb : rdi ≠ 0) (hab : ¬ (rax = -9223372036854775808 ∧ rdi = -1)) :
    (step .cqo ⟨rax, rdi, rdx, s⟩).bind (step .idiv_rdi) =
      some ⟨Int.tdiv rax rdi, rdi, Int.tmod rax rdi, s⟩ := by
  have hdiv : (if rax < 0 then (-1 : Int) else 0) * 18446744073709551616
      + rax % 18446744073709551616 = rax := by
    split <;> omega
  have hr := tdiv_range rax rdi h1 h2 hb hab
  simp only [step, Option.bind, hdiv]
  rw [if_neg hb, if_neg (by omega)]


/-! ## Tokenizer: libc facts -/

theorem isdigit_not_isspace (c : Char) (h : isdigit c = true) : isspace c = false := by
  simp only [isdigit, isspace, Bool.and_eq_true, decide_eq_true_eq, Bool.or_eq_false_iff,
    decide_eq_false_iff_not, Bool.and_eq_false_iff] at *
  omega

theorem isdigit_not_reserved (c : Char) (h : isdigit c = true) : is_reserved c = false := by
  simp only [isdigit, Bool.and_eq_true, decide_eq_true_eq] at h
  simp only [is_reserved, Bool.or_eq_false_iff, decide_eq_false_iff_not]
  refine ⟨⟨⟨⟨⟨?_, ?_⟩, ?_⟩, ?_⟩, ?_⟩, ?_⟩ <;> (intro e; subst e; revert h; decide)

theorem strtol_digit (c : Char) (rest : List Char) (h : isdigit c = true) :
    strtol (c :: rest) =
      (min LONG_MAX (digitsVal (c :: rest.takeWhile isdigit) : Int), rest.dropWhile isdigit) := by
  have hs := isdigit_not_isspace c h
  have hm : c ≠ '-' := by intro e; subst e; revert h; decide
  have hp : c ≠ '+' := by intro e; subst e; revert h; decide
  have hv : (0 : Int) ≤ (digitsVal (c :: rest.takeWhile isdigit) : Int) := Int.ofNat_nonneg _
  simp only [strtol, List.dropWhile_cons, hs, hm, hp, if_false, List.takeWhile_cons, h, if_true,
    List.isEmpty_cons, Bool.false_eq_true, LONG_MIN, LONG_MAX]
  simp only [LONG_MAX] at hv ⊢
  congr 1
  omega

theorem takeWhile_dropWhile_length (q : Char → Bool) (l : List Char) :
    (l.takeWhile q).length + (l.dropWhile q).length = l.length := by
  induction l with
  | nil => rfl
  | cons a l ih =>
    by_cases h : q a = true
    · simp only [List.takeWhile_cons, List.dropWhile_cons, h, if_true, List.length_cons]; omega
    · simp only [List.takeWhile_cons, List.dropWhile_cons, h, Bool.false_eq_true, if_false,
        List.length_cons, List.length_nil]; omega

/-! ## Tokenizer: fuel and unfolding -/

theorem tokenize_loop_fuel (f : Nat) : ∀ (pos : Nat) (p : List Char), p.length < f →
    tokenize_loop f pos p = tokenize_at pos p := by
  induction f using Nat.strong_induction_on with
  | _ f ih =>
    intro pos p hp
    cases f with
    | zero => omega
    | succ f =>
      cases p with
      | nil => simp [tokenize_at, tokenize_loop]
      | cons c rest =>
        have hr : rest.length < f := by simpa using hp
        have hd := takeWhile_dropWhile_length isdigit rest
        simp only [tokenize_at, List.length_cons, tokenize_loop]
        by_cases hs : isspace c = true
        · simp only [hs, if_true]
          rw [ih f (by omega) _ _ hr, ih (rest.length + 1) (by omega) _ _ (by omega)]
        · simp only [hs, Bool.false_eq_true, if_false]
          by_cases hres : is_reserved c = true
          · simp only [hres, if_true]
            rw [ih f (by omega) _ _ hr, ih (rest.length + 1) (by omega) _ _ (by omega)]
          · simp only [hres, Bool.false_eq_true, if_false]
            by_cases hdg : isdigit c = true
            · simp only [hdg, if_true, strtol_digit c rest hdg]
              rw [ih f (by omega) _ _ (by omega), ih (rest.length + 1) (by omega) _ _ (by omega)]
            · simp only [hdg, Bool.false_eq_true, if_false]

theorem tokenize_eq_at (p : List Char) : tokenize p = tokenize_at 0 p := rfl

theorem tokenize_at_nil (pos : Nat) : tokenize_at pos [] = .ok [new_token .TK_EOF pos] := rfl

theorem tokenize_at_space (pos : Nat) (c : Char) (rest : List Char) (h : isspace c = true) :
    tokenize_at pos (c :: rest) = tokenize_at (pos + 1) rest := by
  simp only [tokenize_at, List.length_cons, tokenize_loop, h, if_true]

theorem tokenize_at_reserved (pos : Nat) (c : Char) (rest : List Char)
    (h : is_reserved c = true) :
    tokenize_at pos (c :: rest) =
      link (new_token .TK_RESERVED pos) (tokenize_at (pos + 1) rest) := by
  have hs : isspace c = false := by
    cases hsp : isspace c with
    | false => rfl
    | true =>
      exfalso
      simp only [is_reserved, Bool.or_eq_true, decide_eq_true_eq] at h
      rcases h with ((((h | h) | h) | h) | h) | h <;> (subst h; revert hsp; decide)
  simp only [tokenize_at, List.length_cons, tokenize_loop, hs, h, if_true, Bool.false_eq_true,
    if_false]

theorem tokenize_at_digit (pos : Nat) (c : Char) (rest : List Char) (h : isdigit c = true) :
    tokenize_at pos (c :: rest) =
      link ⟨.TK_NUM, num_val (c :: rest.takeWhile isdigit), pos⟩
        (tokenize_at (pos + (1 + (rest.takeWhile isdigit).length)) (rest.dropWhile isdigit)) := by
  have hd := takeWhile_dropWhile_length isdigit rest
  rw [show tokenize_at pos (c :: rest)
    = tokenize_loop ((c :: rest).length + 1) pos (c :: rest) from rfl]
  simp only [List.length_cons, tokenize_loop, isdigit_not_isspace c h,
    isdigit_not_reserved c h, h, if_true, Bool.false_eq_true, if_false, strtol_digit c rest h]
  rw [tokenize_loop_fuel _ _ _ (by omega)]
  have e : pos + (rest.length + 1 - (List.dropWhile isdigit rest).length)
      = pos + (1 + (rest.takeWhile isdigit).length) := by omega
  rw [e]
  rfl

theorem tokenize_at_other (pos : Nat) (c : Char) (rest : List Char) (h : is_other c = true) :
    tokenize_at pos (c :: rest) = .error pos msg_tokenize := by
  simp only [is_other, Bool.and_eq_true, Bool.not_eq_true'] at h
  simp only [tokenize_at, List.length_cons, tokenize_loop, h.1.1, h.1.2, h.2, Bool.false_eq_true,
    if_false]

/-- Induction along the scan of `tokenize`. -/
theorem tokenize_induct (P : Nat → List Char → Prop)
    (nil : ∀ pos, P pos [])
    (space : ∀ pos c rest, isspace c = true → P (pos + 1) rest → P pos (c :: rest))
    (reserved : ∀ pos c rest, is_reserved c = true → P (pos + 1) rest → P pos (c :: rest))
    (digit : ∀ pos c rest, isdigit c = true →
      P (pos + (1 + (rest.takeWhile isdigit).length)) (rest.dropWhile isdigit) →
      P pos (c :: rest))
    (other : ∀ pos c rest, is_other c = true → P pos (c :: rest)) :
    ∀ pos p, P pos p := by
  intro pos p
  generalize hn : p.length = n
  induction n using Nat.strong_induction_on generalizing pos p with
  | _ n ih =>
    cases p with
    | nil => exact nil pos
    | cons c rest =>
      simp only [List.length_cons] at hn
      by_cases hs : isspace c = true
      · exact space pos c rest hs (ih rest.length (by omega) _ rest rfl)
      · by_cases hr : is_reserved c = true
        · exact reserved pos c rest hr (ih rest.length (by omega) _ rest rfl)
        · by_cases hd : isdigit c = true
          · have hl := takeWhile_dropWhile_length isdigit rest
            exact digit pos c rest hd (ih _ (by omega) _ _ rfl)
          · exact other pos c rest (by simp [is_other, hs, hr, hd])

theorem link_ok (t : Token) (r : Outcome (List Token)) (ts : List Token)
    (h : link t r = .ok ts) : ∃ ts', r = .ok ts' ∧ ts = t :: ts' := by
  cases r with
  | ok a => simp only [link, Outcome.bind, Outcome.ok.injEq] at h; exact ⟨a, rfl, h.symm⟩
  | error loc msg => simp [link, Outcome.bind] at h
  | null => simp [link, Outcome.bind] at h
  | fuel => simp [link, Outcome.bind] at h

theorem link_error (t : Token) (r : Outcome (List Token)) (loc : Nat) (msg : String)
    (h : link t r = .error loc msg) : r = .error loc msg := by
  cases r with
  | ok a => simp [link, Outcome.bind] at h
  | error loc msg => simpa [link, Outcome.bind] using h
  | null => simp [link, Outcome.bind] at h
  | fuel => simp [link, Outcome.bind] at h

/-- The scan always ends: it returns tokens or stops in `error_at`. -/
theorem tokenize_at_total (pos : Nat) (p : List Char) :
    (∃ ts, tokenize_at pos p = .ok ts) ∨ (∃ loc, tokenize_at pos p = .error loc msg_tokenize) := by
  induction pos, p using tokenize_induct with
  | nil pos => exact Or.inl ⟨_, rfl⟩
  | space pos c rest h ih => rw [tokenize_at_space pos c rest h]; exact ih
  | reserved pos c rest h ih =>
    rw [tokenize_at_reserved pos c rest h]
    rcases ih with ⟨ts, e⟩ | ⟨loc, e⟩
    · exact Or.inl ⟨_, by rw [e]; rfl⟩
    · exact Or.inr ⟨loc, by rw [e]; rfl⟩
  | digit pos c rest h ih =>
    rw [tokenize_at_digit pos c rest h]
    rcases ih with ⟨ts, e⟩ | ⟨loc, e⟩
    · exact Or.inl ⟨_, by rw [e]; rfl⟩
    · exact Or.inr ⟨loc, by rw [e]; rfl⟩
  | other pos c rest h => exact Or.inr ⟨pos, tokenize_at_other pos c rest h⟩

theorem tokenize_at_shift (k : Nat) (pos : Nat) (p : List Char) :
    tokenize_at (pos + k) p = shift_outcome k (tokenize_at pos p) := by
  induction pos, p using tokenize_induct with
  | nil pos => rfl
  | space pos c rest h ih =>
    rw [tokenize_at_space _ c rest h, tokenize_at_space _ c rest h, ← ih]
    congr 1; omega
  | reserved pos c rest h ih =>
    rw [tokenize_at_reserved _ c rest h, tokenize_at_reserved _ c rest h,
      show pos + k + 1 = pos + 1 + k by omega, ih]
    cases tokenize_at (pos + 1) rest <;> rfl
  | digit pos c rest h ih =>
    rw [tokenize_at_digit _ c rest h, tokenize_at_digit _ c rest h,
      show pos + k + (1 + (rest.takeWhile isdigit).length)
        = pos + (1 + (rest.takeWhile isdigit).length) + k by omega, ih]
    cases tokenize_at (pos + (1 + (rest.takeWhile isdigit).length)) (rest.dropWhile isdigit) <;> rfl
  | other pos c rest h =>
    rw [tokenize_at_other _ c rest h, tokenize_at_other _ c rest h]; rfl

theorem not_other_of_space (c : Char) (h : isspace c = true) : is_other c = false := by
  simp [is_other, h]

theorem not_other_of_reserved (c : Char) (h : is_reserved c = true) : is_other c = false := by
  simp [is_other, h]

theorem not_other_of_digit (c : Char) (h : isdigit c = true) : is_other c = false := by
  simp [is_other, h]

/-- Either no character is foreign and the scan returns tokens, or the scan
stops at the first foreign character. -/
theorem tokenize_at_first_other (pos : Nat) (p : List Char) :
    ((∀ c ∈ p, is_other c = false) ∧ ∃ ts, tokenize_at pos p = .ok ts) ∨
    (∃ pre c post, p = pre ++ c :: post ∧ (∀ x ∈ pre, is_other x = false) ∧
      is_other c = true ∧ tokenize_at pos p = .error (pos + pre.length) msg_tokenize) := by
  induction pos, p using tokenize_induct with
  | nil pos => exact Or.inl ⟨by simp, _, rfl⟩
  | space pos c rest h ih =>
    rw [tokenize_at_space pos c rest h]
    rcases ih with ⟨hall, ts, e⟩ | ⟨pre, x, post, hp, hpre, hx, e⟩
    · left
      refine ⟨?_, ts, e⟩
      intro y hy
      rcases List.mem_cons.1 hy with rfl | hy
      · exact not_other_of_space _ h
      · exact hall y hy
    · right
      refine ⟨c :: pre, x, post, by rw [hp]; rfl, ?_, hx, ?_⟩
      · intro y hy
        rcases List.mem_cons.1 hy with rfl | hy
        · exact not_other_of_space _ h
        · exact hpre y hy
      · rw [e]; congr 1; simp only [List.length_cons]; omega
  | reserved pos c rest h ih =>
    rw [tokenize_at_reserved pos c rest h]
    rcases ih with ⟨hall, ts, e⟩ | ⟨pre, x, post, hp, hpre, hx, e⟩
    · left
      refine ⟨?_, _, by rw [e]; rfl⟩
      intro y hy
      rcases List.mem_cons.1 hy with rfl | hy
      · exact not_other_of_reserved _ h
      · exact hall y hy
    · right
      refine ⟨c :: pre, x, post, by rw [hp]; rfl, ?_, hx, ?_⟩
      · intro y hy
        rcases List.mem_cons.1 hy with rfl | hy
        · exact not_other_of_reserved _ h
        · exact hpre y hy
      · rw [e]; simp only [link, Outcome.bind, List.length_cons]; congr 1; omega
  | digit pos c rest h ih =>
    rw [tokenize_at_digit pos c rest h]
    have hsplit := List.takeWhile_append_dropWhile isdigit rest
    have htw : ∀ y ∈ rest.takeWhile isdigit, is_other y = false :=
      fun y hy => not_other_of_digit y (List.mem_takeWhile_imp hy)
    rcases ih with ⟨hall, ts, e⟩ | ⟨pre, x, post, hp, hpre, hx, e⟩
    · left
      refine ⟨?_, _, by rw [e]; rfl⟩
      intro y hy
      rcases List.mem_cons.1 hy with rfl | hy
      · exact not_other_of_digit _ h
      · rw [← hsplit] at hy
        rcases List.mem_append.1 hy with hy | hy
        · exact htw y hy
        · exact hall y hy
    · right
      refine ⟨c :: (rest.takeWhile isdigit ++ pre), x, post, ?_, ?_, hx, ?_⟩
      · rw [List.cons_append, List.append_assoc, ← hp, hsplit]
      · intro y hy
        rcases List.mem_cons.1 hy with rfl | hy
        · exact not_other_of_digit _ h
        · rcases List.mem_append.1 hy with hy | hy
          · exact htw y hy
          · exact hpre y hy
      · rw [e]; simp only [link, Outcome.bind, List.length_cons, List.length_append]
        congr 1; omega
  | other pos c rest h =>
    right
    exact ⟨[], c, rest, rfl, by simp, h, by rw [tokenize_at_other pos c rest h]; rfl⟩

theorem deref_append_cons (pre : List Char) (c : Char) (rest : List Char) :
    deref (pre ++ c :: rest) pre.length = c := by
  induction pre with
  | nil => rfl
  | cons a pre ih => simpa [deref] using ih

/-- Shape of the token list of a scan resumed after the characters `pre`. -/
theorem tokenize_at_shape (pos : Nat) (p : List Char) :
    ∀ (pre : List Char), pre.length = pos → ∀ ts, tokenize_at pos p = .ok ts →
    ∃ body, ts = body ++ [new_token .TK_EOF (pos + p.length)] ∧
      ∀ t ∈ body, pos ≤ t.str ∧ t.str < pos + p.length ∧
        ((t.kind = .TK_RESERVED ∧ t.val = 0 ∧ is_reserved (deref (pre ++ p) t.str) = true) ∨
         (t.kind = .TK_NUM ∧ isdigit (deref (pre ++ p) t.str) = true)) := by
  induction pos, p using tokenize_induct with
  | nil pos =>
    intro pre _ ts h
    rw [tokenize_at_nil] at h
    injection h with h
    exact ⟨[], by rw [← h]; rfl, by simp⟩
  | space pos c rest hc ih =>
    intro pre hpre ts h
    rw [tokenize_at_space pos c rest hc] at h
    obtain ⟨body, e, hb⟩ := ih (pre ++ [c]) (by simp [hpre]) ts h
    refine ⟨body, by
      rw [e, List.length_cons, show pos + 1 + rest.length = pos + (rest.length + 1) by omega], ?_⟩
    intro t ht
    obtain ⟨h1, h2, h3⟩ := hb t ht
    rw [List.append_assoc] at h3
    simp only [List.length_cons]
    exact ⟨by omega, by omega, h3⟩
  | reserved pos c rest hc ih =>
    intro pre hpre ts h
    rw [tokenize_at_reserved pos c rest hc] at h
    obtain ⟨ts', h', rfl⟩ := link_ok _ _ _ h
    obtain ⟨body, e, hb⟩ := ih (pre ++ [c]) (by simp [hpre]) ts' h'
    refine ⟨new_token .TK_RESERVED pos :: body, by
      rw [e, List.length_cons, show pos + 1 + rest.length = pos + (rest.length + 1) by omega]
      rfl, ?_⟩
    intro t ht
    rcases List.mem_cons.1 ht with rfl | ht
    · refine ⟨Nat.le_refl _, by simp only [new_token, List.length_cons]; omega,
        Or.inl ⟨rfl, rfl, ?_⟩⟩
      simp only [new_token]
      rw [← hpre, deref_append_cons]; exact hc
    · obtain ⟨h1, h2, h3⟩ := hb t ht
      rw [List.append_assoc] at h3
      simp only [List.length_cons]
      exact ⟨by omega, by omega, h3⟩
  | digit pos c rest hc ih =>
    intro pre hpre ts h
    rw [tokenize_at_digit pos c rest hc] at h
    obtain ⟨ts', h', rfl⟩ := link_ok _ _ _ h
    have hsplit := List.takeWhile_append_dropWhile isdigit rest
    have hlen := takeWhile_dropWhile_length isdigit rest
    obtain ⟨body, e, hb⟩ := ih (pre ++ c :: rest.takeWhile isdigit)
      (by simp only [List.length_append, List.length_cons, hpre]; omega) ts' h'
    refine ⟨_ :: body, by
      rw [e, List.length_cons, show pos + (1 + (rest.takeWhile isdigit).length)
        + (rest.dropWhile isdigit).length = pos + (rest.length + 1) by omega]
      rfl, ?_⟩
    intro t ht
    rcases List.mem_cons.1 ht with rfl | ht
    · refine ⟨Nat.le_refl _, by simp only [List.length_cons]; omega, Or.inr ⟨rfl, ?_⟩⟩
      simp only
      rw [← hpre, deref_append_cons]; exact hc
    · obtain ⟨h1, h2, h3⟩ := hb t ht
      rw [List.append_assoc, List.cons_append, hsplit] at h3
      simp only [List.length_cons]
      exact ⟨by omega, by omega, h3⟩
  | other pos c rest hc =>
    intro pre _ ts h
    rw [tokenize_at_other pos c rest hc] at h
    cases h

/-! ## Tokenizer: concatenation of inputs -/

theorem ends_digit_append (a s : List Char) (hs : s ≠ []) :
    ends_digit (a ++ s) = ends_digit s := by
  induction a with
  | nil => rfl
  | cons x a ih =>
    cases hA : a ++ s with
    | nil => simp [hs] at hA
    | cons y l => rw [List.cons_append, hA, ends_digit, ← hA, ih]

theorem ends_digit_ne_nil (l : List Char) (h : ends_digit l = true) : l ≠ [] := by
  intro e; subst e; simp [ends_digit] at h

theorem starts_digit_false_takeWhile (b : List Char) (h : starts_digit b = false) :
    b.takeWhile isdigit = [] ∧ b.dropWhile isdigit = b := by
  cases b with
  | nil => exact ⟨rfl, rfl⟩
  | cons x b =>
    simp only [starts_digit] at h
    simp [List.takeWhile_cons, List.dropWhile_cons, h]

theorem digit_run_append (c : Char) (rest b : List Char) (hc : isdigit c = true)
    (hb : ¬ (ends_digit (c :: rest) = true ∧ starts_digit b = true)) :
    (rest ++ b).takeWhile isdigit = rest.takeWhile isdigit ∧
    (rest ++ b).dropWhile isdigit = rest.dropWhile isdigit ++ b := by
  induction rest generalizing c with
  | nil =>
    have hsb : starts_digit b = false := by
      cases hsd : starts_digit b with
      | false => rfl
      | true => exact absurd ⟨by simpa [ends_digit] using hc, hsd⟩ hb
    simpa using starts_digit_false_takeWhile b hsb
  | cons x rest ih =>
    by_cases hx : isdigit x = true
    · have := ih x hx (by simpa [ends_digit] using hb)
      simp only [List.cons_append, List.takeWhile_cons, List.dropWhile_cons, hx, if_true,
        this.1, this.2, and_self]
    · simp only [List.cons_append, List.takeWhile_cons, List.dropWhile_cons, hx,
        Bool.false_eq_true, if_false, and_self]

theorem bind_ok_id (r : Outcome (List Token)) : r.bind (fun tb => .ok ([] ++ tb)) = r := by
  cases r <;> rfl

theorem tokenize_at_ne_nil (pos : Nat) (p : List Char) (ts : List Token)
    (h : tokenize_at pos p = .ok ts) : ts ≠ [] := by
  obtain ⟨body, e, _⟩ := tokenize_at_shape pos p (List.replicate pos ' ') (by simp) ts h
  rw [e]; simp

/-- The tokens of `a ++ b` are the tokens of `a` without their `TK_EOF`,
followed by the tokens of `b`, unless a run of digits crosses the seam. -/
theorem tokenize_at_append (pos : Nat) (a : List Char) :
    ∀ b, ¬ (ends_digit a = true ∧ starts_digit b = true) →
    tokenize_at pos (a ++ b) =
      (match tokenize_at pos a with
       | .ok ta => (tokenize_at (pos + a.length) b).bind (fun tb => .ok (ta.dropLast ++ tb))
       | r => r) := by
  induction pos, a using tokenize_induct with
  | nil pos =>
    intro b _
    simp only [List.nil_append, tokenize_at_nil, List.length_nil, Nat.add_zero]
    exact (bind_ok_id _).symm
  | space pos c rest hc ih =>
    intro b hb
    have hb' : ¬ (ends_digit rest = true ∧ starts_digit b = true) := by
      rintro ⟨h1, h2⟩
      apply hb
      refine ⟨?_, h2⟩
      have := ends_digit_append [c] rest (ends_digit_ne_nil rest h1)
      simpa [h1] using this
    rw [List.cons_append, tokenize_at_space pos c _ hc, tokenize_at_space pos c _ hc, ih b hb',
      List.length_cons, show pos + 1 + rest.length = pos + (rest.length + 1) by omega]
  | reserved pos c rest hc ih =>
    intro b hb
    have hb' : ¬ (ends_digit rest = true ∧ starts_digit b = true) := by
      rintro ⟨h1, h2⟩
      apply hb
      refine ⟨?_, h2⟩
      have := ends_digit_append [c] rest (ends_digit_ne_nil rest h1)
      simpa [h1] using this
    rw [List.cons_append, tokenize_at_reserved pos c _ hc, tokenize_at_reserved pos c _ hc,
      ih b hb', List.length_cons, show pos + 1 + rest.length = pos + (rest.length + 1) by omega]
    cases hr : tokenize_at (pos + 1) rest with
    | ok ta =>
      have hne := tokenize_at_ne_nil _ _ _ hr
      simp only [link, Outcome.bind]
      cases tokenize_at (pos + (rest.length + 1)) b <;>
        simp [List.dropLast_cons_of_ne_nil hne]
    | error loc msg => rfl
    | null => rfl
    | fuel => rfl
  | digit pos c rest hc ih =>
    intro b hb
    obtain ⟨e1, e2⟩ := digit_run_append c rest b hc hb
    have hlen := takeWhile_dropWhile_length isdigit rest
    have hb' : ¬ (ends_digit (rest.dropWhile isdigit) = true ∧ starts_digit b = true) := by
      rintro ⟨h1, h2⟩
      apply hb
      refine ⟨?_, h2⟩
      have := ends_digit_append (c :: rest.takeWhile isdigit) (rest.dropWhile isdigit)
        (ends_digit_ne_nil _ h1)
      rw [List.cons_append, List.takeWhile_append_dropWhile] at this
      rw [this]; exact h1
    rw [List.cons_append, tokenize_at_digit pos c _ hc, tokenize_at_digit pos c _ hc, e1, e2,
      ih b hb', List.length_cons,
      show pos + (1 + (rest.takeWhile isdigit).length) + (rest.dropWhile isdigit).length
        = pos + (rest.length + 1) by omega]
    cases hr : tokenize_at (pos + (1 + (rest.takeWhile isdigit).length))
        (rest.dropWhile isdigit) with
    | ok ta =>
      have hne := tokenize_at_ne_nil _ _ _ hr
      simp only [link, Outcome.bind]
      cases tokenize_at (pos + (rest.length + 1)) b <;>
        simp [List.dropLast_cons_of_ne_nil hne]
    | error loc msg => rfl
    | null => rfl
    | fuel => rfl
  | other pos c rest hc =>
    intro b _
    rw [List.cons_append, tokenize_at_other pos c _ hc, tokenize_at_other pos c _ hc]

/-! ## Parser: unfolding by the reading of the next token -/

theorem not_op_eq (ui : List Char) (op : Char) (t : Token) :
    not_op ui op t = !decide (view ui t = .op op) := by
  obtain ⟨k, v, s⟩ := t
  cases k
  · simp only [not_op, view, bne, Tok.op.injEq]
    rfl
  · simp [not_op, view]
  · simp [not_op, view]

theorem kind_num_eq (ui : List Char) (t : Token) :
    (t.kind != .TK_NUM) = !decide (view ui t = .num t.val) := by
  obtain ⟨k, v, s⟩ := t
  cases k <;> simp [view]

theorem consume_hit (ui : List Char) (op : Char) (t : Token) (next : List Token)
    (h : view ui t = .op op) :
    consume ui op (t :: next) = .ok (!next.isEmpty, next) := by
  simp [consume, not_op_eq, h]

theorem consume_miss (ui : List Char) (op : Char) (t : Token) (next : List Token)
    (h : view ui t ≠ .op op) :
    consume ui op (t :: next) = .ok (false, t :: next) := by
  simp [consume, not_op_eq, h]

theorem expect_hit (ui : List Char) (op : Char) (t : Token) (next : List Token)
    (h : view ui t = .op op) :
    expect ui op (t :: next) = .ok ((), next) := by
  simp [expect, not_op_eq, h]

theorem expect_miss (ui : List Char) (op : Char) (t : Token) (next : List Token)
    (h : view ui t ≠ .op op) :
    expect ui op (t :: next) = .error t.str (msg_expect op) := by
  simp [expect, not_op_eq, h]

theorem expect_number_hit (ui : List Char) (t : Token) (next : List Token) (v : Int)
    (h : view ui t = .num v) :
    expect_number (t :: next) = .ok (v, next) := by
  obtain ⟨k, w, s⟩ := t
  cases k <;> simp_all [expect_number, view]

theorem expect_number_miss (ui : List Char) (t : Token) (next : List Token)
    (h : ∀ v, view ui t ≠ .num v) :
    expect_number (t :: next) = .error t.str msg_not_number := by
  obtain ⟨k, w, s⟩ := t
  cases k <;> simp_all [expect_number, view]

theorem primary_nil (ui : List Char) (f : Nat) : primary ui (f + 1) [] = .null := by
  simp [primary, consume, Outcome.bind]

theorem primary_num (ui : List Char) (f : Nat) (t : Token) (next : List Token) (v : Int)
    (h : view ui t = .num v) :
    primary ui (f + 1) (t :: next) = .ok (.Num v, next) := by
  have h1 : view ui t ≠ .op '(' := by rw [h]; simp
  simp [primary, consume_miss ui _ t next h1, expect_number_hit ui t next v h, Outcome.bind,
    new_node_num]

theorem primary_paren (ui : List Char) (f : Nat) (t : Token) (next : List Token)
    (h : view ui t = .op '(') (hn : next ≠ []) :
    primary ui (f + 1) (t :: next) =
      (expr ui f next).bind (fun r => (expect ui ')' r.2).bind (fun e => .ok (r.1, e.2))) := by
  cases next with
  | nil => exact absurd rfl hn
  | cons x xs => simp [primary, consume_hit ui _ t _ h, Outcome.bind]

theorem primary_paren_last (ui : List Char) (f : Nat) (t : Token)
    (h : view ui t = .op '(') :
    primary ui (f + 1) [t] = .null := by
  simp [primary, consume_hit ui _ t _ h, Outcome.bind, expect_number]

theorem primary_miss (ui : List Char) (f : Nat) (t : Token) (next : List Token)
    (h1 : view ui t ≠ .op '(') (h2 : ∀ v, view ui t ≠ .num v) :
    primary ui (f + 1) (t :: next) = .error t.str msg_not_number := by
  simp [primary, consume_miss ui _ t next h1, expect_number_miss ui t next h2, Outcome.bind]

theorem mul_loop_nil (ui : List Char) (f : Nat) (node : Node) :
    mul_loop ui (f + 1) node [] = .null := by
  simp [mul_loop, consume, Outcome.bind]

theorem mul_loop_star (ui : List Char) (f : Nat) (node : Node) (t : Token) (next : List Token)
    (h : view ui t = .op '*') (hn : next ≠ []) :
    mul_loop ui (f + 1) node (t :: next) =
      (primary ui f next).bind (fun r => mul_loop ui f (.Mul node r.1) r.2) := by
  cases next with
  | nil => exact absurd rfl hn
  | cons x xs => simp [mul_loop, consume_hit ui _ t _ h, Outcome.bind, new_node]

theorem mul_loop_slash (ui : List Char) (f : Nat) (node : Node) (t : Token) (next : List Token)
    (h : view ui t = .op '/') (hn : next ≠ []) :
    mul_loop ui (f + 1) node (t :: next) =
      (primary ui f next).bind (fun r => mul_loop ui f (.Div node r.1) r.2) := by
  have h1 : view ui t ≠ .op '*' := by rw [h]; decide
  cases next with
  | nil => exact absurd rfl hn
  | cons x xs =>
    simp [mul_loop, consume_miss ui _ t _ h1, consume_hit ui _ t _ h, Outcome.bind, new_node]

theorem mul_loop_done (ui : List Char) (f : Nat) (node : Node) (t : Token) (next : List Token)
    (h1 : view ui t ≠ .op '*') (h2 : view ui t ≠ .op '/') :
    mul_loop ui (f + 1) node (t :: next) = .ok (node, t :: next) := by
  simp [mul_loop, consume_miss ui _ t _ h1, consume_miss ui _ t _ h2, Outcome.bind]

theorem expr_loop_nil (ui : List Char) (f : Nat) (node : Node) :
    expr_loop ui (f + 1) node [] = .null := by
  simp [expr_loop, consume, Outcome.bind]

theorem expr_loop_plus (ui : List Char) (f : Nat) (node : Node) (t : Token) (next : List Token)
    (h : view ui t = .op '+') (hn : next ≠ []) :
    expr_loop ui (f + 1) node (t :: next) =
      (mul ui f next).bind (fun r => expr_loop ui f (.Add node r.1) r.2) := by
  cases next with
  | nil => exact absurd rfl hn
  | cons x xs => simp [expr_loop, consume_hit ui _ t _ h, Outcome.bind, new_node]

theorem expr_loop_minus (ui : List Char) (f : Nat) (node : Node) (t : Token) (next : List Token)
    (h : view ui t = .op '-') (hn : next ≠ []) :
    expr_loop ui (f + 1) node (t :: next) =
      (mul ui f next).bind (fun r => expr_loop ui f (.Sub node r.1) r.2) := by
  have h1 : view ui t ≠ .op '+' := by rw [h]; decide
  cases next with
  | nil => exact absurd rfl hn
  | cons x xs =>
    simp [expr_loop, consume_miss ui _ t _ h1, consume_hit ui _ t _ h, Outcome.bind, new_node]

theorem expr_loop_done (ui : List Char) (f : Nat) (node : Node) (t : Token) (next : List Token)
    (h1 : view ui t ≠ .op '+') (h2 : view ui t ≠ .op '-') :
    expr_loop ui (f + 1) node (t :: next) = .ok (node, t :: next) := by
  simp [expr_loop, consume_miss ui _ t _ h1, consume_miss ui _ t _ h2, Outcome.bind]

theorem expr_succ (ui : List Char) (f : Nat) (c : List Token) :
    expr ui (f + 1) c = (mul ui f c).bind (fun r => expr_loop ui f r.1 r.2) := by
  rw [expr]

theorem mul_succ (ui : List Char) (f : Nat) (c : List Token) :
    mul ui (f + 1) c = (primary ui f c).bind (fun r => mul_loop ui f r.1 r.2) := by
  rw [mul]

theorem bind_eq_ok {α β : Type} (x : Outcome α) (k : α → Outcome β) (b : β)
    (h : x.bind k = .ok b) : ∃ a, x = .ok a ∧ k a = .ok b := by
  cases x with
  | ok a => exact ⟨a, rfl, h⟩
  | error loc msg => cases h
  | null => cases h
  | fuel => cases h

theorem bind_ne_fuel {α β : Type} (x : Outcome α) (k : α → Outcome β)
    (h : x.bind k ≠ .fuel) : x ≠ .fuel := by
  intro e; rw [e] at h; exact h rfl

/-! ## Parser: more fuel does not change a finished run -/

theorem bind_mono {α β : Type} (x x' : Outcome α) (k k' : α → Outcome β)
    (hx : x ≠ .fuel → x' = x) (hk : ∀ a, k a ≠ .fuel → k' a = k a)
    (h : x.bind k ≠ .fuel) : x'.bind k' = x.bind k := by
  have hx' := hx (bind_ne_fuel x k h)
  rw [hx']
  cases x with
  | ok a => exact hk a h
  | error loc msg => rfl
  | null => rfl
  | fuel => rfl

theorem ite_mono {β : Type} (b : Bool) (x x' y y' : Outcome β)
    (hx : x ≠ .fuel → x' = x) (hy : y ≠ .fuel → y' = y)
    (h : (if b = true then x else y) ≠ .fuel) :
    (if b = true then x' else y') = (if b = true then x else y) := by
  cases b with
  | true => simpa using hx (by simpa using h)
  | false => simpa using hy (by simpa using h)

theorem parser_mono_step (ui : List Char) (f : Nat) :
    (∀ c, expr ui f c ≠ .fuel → expr ui (f + 1) c = expr ui f c) ∧
    (∀ n c, expr_loop ui f n c ≠ .fuel → expr_loop ui (f + 1) n c = expr_loop ui f n c) ∧
    (∀ c, mul ui f c ≠ .fuel → mul ui (f + 1) c = mul ui f c) ∧
    (∀ n c, mul_loop ui f n c ≠ .fuel → mul_loop ui (f + 1) n c = mul_loop ui f n c) ∧
    (∀ c, primary ui f c ≠ .fuel → primary ui (f + 1) c = primary ui f c) := by
  induction f with
  | zero =>
    refine ⟨?_, ?_, ?_, ?_, ?_⟩ <;> intros <;> simp_all [expr, expr_loop, mul, mul_loop, primary]
  | succ f ih =>
    obtain ⟨ihe, ihel, ihm, ihml, ihp⟩ := ih
    refine ⟨?_, ?_, ?_, ?_, ?_⟩
    · intro c h
      rw [expr_succ, expr_succ] at *
      exact bind_mono _ _ _ _ (ihm c) (fun a => ihel a.1 a.2) h
    · intro n c h
      rw [expr_loop, expr_loop] at *
      refine bind_mono _ _ _ _ (fun _ => rfl) (fun a ha => ?_) h
      refine ite_mono _ _ _ _ _ (fun h1 => ?_) (fun h2 => ?_) ha
      · exact bind_mono _ _ _ _ (ihm _) (fun a => ihel _ a.2) h1
      · refine bind_mono _ _ _ _ (fun _ => rfl) (fun b hb => ?_) h2
        refine ite_mono _ _ _ _ _ (fun h3 => ?_) (fun _ => rfl) hb
        exact bind_mono _ _ _ _ (ihm _) (fun a => ihel _ a.2) h3
    · intro c h
      rw [mul_succ, mul_succ] at *
      exact bind_mono _ _ _ _ (ihp c) (fun a => ihml a.1 a.2) h
    · intro n c h
      rw [mul_loop, mul_loop] at *
      refine bind_mono _ _ _ _ (fun _ => rfl) (fun a ha => ?_) h
      refine ite_mono _ _ _ _ _ (fun h1 => ?_) (fun h2 => ?_) ha
      · exact bind_mono _ _ _ _ (ihp _) (fun a => ihml _ a.2) h1
      · refine bind_mono _ _ _ _ (fun _ => rfl) (fun b hb => ?_) h2
        refine ite_mono _ _ _ _ _ (fun h3 => ?_) (fun _ => rfl) hb
        exact bind_mono _ _ _ _ (ihp _) (fun a => ihml _ a.2) h3
    · intro c h
      rw [primary, primary] at *
      refine bind_mono _ _ _ _ (fun _ => rfl) (fun a ha => ?_) h
      refine ite_mono _ _ _ _ _ (fun h1 => ?_) (fun _ => rfl) ha
      exact bind_mono _ _ _ _ (ihe _) (fun _ _ => rfl) h1

theorem expr_mono (ui : List Char) (f g : Nat) (c : List Token) (h : expr ui f c ≠ .fuel)
    (hfg : f ≤ g) : expr ui g c = expr ui f c := by
  induction g with
  | zero => have : f = 0 := by omega
            subst this; rfl
  | succ g ih =>
    rcases Nat.eq_or_lt_of_le hfg with e | hlt
    · subst e; rfl
    · have := ih (by omega)
      rw [← this] at h
      rw [(parser_mono_step ui g).1 c h, this]

theorem expr_loop_mono (ui : List Char) (f g : Nat) (n : Node) (c : List Token)
    (h : expr_loop ui f n c ≠ .fuel) (hfg : f ≤ g) :
    expr_loop ui g n c = expr_loop ui f n c := by
  induction g with
  | zero => have : f = 0 := by omega
            subst this; rfl
  | succ g ih =>
    rcases Nat.eq_or_lt_of_le hfg with e | hlt
    · subst e; rfl
    · have := ih (by omega)
      rw [← this] at h
      rw [(parser_mono_step ui g).2.1 n c h, this]

theorem mul_mono (ui : List Char) (f g : Nat) (c : List Token) (h : mul ui f c ≠ .fuel)
    (hfg : f ≤ g) : mul ui g c = mul ui f c := by
  induction g with
  | zero => have : f = 0 := by omega
            subst this; rfl
  | succ g ih =>
    rcases Nat.eq_or_lt_of_le hfg with e | hlt
    · subst e; rfl
    · have := ih (by omega)
      rw [← this] at h
      rw [(parser_mono_step ui g).2.2.1 c h, this]

theorem mul_loop_mono (ui : List Char) (f g : Nat) (n : Node) (c : List Token)
    (h : mul_loop ui f n c ≠ .fuel) (hfg : f ≤ g) :
    mul_loop ui g n c = mul_loop ui f n c := by
  induction g with
  | zero => have : f = 0 := by omega
            subst this; rfl
  | succ g ih =>
    rcases Nat.eq_or_lt_of_le hfg with e | hlt
    · subst e; rfl
    · have := ih (by omega)
      rw [← this] at h
      rw [(parser_mono_step ui g).2.2.2.1 n c h, this]

theorem primary_mono (ui : List Char) (f g : Nat) (c : List Token)
    (h : primary ui f c ≠ .fuel) (hfg : f ≤ g) : primary ui g c = primary ui f c := by
  induction g with
  | zero => have : f = 0 := by omega
            subst this; rfl
  | succ g ih =>
    rcases Nat.eq_or_lt_of_le hfg with e | hlt
    · subst e; rfl
    · have := ih (by omega)
      rw [← this] at h
      rw [(parser_mono_step ui g).2.2.2.2 c h, this]

/-! ## Parser: the cursor only moves forward, and `parse_fuel` is enough -/

theorem consume_ne_fuel (ui : List Char) (op : Char) (c : List Token) :
    consume ui op c ≠ .fuel := by
  cases c with
  | nil => simp [consume]
  | cons t next => simp only [consume]; split <;> simp

theorem expect_ne_fuel (ui : List Char) (op : Char) (c : List Token) :
    expect ui op c ≠ .fuel := by
  cases c with
  | nil => simp [expect]
  | cons t next => simp only [expect]; split <;> simp

theorem expect_number_ne_fuel (c : List Token) : expect_number c ≠ .fuel := by
  cases c with
  | nil => simp [expect_number]
  | cons t next => simp only [expect_number]; split <;> simp

theorem consume_len (ui : List Char) (op : Char) (c : List Token) (b : Bool) (c' : List Token)
    (h : consume ui op c = .ok (b, c')) :
    c'.length ≤ c.length ∧ (b = true → c'.length < c.length) := by
  cases c with
  | nil => simp [consume] at h
  | cons t next =>
    simp only [consume] at h
    split at h
    · simp only [Outcome.ok.injEq, Prod.mk.injEq] at h
      obtain ⟨rfl, rfl⟩ := h
      simp
    · simp only [Outcome.ok.injEq, Prod.mk.injEq] at h
      obtain ⟨_, rfl⟩ := h
      simp

theorem expect_len (ui : List Char) (op : Char) (c : List Token) (u : Unit) (c' : List Token)
    (h : expect ui op c = .ok (u, c')) : c'.length < c.length := by
  cases c with
  | nil => simp [expect] at h
  | cons t next =>
    simp only [expect] at h
    split at h
    · cases h
    · simp only [Outcome.ok.injEq, Prod.mk.injEq] at h
      obtain ⟨_, rfl⟩ := h
      simp

theorem expect_number_len (c : List Token) (v : Int) (c' : List Token)
    (h : expect_number c = .ok (v, c')) : c'.length < c.length := by
  cases c with
  | nil => simp [expect_number] at h
  | cons t next =>
    simp only [expect_number] at h
    split at h
    · cases h
    · simp only [Outcome.ok.injEq, Prod.mk.injEq] at h
      obtain ⟨_, rfl⟩ := h
      simp

/-- Every successful call of `expr`, `mul` and `primary` consumes a token, and
the loops never move the cursor back. -/
theorem parser_len (ui : List Char) (f : Nat) :
    (∀ c t r, expr ui f c = .ok (t, r) → r.length < c.length) ∧
    (∀ n c t r, expr_loop ui f n c = .ok (t, r) → r.length ≤ c.length) ∧
    (∀ c t r, mul ui f c = .ok (t, r) → r.length < c.length) ∧
    (∀ n c t r, mul_loop ui f n c = .ok (t, r) → r.length ≤ c.length) ∧
    (∀ c t r, primary ui f c = .ok (t, r) → r.length < c.length) := by
  induction f with
  | zero =>
    refine ⟨?_, ?_, ?_, ?_, ?_⟩ <;> intros <;> simp_all [expr, expr_loop, mul, mul_loop, primary]
  | succ f ih =>
    obtain ⟨ihe, ihel, ihm, ihml, ihp⟩ := ih
    refine ⟨?_, ?_, ?_, ?_, ?_⟩
    · intro c t r h
      rw [expr_succ] at h
      obtain ⟨⟨m, c1⟩, h1, h2⟩ := bind_eq_ok _ _ _ h
      have := ihm _ _ _ h1
      have := ihel _ _ _ _ h2
      simp only at *
      omega
    · intro n c t r h
      rw [expr_loop] at h
      obtain ⟨⟨b, c1⟩, h1, h2⟩ := bind_eq_ok _ _ _ h
      have l1 := consume_len _ _ _ _ _ h1
      cases b with
      | true =>
        simp only [if_true] at h2
        obtain ⟨⟨m, c2⟩, h3, h4⟩ := bind_eq_ok _ _ _ h2
        have := ihm _ _ _ h3
        have := ihel _ _ _ _ h4
        try simp only at *
        omega
      | false =>
        simp only [Bool.false_eq_true, if_false] at h2
        obtain ⟨⟨b', c2⟩, h3, h4⟩ := bind_eq_ok _ _ _ h2
        have l2 := consume_len _ _ _ _ _ h3
        cases b' with
        | true =>
          simp only [if_true] at h4
          obtain ⟨⟨m, c3⟩, h5, h6⟩ := bind_eq_ok _ _ _ h4
          have := ihm _ _ _ h5
          have := ihel _ _ _ _ h6
          try simp only at *
          omega
        | false =>
          simp only [Bool.false_eq_true, if_false, Outcome.ok.injEq, Prod.mk.injEq] at h4
          obtain ⟨_, rfl⟩ := h4
          try simp only at *
          omega
    · intro c t r h
      rw [mul_succ] at h
      obtain ⟨⟨m, c1⟩, h1, h2⟩ := bind_eq_ok _ _ _ h
      have := ihp _ _ _ h1
      have := ihml _ _ _ _ h2
      simp only at *
      omega
    · intro n c t r h
      rw [mul_loop] at h
      obtain ⟨⟨b, c1⟩, h1, h2⟩ := bind_eq_ok _ _ _ h
      have l1 := consume_len _ _ _ _ _ h1
      cases b with
      | true =>
        simp only [if_true] at h2
        obtain ⟨⟨m, c2⟩, h3, h4⟩ := bind_eq_ok _ _ _ h2
        have := ihp _ _ _ h3
        have := ihml _ _ _ _ h4
        try simp only at *
        omega
      | false =>
        simp only [Bool.false_eq_true, if_false] at h2
        obtain ⟨⟨b', c2⟩, h3, h4⟩ := bind_eq_ok _ _ _ h2
        have l2 := consume_len _ _ _ _ _ h3
        cases b' with
        | true =>
          simp only [if_true] at h4
          obtain ⟨⟨m, c3⟩, h5, h6⟩ := bind_eq_ok _ _ _ h4
          have := ihp _ _ _ h5
          have := ihml _ _ _ _ h6
          try simp only at *
          omega
        | false =>
          simp only [Bool.false_eq_true, if_false, Outcome.ok.injEq, Prod.mk.injEq] at h4
          obtain ⟨_, rfl⟩ := h4
          try simp only at *
          omega
    · intro c t r h
      rw [primary] at h
      obtain ⟨⟨b, c1⟩, h1, h2⟩ := bind_eq_ok _ _ _ h
      have l1 := consume_len _ _ _ _ _ h1
      cases b with
      | true =>
        simp only [if_true] at h2
        obtain ⟨⟨m, c2⟩, h3, h4⟩ := bind_eq_ok _ _ _ h2
        obtain ⟨⟨u, c3⟩, h5, h6⟩ := bind_eq_ok _ _ _ h4
        have := ihe _ _ _ h3
        have := expect_len _ _ _ _ _ h5
        simp only [Outcome.ok.injEq, Prod.mk.injEq] at h6
        obtain ⟨_, rfl⟩ := h6
        try simp only at *
        omega
      | false =>
        simp only [Bool.false_eq_true, if_false] at h2
        obtain ⟨⟨v, c2⟩, h3, h4⟩ := bind_eq_ok _ _ _ h2
        have := expect_number_len _ _ _ h3
        simp only [Outcome.ok.injEq, Prod.mk.injEq] at h4
        obtain ⟨_, rfl⟩ := h4
        try simp only at *
        omega

theorem bind_ne_fuel_of {α β : Type} (x : Outcome α) (k : α → Outcome β)
    (hx : x ≠ .fuel) (hk : ∀ a, x = .ok a → k a ≠ .fuel) : x.bind k ≠ .fuel := by
  cases x with
  | ok a => exact hk a rfl
  | error loc msg => simp [Outcome.bind]
  | null => simp [Outcome.bind]
  | fuel => exact absurd rfl hx

/-- Fuel linear in the number of tokens left is never exhausted. -/
theorem parser_fuel (ui : List Char) (f : Nat) :
    (∀ c, 3 * c.length + 3 ≤ f → expr ui f c ≠ .fuel) ∧
    (∀ n c, 3 * c.length + 1 ≤ f → expr_loop ui f n c ≠ .fuel) ∧
    (∀ c, 3 * c.length + 2 ≤ f → mul ui f c ≠ .fuel) ∧
    (∀ n c, 3 * c.length + 1 ≤ f → mul_loop ui f n c ≠ .fuel) ∧
    (∀ c, 3 * c.length + 1 ≤ f → primary ui f c ≠ .fuel) := by
  induction f with
  | zero =>
    refine ⟨?_, ?_, ?_, ?_, ?_⟩ <;> intros <;> omega
  | succ f ih =>
    obtain ⟨ihe, ihel, ihm, ihml, ihp⟩ := ih
    have len := parser_len ui f
    refine ⟨?_, ?_, ?_, ?_, ?_⟩
    · intro c hc
      rw [expr_succ]
      refine bind_ne_fuel_of _ _ (ihm c (by omega)) (fun a ha => ihel _ _ ?_)
      have := len.2.2.1 c a.1 a.2 ha
      omega
    · intro n c hc
      rw [expr_loop]
      refine bind_ne_fuel_of _ _ (consume_ne_fuel _ _ _) (fun a ha => ?_)
      have l1 := consume_len _ _ _ _ _ ha
      split
      · rename_i hb
        have l1' := l1.2 hb
        refine bind_ne_fuel_of _ _ (ihm _ (by omega)) (fun m hm => ihel _ _ ?_)
        have := len.2.2.1 _ m.1 m.2 hm
        omega
      · refine bind_ne_fuel_of _ _ (consume_ne_fuel _ _ _) (fun b hb => ?_)
        have l2 := consume_len _ _ _ _ _ hb
        split
        · rename_i hb'
          have l2' := l2.2 hb'
          refine bind_ne_fuel_of _ _ (ihm _ (by omega)) (fun m hm => ihel _ _ ?_)
          have := len.2.2.1 _ m.1 m.2 hm
          omega
        · simp
    · intro c hc
      rw [mul_succ]
      refine bind_ne_fuel_of _ _ (ihp c (by omega)) (fun a ha => ihml _ _ ?_)
      have := len.2.2.2.2 c a.1 a.2 ha
      omega
    · intro n c hc
      rw [mul_loop]
      refine bind_ne_fuel_of _ _ (consume_ne_fuel _ _ _) (fun a ha => ?_)
      have l1 := consume_len _ _ _ _ _ ha
      split
      · rename_i hb
        have l1' := l1.2 hb
        refine bind_ne_fuel_of _ _ (ihp _ (by omega)) (fun m hm => ihml _ _ ?_)
        have := len.2.2.2.2 _ m.1 m.2 hm
        omega
      · refine bind_ne_fuel_of _ _ (consume_ne_fuel _ _ _) (fun b hb => ?_)
        have l2 := consume_len _ _ _ _ _ hb
        split
        · rename_i hb'
          have l2' := l2.2 hb'
          refine bind_ne_fuel_of _ _ (ihp _ (by omega)) (fun m hm => ihml _ _ ?_)
          have := len.2.2.2.2 _ m.1 m.2 hm
          omega
        · simp
    · intro c hc
      rw [primary]
      refine bind_ne_fuel_of _ _ (consume_ne_fuel _ _ _) (fun a ha => ?_)
      have l1 := consume_len _ _ _ _ _ ha
      split
      · rename_i hb
        have l1' := l1.2 hb
        refine bind_ne_fuel_of _ _ (ihe _ (by omega)) (fun m hm => ?_)
        exact bind_ne_fuel_of _ _ (expect_ne_fuel _ _ _) (fun _ _ => by simp)
      · exact bind_ne_fuel_of _ _ (expect_number_ne_fuel _) (fun _ _ => by simp)

theorem parse_ne_fuel (ui : List Char) (c : List Token) : parse ui c ≠ .fuel :=
  (parser_fuel ui (parse_fuel c)).1 c (Nat.le_refl _)

/-- A finished run with any fuel is the run of `parse`. -/
theorem parse_eq_of_expr (ui : List Char) (f : Nat) (c : List Token)
    (r : Outcome (Node × List Token)) (h : expr ui f c = r) (hr : r ≠ .fuel) :
    parse ui c = r := by
  subst h
  rcases Nat.le_total f (parse_fuel c) with hle | hle
  · exact expr_mono ui f _ c hr hle
  · exact (expr_mono ui _ f c (parse_ne_fuel ui c) hle).symm

/-! ## Runs without fuel -/

theorem run_unique {α : Type} (F : Nat → Outcome α) (r1 r2 : Outcome α)
    (h1 : Run F r1) (h2 : Run F r2) : r1 = r2 := by
  obtain ⟨_, f1, e1⟩ := h1
  obtain ⟨_, f2, e2⟩ := h2
  rw [← e1 (max f1 f2) (Nat.le_max_left _ _), ← e2 (max f1 f2) (Nat.le_max_right _ _)]

theorem run_succ {α : Type} (F G : Nat → Outcome α) (res : Outcome α)
    (h : ∀ f, F (f + 1) = G f) (hG : Run G res) : Run F res := by
  obtain ⟨hr, f0, e⟩ := hG
  refine ⟨hr, f0 + 1, fun f hf => ?_⟩
  obtain ⟨g, rfl⟩ : ∃ g, f = g + 1 := ⟨f - 1, by omega⟩
  rw [h, e g (by omega)]

theorem run_const {α : Type} (F : Nat → Outcome α) (res : Outcome α) (hr : res ≠ .fuel)
    (h : ∀ f, F (f + 1) = res) : Run F res :=
  ⟨hr, 1, fun f hf => by
    obtain ⟨g, rfl⟩ : ∃ g, f = g + 1 := ⟨f - 1, by omega⟩
    exact h g⟩

theorem run_bind {α β : Type} (F : Nat → Outcome α) (G : α → Nat → Outcome β)
    (x : Outcome α) (res : Outcome β) (hF : Run F x)
    (hG : follows x (fun a => Run (G a) res) res) :
    Run (fun f => (F f).bind (fun a => G a f)) res := by
  obtain ⟨hx, f1, e1⟩ := hF
  cases x with
  | ok a =>
    obtain ⟨hr, f2, e2⟩ := hG
    refine ⟨hr, max f1 f2, fun f hf => ?_⟩
    simp only [e1 f (by omega), Outcome.bind, e2 f (by omega)]
  | error loc msg =>
    simp only [follows] at hG
    subst hG
    exact ⟨by simp, f1, fun f hf => by simp only [e1 f hf, Outcome.bind]⟩
  | null =>
    simp only [follows] at hG
    subst hG
    exact ⟨by simp, f1, fun f hf => by simp only [e1 f hf, Outcome.bind]⟩
  | fuel => exact absurd rfl hx

theorem run_bind_inv {α β : Type} (F : Nat → Outcome α) (G : α → Nat → Outcome β)
    (res : Outcome β) (hmono : ∀ f g, F f ≠ .fuel → f ≤ g → F g = F f)
    (h : Run (fun f => (F f).bind (fun a => G a f)) res) :
    ∃ x, Run F x ∧ follows x (fun a => Run (G a) res) res := by
  obtain ⟨hr, f0, e⟩ := h
  have hne : F f0 ≠ .fuel := by
    intro hf
    have := e f0 (Nat.le_refl _)
    simp only [hf, Outcome.bind] at this
    exact hr this.symm
  have hc : ∀ f, f0 ≤ f → F f = F f0 := fun f hf => hmono f0 f hne hf
  refine ⟨F f0, ⟨hne, f0, hc⟩, ?_⟩
  cases hx : F f0 with
  | ok a =>
    refine ⟨hr, f0, fun f hf => ?_⟩
    have := e f hf
    simpa only [hc f hf, hx, Outcome.bind] using this
  | error loc msg =>
    have := e f0 (Nat.le_refl _)
    simp only [hx, Outcome.bind] at this
    exact this.symm
  | null =>
    have := e f0 (Nat.le_refl _)
    simp only [hx, Outcome.bind] at this
    exact this.symm
  | fuel => exact absurd hx hne

theorem run_parse (ui : List Char) (c : List Token) (res : Outcome (Node × List Token)) :
    Run (fun f => expr ui f c) res ↔ parse ui c = res := by
  constructor
  · rintro ⟨hr, f0, e⟩
    exact parse_eq_of_expr ui f0 c res (e f0 (Nat.le_refl _)) hr
  · intro h
    subst h
    exact ⟨parse_ne_fuel ui c, parse_fuel c,
      fun f hf => expr_mono ui _ f c (parse_ne_fuel ui c) hf⟩

theorem derives_ne_nil {nt : NT} {a : List Tok} {t : Node} (h : Derives nt a t) : a ≠ [] := by
  induction h <;> simp_all

/-! ## Parser: completeness for the grammar -/

theorem map_view_split (ui : List Char) (toks : List Token) (a b : List Tok) (o : Tok)
    (h : toks.map (view ui) = a ++ o :: b) :
    ∃ ta tk tb, toks = ta ++ tk :: tb ∧ ta.map (view ui) = a ∧ view ui tk = o ∧
      tb.map (view ui) = b := by
  obtain ⟨ta, l2, rfl, h1, h2⟩ := List.map_eq_append_iff.1 h
  obtain ⟨tk, tb, rfl, h3, h4⟩ := List.map_eq_cons_iff.1 h2
  exact ⟨ta, tk, tb, rfl, h1, h3, h4⟩

theorem map_view_ne_nil (ui : List Char) (toks : List Token) {nt : NT} {a : List Tok}
    {t : Node} (hd : Derives nt a t) (h : toks.map (view ui) = a) : toks ≠ [] := by
  intro e
  subst e
  exact derives_ne_nil hd h.symm

theorem mul_loop_mono' (ui : List Char) (n : Node) (c : List Token) :
    ∀ f g, mul_loop ui f n c ≠ .fuel → f ≤ g → mul_loop ui g n c = mul_loop ui f n c :=
  fun f g h hfg => mul_loop_mono ui f g n c h hfg

/-- After the tokens of a derivation the parser returns the tree derived (for
`primary`) or continues as the loops of `mul` and `expr` do. -/
theorem parser_complete (ui : List Char) {nt : NT} {a : List Tok} {t : Node}
    (h : Derives nt a t) : Complete ui nt a t := by
  induction h with
  | num v =>
    intro toks rest hm
    obtain ⟨tk, l1, rfl, hv, hl⟩ := List.map_eq_cons_iff.1 hm
    have : l1 = [] := List.map_eq_nil_iff.1 hl
    subst this
    exact run_const _ _ (by simp) (fun f => primary_num ui f tk rest v hv)
  | @paren a t hd ih =>
    intro toks rest hm
    obtain ⟨lp, toks', rfl, hlp, hm'⟩ := List.map_eq_cons_iff.1 hm
    obtain ⟨inner, last, rfl, hin, hlast⟩ := List.map_eq_append_iff.1 hm'
    obtain ⟨rp, l0, rfl, hrp, hl0⟩ := List.map_eq_cons_iff.1 hlast
    have : l0 = [] := List.map_eq_nil_iff.1 hl0
    subst this
    obtain ⟨K, m, rfl, hk⟩ := ih
    have hr1 : view ui rp ≠ .op '*' := by rw [hrp]; decide
    have hr2 : view ui rp ≠ .op '/' := by rw [hrp]; decide
    have hr3 : view ui rp ≠ .op '+' := by rw [hrp]; decide
    have hr4 : view ui rp ≠ .op '-' := by rw [hrp]; decide
    have e : lp :: (inner ++ [rp]) ++ rest = lp :: (inner ++ rp :: rest) := by simp
    rw [e]
    refine run_succ _ _ _ (fun f => primary_paren ui f lp _ hlp (by simp)) ?_
    refine run_bind _ (fun r f => (expect ui ')' r.2).bind (fun e => .ok (r.1, e.2)))
      (.ok (K m, rp :: rest)) _ ?_ ?_
    · refine hk inner (rp :: rest) _ hin ?_
      refine run_bind _ (fun q f => expr_loop ui f (K q.1) q.2) (.ok (m, rp :: rest)) _ ?_ ?_
      · exact run_const _ _ (by simp) (fun f => mul_loop_done ui f m rp rest hr1 hr2)
      · exact run_const _ _ (by simp) (fun f => expr_loop_done ui f (K m) rp rest hr3 hr4)
    · exact ⟨by simp, 0, fun f _ => by simp [expect_hit ui _ rp rest hrp, Outcome.bind]⟩
  | @mul_one a t hp ih =>
    intro toks rest res hm hrun
    refine run_succ _ _ _ (fun f => mul_succ ui f _) ?_
    refine run_bind _ (fun (r : Node × List Token) f => mul_loop ui f r.1 r.2) (.ok (t, rest)) res
      (ih toks rest hm) ?_
    exact hrun
  | @mul_mul a b l r hm hp ihm ihp =>
    intro toks rest res hmap hrun
    obtain ⟨ta, tk, tb, rfl, h1, h2, h3⟩ := map_view_split ui toks a b _ hmap
    have hne : tb ++ rest ≠ [] := by simp [map_view_ne_nil ui tb hp h3]
    rw [List.append_assoc, List.cons_append]
    refine ihm ta (tk :: (tb ++ rest)) res h1 ?_
    refine run_succ _ _ _ (fun f => mul_loop_star ui f l tk _ h2 hne) ?_
    refine run_bind _ (fun (q : Node × List Token) f => mul_loop ui f (.Mul l q.1) q.2)
      (.ok (r, rest)) res (ihp tb rest h3) ?_
    exact hrun
  | @mul_div a b l r hm hp ihm ihp =>
    intro toks rest res hmap hrun
    obtain ⟨ta, tk, tb, rfl, h1, h2, h3⟩ := map_view_split ui toks a b _ hmap
    have hne : tb ++ rest ≠ [] := by simp [map_view_ne_nil ui tb hp h3]
    rw [List.append_assoc, List.cons_append]
    refine ihm ta (tk :: (tb ++ rest)) res h1 ?_
    refine run_succ _ _ _ (fun f => mul_loop_slash ui f l tk _ h2 hne) ?_
    refine run_bind _ (fun (q : Node × List Token) f => mul_loop ui f (.Div l q.1) q.2)
      (.ok (r, rest)) res (ihp tb rest h3) ?_
    exact hrun
  | @expr_one a t hm ih =>
    refine ⟨id, t, rfl, ?_⟩
    intro toks rest res hmap hrun
    refine run_succ _ _ _ (fun f => expr_succ ui f _) ?_
    obtain ⟨x, hx, hfol⟩ := run_bind_inv _ (fun q f => expr_loop ui f (id q.1) q.2) _
      (mul_loop_mono' ui t rest) hrun
    exact run_bind _ (fun q f => expr_loop ui f q.1 q.2) x res (ih toks rest x hmap hx) hfol
  | @expr_add a b l r he hm ihe ihm =>
    obtain ⟨K1, m1, rfl, hk⟩ := ihe
    refine ⟨fun q => .Add (K1 m1) q, r, rfl, ?_⟩
    intro toks rest res hmap hrun
    obtain ⟨ta, tk, tb, rfl, h1, h2, h3⟩ := map_view_split ui toks a b _ hmap
    have hne : tb ++ rest ≠ [] := by simp [map_view_ne_nil ui tb hm h3]
    have hr1 : view ui tk ≠ .op '*' := by rw [h2]; decide
    have hr2 : view ui tk ≠ .op '/' := by rw [h2]; decide
    rw [List.append_assoc, List.cons_append]
    refine hk ta (tk :: (tb ++ rest)) res h1 ?_
    refine run_bind _ (fun q f => expr_loop ui f (K1 q.1) q.2) (.ok (m1, tk :: (tb ++ rest))) _
      ?_ ?_
    · exact run_const _ _ (by simp) (fun f => mul_loop_done ui f m1 tk _ hr1 hr2)
    · refine run_succ _ _ _ (fun f => expr_loop_plus ui f (K1 m1) tk _ h2 hne) ?_
      obtain ⟨x, hx, hfol⟩ := run_bind_inv _ (fun q f => expr_loop ui f (.Add (K1 m1) q.1) q.2) _
        (mul_loop_mono' ui r rest) hrun
      exact run_bind _ (fun q f => expr_loop ui f (.Add (K1 m1) q.1) q.2) x res
        (ihm tb rest x h3 hx) hfol
  | @expr_sub a b l r he hm ihe ihm =>
    obtain ⟨K1, m1, rfl, hk⟩ := ihe
    refine ⟨fun q => .Sub (K1 m1) q, r, rfl, ?_⟩
    intro toks rest res hmap hrun
    obtain ⟨ta, tk, tb, rfl, h1, h2, h3⟩ := map_view_split ui toks a b _ hmap
    have hne : tb ++ rest ≠ [] := by simp [map_view_ne_nil ui tb hm h3]
    have hr1 : view ui tk ≠ .op '*' := by rw [h2]; decide
    have hr2 : view ui tk ≠ .op '/' := by rw [h2]; decide
    rw [List.append_assoc, List.cons_append]
    refine hk ta (tk :: (tb ++ rest)) res h1 ?_
    refine run_bind _ (fun q f => expr_loop ui f (K1 q.1) q.2) (.ok (m1, tk :: (tb ++ rest))) _
      ?_ ?_
    · exact run_const _ _ (by simp) (fun f => mul_loop_done ui f m1 tk _ hr1 hr2)
    · refine run_succ _ _ _ (fun f => expr_loop_minus ui f (K1 m1) tk _ h2 hne) ?_
      obtain ⟨x, hx, hfol⟩ := run_bind_inv _ (fun q f => expr_loop ui f (.Sub (K1 m1) q.1) q.2) _
        (mul_loop_mono' ui r rest) hrun
      exact run_bind _ (fun q f => expr_loop ui f (.Sub (K1 m1) q.1) q.2) x res
        (ihm tb rest x h3 hx) hfol

/-! ## Parser: soundness for the grammar -/

theorem ends_eof_ne_nil (c : List Token) (h : ends_eof c) : c ≠ [] := by
  obtain ⟨a, e, rfl, _⟩ := h
  simp

theorem ends_eof_tail (tk : Token) (c : List Token) (h : ends_eof (tk :: c))
    (hk : tk.kind ≠ .TK_EOF) : ends_eof c := by
  obtain ⟨a, e, he, hek⟩ := h
  cases a with
  | nil =>
    simp only [List.nil_append, List.cons.injEq] at he
    obtain ⟨rfl, _⟩ := he
    exact absurd hek hk
  | cons x a =>
    simp only [List.cons_append, List.cons.injEq] at he
    exact ⟨a, e, he.2, hek⟩

theorem view_op_kind (ui : List Char) (tk : Token) (ch : Char) (h : view ui tk = .op ch) :
    tk.kind ≠ .TK_EOF := by
  obtain ⟨k, v, s⟩ := tk
  cases k <;> simp_all [view]

theorem view_num_kind (ui : List Char) (tk : Token) (v : Int) (h : view ui tk = .num v) :
    tk.kind ≠ .TK_EOF := by
  obtain ⟨k, w, s⟩ := tk
  cases k <;> simp_all [view]

theorem consume_spec (ui : List Char) (op : Char) (c : List Token) (b : Bool)
    (c' : List Token) (hc : ends_eof c) (h : consume ui op c = .ok (b, c')) :
    (b = true ∧ ∃ tk, c = tk :: c' ∧ view ui tk = .op op ∧ ends_eof c') ∨
    (b = false ∧ c' = c) := by
  cases c with
  | nil => simp [consume] at h
  | cons t next =>
    by_cases hv : view ui t = .op op
    · have hn := ends_eof_tail t next hc (view_op_kind ui t op hv)
      rw [consume_hit ui op t next hv] at h
      simp only [Outcome.ok.injEq, Prod.mk.injEq] at h
      obtain ⟨rfl, rfl⟩ := h
      left
      refine ⟨?_, t, rfl, hv, hn⟩
      have := ends_eof_ne_nil _ hn
      cases next with
      | nil => exact absurd rfl this
      | cons x xs => rfl
    · rw [consume_miss ui op t next hv] at h
      simp only [Outcome.ok.injEq, Prod.mk.injEq] at h
      obtain ⟨rfl, rfl⟩ := h
      exact Or.inr ⟨rfl, rfl⟩

theorem expect_spec (ui : List Char) (op : Char) (c : List Token) (u : Unit)
    (c' : List Token) (hc : ends_eof c) (h : expect ui op c = .ok (u, c')) :
    ∃ tk, c = tk :: c' ∧ view ui tk = .op op ∧ ends_eof c' := by
  cases c with
  | nil => simp [expect] at h
  | cons t next =>
    by_cases hv : view ui t = .op op
    · have hn := ends_eof_tail t next hc (view_op_kind ui t op hv)
      rw [expect_hit ui op t next hv] at h
      simp only [Outcome.ok.injEq, Prod.mk.injEq] at h
      obtain ⟨_, rfl⟩ := h
      exact ⟨t, rfl, hv, hn⟩
    · rw [expect_miss ui op t next hv] at h
      cases h

theorem expect_number_spec (ui : List Char) (c : List Token) (v : Int)
    (c' : List Token) (hc : ends_eof c) (h : expect_number c = .ok (v, c')) :
    ∃ tk, c = tk :: c' ∧ view ui tk = .num v ∧ ends_eof c' := by
  cases c with
  | nil => simp [expect_number] at h
  | cons t next =>
    by_cases hv : view ui t = .num t.val
    · have hn := ends_eof_tail t next hc (view_num_kind ui t _ hv)
      rw [expect_number_hit ui t next _ hv] at h
      simp only [Outcome.ok.injEq, Prod.mk.injEq] at h
      obtain ⟨rfl, rfl⟩ := h
      exact ⟨t, rfl, hv, hn⟩
    · have hv' : ∀ w, view ui t ≠ .num w := by
        intro w hw
        obtain ⟨k, x, s⟩ := t
        cases k <;> simp_all [view]
      rw [expect_number_miss ui t next hv'] at h
      cases h

/-- What a successful call has consumed is a derivation of its nonterminal. -/
theorem parser_sound (ui : List Char) (f : Nat) :
    (∀ c t r, ends_eof c → expr ui f c = .ok (t, r) →
      ∃ a, c = a ++ r ∧ ends_eof r ∧ Derives .expr (a.map (view ui)) t) ∧
    (∀ n c t r, ends_eof c → expr_loop ui f n c = .ok (t, r) →
      ∃ a, c = a ++ r ∧ ends_eof r ∧
        ∀ a0, Derives .expr a0 n → Derives .expr (a0 ++ a.map (view ui)) t) ∧
    (∀ c t r, ends_eof c → mul ui f c = .ok (t, r) →
      ∃ a, c = a ++ r ∧ ends_eof r ∧ Derives .mul (a.map (view ui)) t) ∧
    (∀ n c t r, ends_eof c → mul_loop ui f n c = .ok (t, r) →
      ∃ a, c = a ++ r ∧ ends_eof r ∧
        ∀ a0, Derives .mul a0 n → Derives .mul (a0 ++ a.map (view ui)) t) ∧
    (∀ c t r, ends_eof c → primary ui f c = .ok (t, r) →
      ∃ a, c = a ++ r ∧ ends_eof r ∧ Derives .primary (a.map (view ui)) t) := by
  induction f with
  | zero =>
    refine ⟨?_, ?_, ?_, ?_, ?_⟩ <;> intros <;> simp_all [expr, expr_loop, mul, mul_loop, primary]
  | succ f ih =>
    obtain ⟨ihe, ihel, ihm, ihml, ihp⟩ := ih
    refine ⟨?_, ?_, ?_, ?_, ?_⟩
    · intro c t r hc h
      rw [expr_succ] at h
      obtain ⟨⟨m, c1⟩, h1, h2⟩ := bind_eq_ok _ _ _ h
      obtain ⟨a1, rfl, he1, d1⟩ := ihm _ _ _ hc h1
      obtain ⟨a2, e2, he2, d2⟩ := ihel _ _ _ _ he1 h2
      try simp only at e2
      subst e2
      refine ⟨a1 ++ a2, by simp, he2, ?_⟩
      rw [List.map_append]
      exact d2 _ (.expr_one d1)
    · intro n c t r hc h
      rw [expr_loop] at h
      obtain ⟨⟨b, c1⟩, h1, h2⟩ := bind_eq_ok _ _ _ h
      rcases consume_spec _ _ _ _ _ hc h1 with ⟨rfl, tk, rfl, hv, hc1⟩ | ⟨rfl, rfl⟩
      · simp only [if_true] at h2
        obtain ⟨⟨m, c2⟩, h3, h4⟩ := bind_eq_ok _ _ _ h2
        obtain ⟨a1, e1, he1, d1⟩ := ihm _ _ _ hc1 h3
        obtain ⟨a2, e2, he2, d2⟩ := ihel _ _ _ _ he1 h4
        try simp only at e1 e2
        subst e2
        subst e1
        refine ⟨tk :: (a1 ++ a2), by simp, he2, fun a0 h0 => ?_⟩
        have := d2 _ (Derives.expr_add h0 d1)
        simpa [hv, new_node] using this
      · simp only [Bool.false_eq_true, if_false] at h2
        obtain ⟨⟨b', c2⟩, h3, h4⟩ := bind_eq_ok _ _ _ h2
        rcases consume_spec _ _ _ _ _ hc h3 with ⟨rfl, tk, rfl, hv, hc1⟩ | ⟨rfl, rfl⟩
        · simp only [if_true] at h4
          obtain ⟨⟨m, c3⟩, h5, h6⟩ := bind_eq_ok _ _ _ h4
          obtain ⟨a1, e1, he1, d1⟩ := ihm _ _ _ hc1 h5
          obtain ⟨a2, e2, he2, d2⟩ := ihel _ _ _ _ he1 h6
          try simp only at e1 e2
          subst e2
          subst e1
          refine ⟨tk :: (a1 ++ a2), by simp, he2, fun a0 h0 => ?_⟩
          have := d2 _ (Derives.expr_sub h0 d1)
          simpa [hv, new_node] using this
        · simp only [Bool.false_eq_true, if_false, Outcome.ok.injEq, Prod.mk.injEq] at h4
          obtain ⟨rfl, rfl⟩ := h4
          exact ⟨[], rfl, hc, fun a0 h0 => by simpa using h0⟩
    · intro c t r hc h
      rw [mul_succ] at h
      obtain ⟨⟨m, c1⟩, h1, h2⟩ := bind_eq_ok _ _ _ h
      obtain ⟨a1, rfl, he1, d1⟩ := ihp _ _ _ hc h1
      obtain ⟨a2, e2, he2, d2⟩ := ihml _ _ _ _ he1 h2
      try simp only at e2
      subst e2
      refine ⟨a1 ++ a2, by simp, he2, ?_⟩
      rw [List.map_append]
      exact d2 _ (.mul_one d1)
    · intro n c t r hc h
      rw [mul_loop] at h
      obtain ⟨⟨b, c1⟩, h1, h2⟩ := bind_eq_ok _ _ _ h
      rcases consume_spec _ _ _ _ _ hc h1 with ⟨rfl, tk, rfl, hv, hc1⟩ | ⟨rfl, rfl⟩
      · simp only [if_true] at h2
        obtain ⟨⟨m, c2⟩, h3, h4⟩ := bind_eq_ok _ _ _ h2
        obtain ⟨a1, e1, he1, d1⟩ := ihp _ _ _ hc1 h3
        obtain ⟨a2, e2, he2, d2⟩ := ihml _ _ _ _ he1 h4
        try simp only at e1 e2
        subst e2
        subst e1
        refine ⟨tk :: (a1 ++ a2), by simp, he2, fun a0 h0 => ?_⟩
        have := d2 _ (Derives.mul_mul h0 d1)
        simpa [hv, new_node] using this
      · simp only [Bool.false_eq_true, if_false] at h2
        obtain ⟨⟨b', c2⟩, h3, h4⟩ := bind_eq_ok _ _ _ h2
        rcases consume_spec _ _ _ _ _ hc h3 with ⟨rfl, tk, rfl, hv, hc1⟩ | ⟨rfl, rfl⟩
        · simp only [if_true] at h4
          obtain ⟨⟨m, c3⟩, h5, h6⟩ := bind_eq_ok _ _ _ h4
          obtain ⟨a1, e1, he1, d1⟩ := ihp _ _ _ hc1 h5
          obtain ⟨a2, e2, he2, d2⟩ := ihml _ _ _ _ he1 h6
          try simp only at e1 e2
          subst e2
          subst e1
          refine ⟨tk :: (a1 ++ a2), by simp, he2, fun a0 h0 => ?_⟩
          have := d2 _ (Derives.mul_div h0 d1)
          simpa [hv, new_node] using this
        · simp only [Bool.false_eq_true, if_false, Outcome.ok.injEq, Prod.mk.injEq] at h4
          obtain ⟨rfl, rfl⟩ := h4
          exact ⟨[], rfl, hc, fun a0 h0 => by simpa using h0⟩
    · intro c t r hc h
      rw [primary] at h
      obtain ⟨⟨b, c1⟩, h1, h2⟩ := bind_eq_ok _ _ _ h
      rcases consume_spec _ _ _ _ _ hc h1 with ⟨rfl, tk, rfl, hv, hc1⟩ | ⟨rfl, rfl⟩
      · simp only [if_true] at h2
        obtain ⟨⟨m, c2⟩, h3, h4⟩ := bind_eq_ok _ _ _ h2
        obtain ⟨⟨u, c3⟩, h5, h6⟩ := bind_eq_ok _ _ _ h4
        obtain ⟨a1, e1, he1, d1⟩ := ihe _ _ _ hc1 h3
        obtain ⟨rp, e2, hrp, he2⟩ := expect_spec _ _ _ _ _ he1 h5
        simp only [Outcome.ok.injEq, Prod.mk.injEq] at h6
        obtain ⟨rfl, rfl⟩ := h6
        try simp only at e1 e2
        subst e2
        subst e1
        refine ⟨tk :: (a1 ++ [rp]), by simp, he2, ?_⟩
        have := Derives.paren d1
        simpa [hv, hrp] using this
      · simp only [Bool.false_eq_true, if_false] at h2
        obtain ⟨⟨v, c2⟩, h3, h4⟩ := bind_eq_ok _ _ _ h2
        obtain ⟨tk, e1, hv, he1⟩ := expect_number_spec ui _ _ _ hc h3
        simp only [Outcome.ok.injEq, Prod.mk.injEq] at h4
        obtain ⟨rfl, rfl⟩ := h4
        try simp only at e1
        subst e1
        refine ⟨[tk], rfl, he1, ?_⟩
        simpa [hv, new_node_num] using Derives.num v

/-! ## Parser: the cursor is never NULL on a list that ends in `TK_EOF` -/

theorem bind_ne_null_of {α β : Type} (x : Outcome α) (k : α → Outcome β)
    (hx : x ≠ .null) (hk : ∀ a, x = .ok a → k a ≠ .null) : x.bind k ≠ .null := by
  cases x with
  | ok a => exact hk a rfl
  | error loc msg => simp [Outcome.bind]
  | null => exact absurd rfl hx
  | fuel => simp [Outcome.bind]

theorem consume_ne_null (ui : List Char) (op : Char) (c : List Token) (hc : ends_eof c) :
    consume ui op c ≠ .null := by
  cases c with
  | nil => exact absurd rfl (ends_eof_ne_nil _ hc)
  | cons t next => simp only [consume]; split <;> simp

theorem expect_ne_null (ui : List Char) (op : Char) (c : List Token) (hc : ends_eof c) :
    expect ui op c ≠ .null := by
  cases c with
  | nil => exact absurd rfl (ends_eof_ne_nil _ hc)
  | cons t next => simp only [expect]; split <;> simp

theorem expect_number_ne_null (c : List Token) (hc : ends_eof c) :
    expect_number c ≠ .null := by
  cases c with
  | nil => exact absurd rfl (ends_eof_ne_nil _ hc)
  | cons t next => simp only [expect_number]; split <;> simp

theorem consume_ends_eof (ui : List Char) (op : Char) (c : List Token) (a : Bool × List Token)
    (hc : ends_eof c) (h : consume ui op c = .ok a) : ends_eof a.2 := by
  obtain ⟨b, c'⟩ := a
  rcases consume_spec _ _ _ _ _ hc h with ⟨_, _, _, _, h'⟩ | ⟨_, rfl⟩
  · exact h'
  · exact hc

theorem parser_no_null (ui : List Char) (f : Nat) :
    (∀ c, ends_eof c → expr ui f c ≠ .null) ∧
    (∀ n c, ends_eof c → expr_loop ui f n c ≠ .null) ∧
    (∀ c, ends_eof c → mul ui f c ≠ .null) ∧
    (∀ n c, ends_eof c → mul_loop ui f n c ≠ .null) ∧
    (∀ c, ends_eof c → primary ui f c ≠ .null) := by
  induction f with
  | zero =>
    refine ⟨?_, ?_, ?_, ?_, ?_⟩ <;> intros <;> simp [expr, expr_loop, mul, mul_loop, primary]
  | succ f ih =>
    obtain ⟨ihe, ihel, ihm, ihml, ihp⟩ := ih
    have snd := parser_sound ui f
    refine ⟨?_, ?_, ?_, ?_, ?_⟩
    · intro c hc
      rw [expr_succ]
      refine bind_ne_null_of _ _ (ihm c hc) (fun a ha => ihel _ _ ?_)
      obtain ⟨_, _, h, _⟩ := snd.2.2.1 c a.1 a.2 hc ha
      exact h
    · intro n c hc
      rw [expr_loop]
      refine bind_ne_null_of _ _ (consume_ne_null _ _ _ hc) (fun a ha => ?_)
      have hc1 := consume_ends_eof _ _ _ _ hc ha
      split
      · refine bind_ne_null_of _ _ (ihm _ hc1) (fun m hm => ihel _ _ ?_)
        obtain ⟨_, _, h, _⟩ := snd.2.2.1 _ m.1 m.2 hc1 hm
        exact h
      · refine bind_ne_null_of _ _ (consume_ne_null _ _ _ hc1) (fun b hb => ?_)
        have hc2 := consume_ends_eof _ _ _ _ hc1 hb
        split
        · refine bind_ne_null_of _ _ (ihm _ hc2) (fun m hm => ihel _ _ ?_)
          obtain ⟨_, _, h, _⟩ := snd.2.2.1 _ m.1 m.2 hc2 hm
          exact h
        · simp
    · intro c hc
      rw [mul_succ]
      refine bind_ne_null_of _ _ (ihp c hc) (fun a ha => ihml _ _ ?_)
      obtain ⟨_, _, h, _⟩ := snd.2.2.2.2 c a.1 a.2 hc ha
      exact h
    · intro n c hc
      rw [mul_loop]
      refine bind_ne_null_of _ _ (consume_ne_null _ _ _ hc) (fun a ha => ?_)
      have hc1 := consume_ends_eof _ _ _ _ hc ha
      split
      · refine bind_ne_null_of _ _ (ihp _ hc1) (fun m hm => ihml _ _ ?_)
        obtain ⟨_, _, h, _⟩ := snd.2.2.2.2 _ m.1 m.2 hc1 hm
        exact h
      · refine bind_ne_null_of _ _ (consume_ne_null _ _ _ hc1) (fun b hb => ?_)
        have hc2 := consume_ends_eof _ _ _ _ hc1 hb
        split
        · refine bind_ne_null_of _ _ (ihp _ hc2) (fun m hm => ihml _ _ ?_)
          obtain ⟨_, _, h, _⟩ := snd.2.2.2.2 _ m.1 m.2 hc2 hm
          exact h
        · simp
    · intro c hc
      rw [primary]
      refine bind_ne_null_of _ _ (consume_ne_null _ _ _ hc) (fun a ha => ?_)
      have hc1 := consume_ends_eof _ _ _ _ hc ha
      split
      · refine bind_ne_null_of _ _ (ihe _ hc1) (fun m hm => ?_)
        obtain ⟨_, _, h, _⟩ := snd.1 _ m.1 m.2 hc1 hm
        exact bind_ne_null_of _ _ (expect_ne_null _ _ _ h) (fun _ _ => by simp)
      · exact bind_ne_null_of _ _ (expect_number_ne_null _ hc1) (fun _ _ => by simp)

theorem tokenize_ends_eof (p : List Char) (ts : List Token) (h : tokenize p = .ok ts) :
    ends_eof ts := by
  obtain ⟨body, e, _⟩ := tokenize_at_shape 0 p [] rfl ts h
  exact ⟨body, _, e, rfl⟩

/-- On the tokens of `tokenize` the parser returns a tree or stops in `error_at`. -/
theorem parse_total (p : List Char) (ts : List Token) (h : tokenize p = .ok ts) :
    (∃ t r, parse p ts = .ok (t, r)) ∨ (∃ loc msg, parse p ts = .error loc msg) := by
  have h1 := parse_ne_fuel p ts
  have h2 := (parser_no_null p (parse_fuel ts)).1 ts (tokenize_ends_eof p ts h)
  unfold parse at *
  cases hr : expr p (parse_fuel ts) ts with
  | ok a => exact Or.inl ⟨a.1, a.2, rfl⟩
  | error loc msg => exact Or.inr ⟨loc, msg, rfl⟩
  | null => exact absurd hr h2
  | fuel => exact absurd hr h1

/-! ## Tokenizer: what the parser reads of the tokens -/

theorem deref_append_left (a b : List Char) (i : Nat) (h : i < a.length) :
    deref (a ++ b) i = deref a i := by
  unfold deref
  exact List.getD_append a b _ i h

theorem deref_append_right (a b : List Char) (i : Nat) :
    deref (a ++ b) (i + a.length) = deref b i := by
  unfold deref
  rw [List.getD_append_right a b _ (i + a.length) (by omega)]
  congr 1
  omega

theorem view_append_left (a b : List Char) (t : Token) (h : t.str < a.length) :
    view (a ++ b) t = view a t := by
  obtain ⟨k, v, s⟩ := t
  cases k
  · simp only [view]; rw [deref_append_left a b s h]
  · rfl
  · rfl

theorem view_append_right (a b : List Char) (t : Token) :
    view (a ++ b) (t.shift a.length) = view b t := by
  obtain ⟨k, v, s⟩ := t
  cases k
  · simp only [view, Token.shift]; rw [deref_append_right a b s]
  · rfl
  · rfl

theorem lexv_spec (p : List Char) (v : List Tok) :
    lexv p = some v ↔
      ∃ body, tokenize p = .ok (body ++ [new_token .TK_EOF p.length]) ∧
        (∀ t ∈ body, t.str < p.length) ∧ body.map (view p) = v := by
  constructor
  · intro h
    unfold lexv at h
    cases ht : tokenize p with
    | ok ts =>
      obtain ⟨body, e, hb⟩ := tokenize_at_shape 0 p [] rfl ts ht
      simp only [Nat.zero_add] at e hb
      rw [ht] at h
      simp only [Option.some.injEq] at h
      subst e
      rw [List.dropLast_concat] at h
      exact ⟨body, rfl, fun t ht => (hb t ht).2.1, h⟩
    | error loc msg => rw [ht] at h; cases h
    | null => rw [ht] at h; cases h
    | fuel => rw [ht] at h; cases h
  · rintro ⟨body, ht, _, hv⟩
    unfold lexv
    rw [ht]
    simp only [List.dropLast_concat, hv]

/-- Concatenating two inputs concatenates what the parser reads, unless a run
of digits crosses the seam. -/
theorem lexv_append (a b : List Char) (va vb : List Tok)
    (hseam : ¬ (ends_digit a = true ∧ starts_digit b = true))
    (ha : lexv a = some va) (hb : lexv b = some vb) :
    lexv (a ++ b) = some (va ++ vb) := by
  obtain ⟨ba, ta, hla, hva⟩ := (lexv_spec a va).1 ha
  obtain ⟨bb, tb, hlb, hvb⟩ := (lexv_spec b vb).1 hb
  rw [lexv_spec]
  refine ⟨ba ++ bb.map (Token.shift a.length), ?_, ?_, ?_⟩
  · have h1 := tokenize_at_append 0 a b hseam
    rw [← tokenize_eq_at, ← tokenize_eq_at, ta] at h1
    simp only [Nat.zero_add, List.dropLast_concat] at h1
    have h2 := tokenize_at_shift a.length 0 b
    rw [Nat.zero_add, ← tokenize_eq_at, tb] at h2
    rw [h1, h2]
    simp only [shift_outcome, Outcome.bind, List.map_append, List.map_cons, List.map_nil,
      List.append_assoc, List.length_append]
    congr 3
    simp only [Token.shift, new_token, Nat.add_comm]
  · intro t ht
    rw [List.length_append]
    rcases List.mem_append.1 ht with h | h
    · have := hla t h; omega
    · obtain ⟨t', ht', rfl⟩ := List.mem_map.1 h
      have := hlb t' ht'
      simp only [Token.shift]; omega
  · rw [List.map_append, List.map_map, ← hva, ← hvb]
    congr 1
    · exact List.map_congr_left (fun t ht => view_append_left a b t (hla t ht))
    · exact List.map_congr_left (fun t _ => view_append_right a b t)

theorem lexv_nil : lexv [] = some [] := rfl

theorem lexv_space (c : Char) (h : isspace c = true) : lexv [c] = some [] := by
  unfold lexv
  rw [tokenize_eq_at, tokenize_at_space 0 c [] h, tokenize_at_nil]
  rfl

theorem lexv_reserved (c : Char) (h : is_reserved c = true) : lexv [c] = some [.op c] := by
  unfold lexv
  rw [tokenize_eq_at, tokenize_at_reserved 0 c [] h, tokenize_at_nil]
  rfl

theorem takeWhile_all (q : Char → Bool) (l : List Char) (h : ∀ c ∈ l, q c = true) :
    l.takeWhile q = l ∧ l.dropWhile q = [] := by
  induction l with
  | nil => exact ⟨rfl, rfl⟩
  | cons x l ih =>
    have hx := h x (by simp)
    have := ih (fun c hc => h c (by simp [hc]))
    simp [List.takeWhile_cons, List.dropWhile_cons, hx, this.1, this.2]

theorem lexv_digits (ds : List Char) (hne : ds ≠ []) (hd : ∀ c ∈ ds, isdigit c = true) :
    lexv ds = some [.num (num_val ds)] := by
  cases ds with
  | nil => exact absurd rfl hne
  | cons c rest =>
    have hc := hd c (by simp)
    obtain ⟨e1, e2⟩ := takeWhile_all isdigit rest (fun x hx => hd x (by simp [hx]))
    unfold lexv
    rw [tokenize_eq_at, tokenize_at_digit 0 c rest hc, e1, e2, tokenize_at_nil]
    rfl

theorem num_val_small (ds : List Char) (h : digitsVal ds ≤ 2147483647) :
    num_val ds = (digitsVal ds : Int) := by
  unfold num_val toInt32 LONG_MAX
  omega


/-! ## Parsing a derivation -/

/-- The tokens of a derivation of `expr`, followed by a token that is not an
operator, parse to the tree derived and leave the cursor on that token. -/
theorem parse_of_derives (ui : List Char) (toks : List Token) (x : Token) (g : List Token)
    (t : Node) (hd : Derives .expr (toks.map (view ui)) t)
    (h1 : view ui x ≠ .op '+') (h2 : view ui x ≠ .op '-')
    (h3 : view ui x ≠ .op '*') (h4 : view ui x ≠ .op '/') :
    parse ui (toks ++ x :: g) = .ok (t, x :: g) := by
  obtain ⟨K, m, rfl, hk⟩ := parser_complete ui hd
  rw [← run_parse]
  refine hk toks (x :: g) _ rfl ?_
  refine run_bind _ (fun (q : Node × List Token) f => expr_loop ui f (K q.1) q.2)
    (.ok (m, x :: g)) _ ?_ ?_
  · exact run_const _ _ (by simp) (fun f => mul_loop_done ui f m x g h3 h4)
  · exact run_const _ _ (by simp) (fun f => expr_loop_done ui f (K m) x g h1 h2)

/-- A successful parse of a list ending in `TK_EOF` has consumed a derivation. -/
theorem derives_of_parse (ui : List Char) (c : List Token) (t : Node) (r : List Token)
    (hc : ends_eof c) (h : parse ui c = .ok (t, r)) :
    ∃ a, c = a ++ r ∧ ends_eof r ∧ Derives .expr (a.map (view ui)) t :=
  (parser_sound ui (parse_fuel c)).1 c t r hc h

theorem view_eof_of_kind (ui : List Char) (t : Token) (h : t.kind = .TK_EOF) :
    view ui t = .eof := by
  obtain ⟨k, v, s⟩ := t
  simp only at h
  subst h
  rfl

/-! ## C2: precedence -/

theorem no_add_sub_prec_ok (t : Node) (h : no_add_sub t = true) :
    prec_ok t = true ∧ is_add_sub t = false := by
  induction t with
  | Num n => exact ⟨rfl, rfl⟩
  | Add l r _ _ => simp [no_add_sub] at h
  | Sub l r _ _ => simp [no_add_sub] at h
  | Mul l r ihl ihr =>
    simp only [no_add_sub, Bool.and_eq_true] at h
    have hl := ihl h.1
    have hr := ihr h.2
    refine ⟨?_, rfl⟩
    simp only [prec_ok, hl.1, hl.2, hr.1, hr.2, Bool.and_self, Bool.not_false]
  | Div l r ihl ihr =>
    simp only [no_add_sub, Bool.and_eq_true] at h
    have hl := ihl h.1
    have hr := ihr h.2
    refine ⟨?_, rfl⟩
    simp only [prec_ok, hl.1, hl.2, hr.1, hr.2, Bool.and_self, Bool.not_false]

theorem derives_flat {nt : NT} {a : List Tok} {t : Node} (h : Derives nt a t)
    (hp : ∀ v ∈ a, v ≠ Tok.op '(') : flat_shape nt t := by
  induction h with
  | num v => exact ⟨v, rfl⟩
  | paren _ _ => exact absurd rfl (hp _ (by simp))
  | mul_one _ ih =>
    obtain ⟨n, rfl⟩ := ih hp
    rfl
  | mul_mul _ _ ihm ihp =>
    have h1 : flat_shape .mul _ := ihm (fun v hv => hp v (by simp [hv]))
    obtain ⟨n, rfl⟩ := ihp (fun v hv => hp v (by simp [hv]))
    simp only [flat_shape] at h1 ⊢
    simp [no_add_sub, h1]
  | mul_div _ _ ihm ihp =>
    have h1 : flat_shape .mul _ := ihm (fun v hv => hp v (by simp [hv]))
    obtain ⟨n, rfl⟩ := ihp (fun v hv => hp v (by simp [hv]))
    simp only [flat_shape] at h1 ⊢
    simp [no_add_sub, h1]
  | expr_one _ ih => exact (no_add_sub_prec_ok _ (ih hp)).1
  | expr_add _ _ ihe ihm =>
    have h1 : flat_shape .expr _ := ihe (fun v hv => hp v (by simp [hv]))
    have h2 : flat_shape .mul _ := ihm (fun v hv => hp v (by simp [hv]))
    simp only [flat_shape] at h1 h2 ⊢
    simp [prec_ok, h1, (no_add_sub_prec_ok _ h2).1]
  | expr_sub _ _ ihe ihm =>
    have h1 : flat_shape .expr _ := ihe (fun v hv => hp v (by simp [hv]))
    have h2 : flat_shape .mul _ := ihm (fun v hv => hp v (by simp [hv]))
    simp only [flat_shape] at h1 h2 ⊢
    simp [prec_ok, h1, (no_add_sub_prec_ok _ h2).1]

theorem deref_mem (p : List Char) (i : Nat) (h : i < p.length) : deref p i ∈ p := by
  unfold deref
  rw [List.getD_eq_getElem p _ h]
  exact List.getElem_mem h

/-- The characters the parser reads through reserved tokens are characters of the input. -/
theorem tokenize_view_mem (p : List Char) (ts : List Token) (h : tokenize p = .ok ts)
    (tk : Token) (htk : tk ∈ ts) (ch : Char) (hv : view p tk = .op ch) : ch ∈ p := by
  obtain ⟨body, e, hb⟩ := tokenize_at_shape 0 p [] rfl ts h
  subst e
  rcases List.mem_append.1 htk with hm | hm
  · obtain ⟨_, hlt, hk⟩ := hb tk hm
    simp only [Nat.zero_add] at hlt
    obtain ⟨k, v, s⟩ := tk
    cases k
    · simp only [view, Tok.op.injEq] at hv
      subst hv
      exact deref_mem p s hlt
    · simp [view] at hv
    · simp [view] at hv
  · simp only [List.mem_singleton] at hm
    subst hm
    simp [view, new_token] at hv

/-- C2. Precedence is structural: on an input without parentheses on which
`tokenize` and `expr` succeed, no `Mul` or `Div` node of the tree has an `Add`
or `Sub` node as a direct child. -/
theorem C2_precedence_structural (p : List Char) (toks : List Token) (t : Node)
    (r : List Token) (hp : ∀ c ∈ p, c ≠ '(' ∧ c ≠ ')')
    (htok : tokenize p = .ok toks) (hparse : parse p toks = .ok (t, r)) :
    prec_ok t = true := by
  obtain ⟨a, e, _, hd⟩ := derives_of_parse p toks t r (tokenize_ends_eof p toks htok) hparse
  refine derives_flat hd ?_
  intro v hv hvo
  obtain ⟨tk, htk, rfl⟩ := List.mem_map.1 hv
  have hmem : tk ∈ toks := by rw [e]; exact List.mem_append_left _ htk
  exact (hp _ (tokenize_view_mem p toks htok tk hmem _ hvo)).1 rfl

/-- C2, witness: `2 + 3 * 4` parses to `Add(Num 2, Mul(Num 3, Num 4))`, and the
code generated for it leaves 14 on the stack. -/
theorem C2_precedence_structural_witness :
    tokenize "2 + 3 * 4".toList = .ok [⟨.TK_NUM, 2, 0⟩, ⟨.TK_RESERVED, 0, 2⟩, ⟨.TK_NUM, 3, 4⟩,
      ⟨.TK_RESERVED, 0, 6⟩, ⟨.TK_NUM, 4, 8⟩, ⟨.TK_EOF, 0, 9⟩] ∧
    parse "2 + 3 * 4".toList [⟨.TK_NUM, 2, 0⟩, ⟨.TK_RESERVED, 0, 2⟩, ⟨.TK_NUM, 3, 4⟩,
      ⟨.TK_RESERVED, 0, 6⟩, ⟨.TK_NUM, 4, 8⟩, ⟨.TK_EOF, 0, 9⟩]
      = .ok (.Add (.Num 2) (.Mul (.Num 3) (.Num 4)), [⟨.TK_EOF, 0, 9⟩]) ∧
    prec_ok (.Add (.Num 2) (.Mul (.Num 3) (.Num 4))) = true ∧
    exec (gen (.Add (.Num 2) (.Mul (.Num 3) (.Num 4)))) ⟨0, 0, 0, []⟩
      = some ⟨14, 12, 0, [14]⟩ :=
  ⟨by decide, by decide,
   C2_precedence_structural "2 + 3 * 4".toList
     [⟨.TK_NUM, 2, 0⟩, ⟨.TK_RESERVED, 0, 2⟩, ⟨.TK_NUM, 3, 4⟩,
      ⟨.TK_RESERVED, 0, 6⟩, ⟨.TK_NUM, 4, 8⟩, ⟨.TK_EOF, 0, 9⟩]
     (.Add (.Num 2) (.Mul (.Num 3) (.Num 4))) [⟨.TK_EOF, 0, 9⟩]
     (by decide) (by decide) (by decide),
   by decide⟩

/-! ## From what the parser reads to the parse, and back -/

theorem eof_view (ui : List Char) (n : Nat) : view ui (new_token .TK_EOF n) = .eof := rfl

/-- When `tokenize` succeeds on `p` and what the parser reads is a derivation
of `expr`, the parse succeeds with its tree and stops on `TK_EOF`. -/
theorem parse_of_lexv (p : List Char) (v : List Tok) (t : Node)
    (hv : lexv p = some v) (hd : Derives .expr v t) :
    ∃ body, tokenize p = .ok (body ++ [new_token .TK_EOF p.length]) ∧
      parse p (body ++ [new_token .TK_EOF p.length]) = .ok (t, [new_token .TK_EOF p.length]) := by
  obtain ⟨body, ht, _, hm⟩ := (lexv_spec p v).1 hv
  subst hm
  refine ⟨body, ht, ?_⟩
  exact parse_of_derives p body _ [] t hd (by rw [eof_view]; simp) (by rw [eof_view]; simp)
    (by rw [eof_view]; simp) (by rw [eof_view]; simp)

/-- A cursor on `TK_EOF` within the tokens of `tokenize` is on their last token. -/
theorem at_eof_last (p : List Char) (toks a r : List Token) (htok : tokenize p = .ok toks)
    (e : toks = a ++ r) (hr : at_eof r = .ok true) :
    r = [new_token .TK_EOF p.length] ∧ lexv p = some (a.map (view p)) := by
  obtain ⟨body, hb, hlt, hm⟩ := (lexv_spec p _).1
    (show lexv p = some (toks.dropLast.map (view p)) by unfold lexv; rw [htok])
  obtain ⟨body', hb', hk⟩ := tokenize_at_shape 0 p [] rfl toks htok
  simp only [Nat.zero_add] at hb'
  cases r with
  | nil => simp [at_eof] at hr
  | cons x xs =>
    simp only [at_eof, Outcome.ok.injEq, beq_iff_eq] at hr
    have hx : x ∉ body' := by
      intro hmem
      rcases (hk x hmem).2.2 with h | h
      · rw [hr] at h; exact absurd h.1 (by decide)
      · rw [hr] at h; exact absurd h.1 (by decide)
    have e2 : body' ++ [new_token .TK_EOF p.length] = a ++ x :: xs := by rw [← hb', e]
    have hxs : xs = [] := by
      rcases List.eq_nil_or_concat xs with h | ⟨ini, lst, h⟩
      · exact h
      · exfalso
        rw [h, List.concat_eq_append, ← List.cons_append, ← List.append_assoc] at e2
        have := List.append_inj' e2 (by simp)
        apply hx
        rw [this.1]
        simp
    subst hxs
    have := List.append_inj' e2 (by simp)
    simp only [List.cons.injEq, and_true] at this
    refine ⟨by rw [this.2], ?_⟩
    unfold lexv
    rw [htok, e]
    simp only [List.dropLast_concat]

/-- A parse of the tokens of `p` that stops on `TK_EOF` has read a derivation. -/
theorem lexv_of_parse (p : List Char) (toks : List Token) (t : Node) (r : List Token)
    (htok : tokenize p = .ok toks) (hparse : parse p toks = .ok (t, r))
    (hr : at_eof r = .ok true) :
    ∃ v, lexv p = some v ∧ Derives .expr v t := by
  obtain ⟨a, e, _, hd⟩ := derives_of_parse p toks t r (tokenize_ends_eof p toks htok) hparse
  exact ⟨_, (at_eof_last p toks a r htok e hr).2, hd⟩

/-! ## C3: left-associativity -/

theorem is_literal_spec (n : List Char) (h : is_literal n = true) :
    n ≠ [] ∧ ∀ c ∈ n, isdigit c = true := by
  simp only [is_literal, Bool.and_eq_true, Bool.not_eq_true', List.all_eq_true] at h
  refine ⟨?_, h.2⟩
  intro e
  subst e
  simp at h

theorem lexv_literal (n : List Char) (h : is_literal n = true) :
    lexv n = some [.num (num_val n)] :=
  lexv_digits n (is_literal_spec n h).1 (is_literal_spec n h).2

theorem seam_of_not_starts (a b : List Char) (h : starts_digit b = false) :
    ¬ (ends_digit a = true ∧ starts_digit b = true) := by
  rw [h]; simp

theorem seam_of_not_ends (a b : List Char) (h : ends_digit a = false) :
    ¬ (ends_digit a = true ∧ starts_digit b = true) := by
  rw [h]; simp

theorem lexv_chain (n0 : List Char) (rest : List (Char × List Char))
    (h0 : is_literal n0 = true)
    (hr : ∀ q ∈ rest, is_literal q.2 = true ∧ is_reserved q.1 = true) :
    lexv (chain_input n0 rest) = some (chain_views n0 rest) := by
  induction rest generalizing n0 with
  | nil => exact lexv_literal n0 h0
  | cons q rest ih =>
    have hq := hr q (by simp)
    have ih' := ih q.2 hq.1 (fun x hx => hr x (by simp [hx]))
    have hsp : isspace ' ' = true := by decide
    have e : chain_input n0 (q :: rest)
        = n0 ++ ([' '] ++ ([q.1] ++ ([' '] ++ chain_input q.2 rest))) := rfl
    have v : chain_views n0 (q :: rest)
        = [.num (num_val n0)] ++ ([] ++ ([.op q.1] ++ ([] ++ chain_views q.2 rest))) := by
      simp [chain_views]
    rw [e, v]
    refine lexv_append _ _ _ _ (seam_of_not_starts _ _ rfl) (lexv_literal n0 h0) ?_
    refine lexv_append _ _ _ _ (seam_of_not_ends _ _ rfl) (lexv_space _ hsp) ?_
    refine lexv_append _ _ _ _ (seam_of_not_starts _ _ rfl) (lexv_reserved _ hq.2) ?_
    exact lexv_append _ _ _ _ (seam_of_not_ends _ _ rfl) (lexv_space _ hsp) ih'

theorem derives_chain_add (rest : List (Char × List Char)) (a : List Tok) (acc : Node)
    (ha : Derives .expr a acc) (hops : ∀ q ∈ rest, q.1 = '+' ∨ q.1 = '-') :
    Derives .expr (a ++ rest.flatMap (fun q => [.op q.1, .num (num_val q.2)]))
      (rest.foldl (fun acc q => op_node q.1 acc (.Num (num_val q.2))) acc) := by
  induction rest generalizing a acc with
  | nil => simpa using ha
  | cons q rest ih =>
    have hstep : Derives .expr (a ++ .op q.1 :: [.num (num_val q.2)])
        (op_node q.1 acc (.Num (num_val q.2))) := by
      rcases hops q (by simp) with h | h
      · rw [h]; exact .expr_add ha (.mul_one (.num _))
      · rw [h]; exact .expr_sub ha (.mul_one (.num _))
    have := ih _ _ hstep (fun x hx => hops x (by simp [hx]))
    simpa using this

theorem derives_chain_mul (rest : List (Char × List Char)) (a : List Tok) (acc : Node)
    (ha : Derives .mul a acc) (hops : ∀ q ∈ rest, q.1 = '*' ∨ q.1 = '/') :
    Derives .mul (a ++ rest.flatMap (fun q => [.op q.1, .num (num_val q.2)]))
      (rest.foldl (fun acc q => op_node q.1 acc (.Num (num_val q.2))) acc) := by
  induction rest generalizing a acc with
  | nil => simpa using ha
  | cons q rest ih =>
    have hstep : Derives .mul (a ++ .op q.1 :: [.num (num_val q.2)])
        (op_node q.1 acc (.Num (num_val q.2))) := by
      rcases hops q (by simp) with h | h
      · rw [h]; exact .mul_mul ha (.num _)
      · rw [h]; exact .mul_div ha (.num _)
    have := ih _ _ hstep (fun x hx => hops x (by simp [hx]))
    simpa using this

theorem left_comb_op_node (o : Char) (acc : Node) (v : Int) (h : left_comb acc = true) :
    left_comb (op_node o acc (.Num v)) = true := by
  unfold op_node
  split
  · simpa [left_comb] using h
  · split
    · simpa [left_comb] using h
    · split
      · simpa [left_comb] using h
      · simpa [left_comb] using h

theorem left_comb_chain (rest : List (Char × List Char)) (acc : Node)
    (h : left_comb acc = true) :
    left_comb (rest.foldl (fun acc q => op_node q.1 acc (.Num (num_val q.2))) acc) = true := by
  induction rest generalizing acc with
  | nil => exact h
  | cons q rest ih => exact ih _ (left_comb_op_node _ _ _ h)

theorem chain_tree_literal (n0 : List Char) (rest : List (Char × List Char))
    (h : ∀ n ∈ n0 :: rest.map Prod.snd, digitsVal n ≤ 2147483647) :
    chain_tree n0 rest = literal_tree n0 rest := by
  unfold chain_tree literal_tree
  rw [num_val_small n0 (h n0 (List.mem_cons_self _ _))]
  have hr : ∀ q ∈ rest, digitsVal q.2 ≤ 2147483647 := fun q hq =>
    h q.2 (List.mem_cons_of_mem _ (List.mem_map_of_mem Prod.snd hq))
  generalize Node.Num (digitsVal n0 : Int) = acc
  clear h
  induction rest generalizing acc with
  | nil => rfl
  | cons q rest ih =>
    simp only [List.foldl_cons]
    rw [num_val_small q.2 (hr q (List.mem_cons_self _ _))]
    exact ih (fun x hx => hr x (List.mem_cons_of_mem _ hx)) _

/-- C3 as amended. Left-associativity: for literals `n0..nk` and operators `o1..ok` all
from `+ -` or all from `* /`, the input `n0 o1 n1 ... ok nk` is tokenized and
parsed to the left fold `(((n0 o1 n1) o2 n2) ... ok nk)`, the cursor ending on
`TK_EOF`; every operator node of that tree has a `Num` leaf as right child.  The
leaf of a literal holds the value `tokenize` gives it, which is the literal read
in base 10 whenever that is at most 2147483647; when every literal is at most
2147483647 the tree is the left fold of the literals themselves. -/
theorem C3_left_assoc (n0 : List Char) (rest : List (Char × List Char))
    (h0 : is_literal n0 = true) (hlit : ∀ q ∈ rest, is_literal q.2 = true)
    (hops : (∀ q ∈ rest, q.1 = '+' ∨ q.1 = '-') ∨ (∀ q ∈ rest, q.1 = '*' ∨ q.1 = '/')) :
    ∃ toks e, tokenize (chain_input n0 rest) = .ok toks ∧ e.kind = .TK_EOF ∧
      parse (chain_input n0 rest) toks = .ok (chain_tree n0 rest, [e]) ∧
      left_comb (chain_tree n0 rest) = true ∧
      (∀ n ∈ n0 :: rest.map Prod.snd, digitsVal n ≤ 2147483647 →
        num_val n = (digitsVal n : Int)) ∧
      ((∀ n ∈ n0 :: rest.map Prod.snd, digitsVal n ≤ 2147483647) →
        chain_tree n0 rest = literal_tree n0 rest) := by
  have hres : ∀ q ∈ rest, is_literal q.2 = true ∧ is_reserved q.1 = true := by
    intro q hq
    refine ⟨hlit q hq, ?_⟩
    rcases hops with h | h <;> rcases h q hq with e | e <;> rw [e] <;> decide
  have hv := lexv_chain n0 rest h0 hres
  have hd : Derives .expr (chain_views n0 rest) (chain_tree n0 rest) := by
    rcases hops with h | h
    · exact derives_chain_add rest [.num (num_val n0)] _ (.expr_one (.mul_one (.num _))) h
    · exact .expr_one (derives_chain_mul rest [.num (num_val n0)] _ (.mul_one (.num _)) h)
  obtain ⟨body, ht, hp⟩ := parse_of_lexv _ _ _ hv hd
  exact ⟨_, _, ht, rfl, hp, left_comb_chain rest _ rfl, fun n _ => num_val_small n,
    chain_tree_literal n0 rest⟩

/-- C3, witness: `8 - 3 - 2` parses to `Sub(Sub(Num 8, Num 3), Num 2)`, which
evaluates to 3. -/
theorem C3_left_assoc_witness :
    chain_input "8".toList [('-', "3".toList), ('-', "2".toList)] = "8 - 3 - 2".toList ∧
    chain_tree "8".toList [('-', "3".toList), ('-', "2".toList)]
      = .Sub (.Sub (.Num 8) (.Num 3)) (.Num 2) ∧
    eval (.Sub (.Sub (.Num 8) (.Num 3)) (.Num 2)) = 3 ∧
    ∃ toks e, tokenize (chain_input "8".toList [('-', "3".toList), ('-', "2".toList)]) = .ok toks ∧
      e.kind = .TK_EOF ∧
      parse (chain_input "8".toList [('-', "3".toList), ('-', "2".toList)]) toks
        = .ok (chain_tree "8".toList [('-', "3".toList), ('-', "2".toList)], [e]) ∧
      left_comb (chain_tree "8".toList [('-', "3".toList), ('-', "2".toList)]) = true ∧
      (∀ n ∈ "8".toList :: [('-', "3".toList), ('-', "2".toList)].map Prod.snd,
        digitsVal n ≤ 2147483647 → num_val n = (digitsVal n : Int)) ∧
      ((∀ n ∈ "8".toList :: [('-', "3".toList), ('-', "2".toList)].map Prod.snd,
          digitsVal n ≤ 2147483647) →
        chain_tree "8".toList [('-', "3".toList), ('-', "2".toList)]
          = literal_tree "8".toList [('-', "3".toList), ('-', "2".toList)]) :=
  ⟨by decide, by decide, by decide,
   C3_left_assoc "8".toList [('-', "3".toList), ('-', "2".toList)] (by decide) (by decide)
     (Or.inl (by decide))⟩

/-- C3, counterexample: `2147483648 - 1` does not parse to the left fold of its
literals; the first leaf holds -2147483648. -/
theorem C3_left_assoc_counterexample :
    ¬ (∀ (n0 : List Char) (rest : List (Char × List Char)), is_literal n0 = true →
      (∀ q ∈ rest, is_literal q.2 = true) →
      ((∀ q ∈ rest, q.1 = '+' ∨ q.1 = '-') ∨ (∀ q ∈ rest, q.1 = '*' ∨ q.1 = '/')) →
      ∃ toks r, tokenize (chain_input n0 rest) = .ok toks ∧
        parse (chain_input n0 rest) toks = .ok (literal_tree n0 rest, r)) := by
  intro hall
  obtain ⟨toks, r, ht, hp⟩ := hall "2147483648".toList [('-', "1".toList)] (by decide)
    (by decide) (Or.inl (by decide))
  have ht' : tokenize (chain_input "2147483648".toList [('-', "1".toList)])
      = .ok [⟨.TK_NUM, -2147483648, 0⟩, ⟨.TK_RESERVED, 0, 11⟩, ⟨.TK_NUM, 1, 13⟩,
          ⟨.TK_EOF, 0, 14⟩] := by decide
  rw [ht'] at ht
  injection ht with ht
  subst ht
  have hp' : parse (chain_input "2147483648".toList [('-', "1".toList)])
      [⟨.TK_NUM, -2147483648, 0⟩, ⟨.TK_RESERVED, 0, 11⟩, ⟨.TK_NUM, 1, 13⟩, ⟨.TK_EOF, 0, 14⟩]
      = .ok (.Sub (.Num (-2147483648)) (.Num 1), [⟨.TK_EOF, 0, 14⟩]) := by decide
  rw [hp'] at hp
  injection hp with hp
  have h1 : Node.Sub (.Num (-2147483648)) (.Num 1)
      = literal_tree "2147483648".toList [('-', "1".toList)] := congrArg Prod.fst hp
  revert h1
  decide

/-! ## C4: parentheses -/

/-- C4 as amended. Parentheses override precedence and leave no node: when the parse of
`e` succeeds with tree `t` and the cursor on `TK_EOF`, the parse of
`"(" ++ e ++ ") * " ++ c` for a literal `c` succeeds with `Mul(t, Num c)` and the
cursor on `TK_EOF`; the leaf holds the value `tokenize` gives to `c`, which is
`c` read in base 10 whenever that is at most 2147483647. -/
theorem C4_parens (e : List Char) (toks : List Token) (t : Node) (r : List Token)
    (c : List Char) (htok : tokenize e = .ok toks) (hparse : parse e toks = .ok (t, r))
    (hr : at_eof r = .ok true) (hc : is_literal c = true) :
    ∃ toks' r', tokenize ('(' :: e ++ ") * ".toList ++ c) = .ok toks' ∧
      parse ('(' :: e ++ ") * ".toList ++ c) toks' = .ok (.Mul t (.Num (num_val c)), r') ∧
      at_eof r' = .ok true ∧
      (digitsVal c ≤ 2147483647 → num_val c = (digitsVal c : Int)) := by
  obtain ⟨v, hv, hd⟩ := lexv_of_parse e toks t r htok hparse hr
  have hsp : isspace ' ' = true := by decide
  have e1 : '(' :: e ++ ") * ".toList ++ c
      = ['('] ++ (e ++ ([')'] ++ ([' '] ++ (['*'] ++ ([' '] ++ c))))) := by
    simp
  have hl : lexv ('(' :: e ++ ") * ".toList ++ c)
      = some ([.op '('] ++ (v ++ ([.op ')'] ++ ([] ++ ([.op '*'] ++ ([] ++ [.num (num_val c)])))))) := by
    rw [e1]
    refine lexv_append _ _ _ _ (seam_of_not_ends _ _ rfl) (lexv_reserved _ (by decide)) ?_
    refine lexv_append _ _ _ _ (seam_of_not_starts _ _ rfl) hv ?_
    refine lexv_append _ _ _ _ (seam_of_not_starts _ _ rfl) (lexv_reserved _ (by decide)) ?_
    refine lexv_append _ _ _ _ (seam_of_not_starts _ _ rfl) (lexv_space _ hsp) ?_
    refine lexv_append _ _ _ _ (seam_of_not_starts _ _ rfl) (lexv_reserved _ (by decide)) ?_
    exact lexv_append _ _ _ _ (seam_of_not_ends _ _ rfl) (lexv_space _ hsp) (lexv_literal c hc)
  have hd' : Derives .expr
      ([.op '('] ++ (v ++ ([.op ')'] ++ ([] ++ ([.op '*'] ++ ([] ++ [.num (num_val c)]))))))
      (.Mul t (.Num (num_val c))) := by
    have := Derives.expr_one (Derives.mul_mul (Derives.mul_one (Derives.paren hd))
      (Derives.num (num_val c)))
    simpa using this
  obtain ⟨body, ht, hp⟩ := parse_of_lexv _ _ _ hl hd'
  exact ⟨_, _, ht, hp, rfl, num_val_small c⟩

/-- C4, witness: `(2 + 3) * 4` parses to `Mul(Add(Num 2, Num 3), Num 4)`, which
evaluates to 20. -/
theorem C4_parens_witness :
    '(' :: "2 + 3".toList ++ ") * ".toList ++ "4".toList = "(2 + 3) * 4".toList ∧
    num_val "4".toList = 4 ∧
    eval (.Mul (.Add (.Num 2) (.Num 3)) (.Num 4)) = 20 ∧
    ∃ toks' r', tokenize ('(' :: "2 + 3".toList ++ ") * ".toList ++ "4".toList) = .ok toks' ∧
      parse ('(' :: "2 + 3".toList ++ ") * ".toList ++ "4".toList) toks'
        = .ok (.Mul (.Add (.Num 2) (.Num 3)) (.Num (num_val "4".toList)), r') ∧
      at_eof r' = .ok true ∧
      (digitsVal "4".toList ≤ 2147483647 → num_val "4".toList = (digitsVal "4".toList : Int)) :=
  ⟨by decide, by decide, by decide,
   C4_parens "2 + 3".toList
     [⟨.TK_NUM, 2, 0⟩, ⟨.TK_RESERVED, 0, 2⟩, ⟨.TK_NUM, 3, 4⟩, ⟨.TK_EOF, 0, 5⟩]
     (.Add (.Num 2) (.Num 3)) [⟨.TK_EOF, 0, 5⟩] "4".toList
     (by decide) (by decide) (by decide) (by decide)⟩

/-- C4, counterexample: `(1) * 2147483648` does not parse to `Mul(Num 1, Num
2147483648)`; the right leaf holds -2147483648. -/
theorem C4_parens_counterexample :
    ¬ (∀ (e : List Char) (toks : List Token) (t : Node) (r : List Token) (c : List Char),
      tokenize e = .ok toks → parse e toks = .ok (t, r) → at_eof r = .ok true →
      is_literal c = true →
      ∃ toks' r', tokenize ('(' :: e ++ ") * ".toList ++ c) = .ok toks' ∧
        parse ('(' :: e ++ ") * ".toList ++ c) toks' = .ok (.Mul t (.Num (digitsVal c)), r') ∧
        at_eof r' = .ok true) := by
  intro hall
  obtain ⟨toks, r, ht, hp, _⟩ := hall "1".toList [⟨.TK_NUM, 1, 0⟩, ⟨.TK_EOF, 0, 1⟩] (.Num 1)
    [⟨.TK_EOF, 0, 1⟩] "2147483648".toList (by decide) (by decide) (by decide) (by decide)
  have ht' : tokenize ('(' :: "1".toList ++ ") * ".toList ++ "2147483648".toList)
      = .ok [⟨.TK_RESERVED, 0, 0⟩, ⟨.TK_NUM, 1, 1⟩, ⟨.TK_RESERVED, 0, 2⟩, ⟨.TK_RESERVED, 0, 4⟩,
          ⟨.TK_NUM, -2147483648, 6⟩, ⟨.TK_EOF, 0, 16⟩] := by decide
  rw [ht'] at ht
  injection ht with ht
  subst ht
  have hp' : parse ('(' :: "1".toList ++ ") * ".toList ++ "2147483648".toList)
      [⟨.TK_RESERVED, 0, 0⟩, ⟨.TK_NUM, 1, 1⟩, ⟨.TK_RESERVED, 0, 2⟩, ⟨.TK_RESERVED, 0, 4⟩,
        ⟨.TK_NUM, -2147483648, 6⟩, ⟨.TK_EOF, 0, 16⟩]
      = .ok (.Mul (.Num 1) (.Num (-2147483648)), [⟨.TK_EOF, 0, 16⟩]) := by decide
  rw [hp'] at hp
  injection hp with hp
  have h1 : Node.Mul (.Num 1) (.Num (-2147483648))
      = .Mul (.Num 1) (.Num (digitsVal "2147483648".toList)) := congrArg Prod.fst hp
  revert h1
  decide

/-! ## C6 and C7: malformed inputs -/

theorem lexv_tokens (p : List Char) (v : List Tok) (h : lexv p = some v) :
    ∃ body, tokenize p = .ok (body ++ [new_token .TK_EOF p.length]) ∧
      body.map (view p) = v := by
  obtain ⟨body, ht, _, hm⟩ := (lexv_spec p v).1 h
  exact ⟨body, ht, hm⟩

theorem run_primary_eof (ui : List Char) (n : Nat) :
    Run (fun f => primary ui f [new_token .TK_EOF n]) (.error n msg_not_number) :=
  run_const _ _ (by simp) (fun f => primary_miss ui f _ [] (by rw [eof_view]; simp)
    (by intro v; rw [eof_view]; simp))

theorem run_mul_eof (ui : List Char) (n : Nat) :
    Run (fun f => mul ui f [new_token .TK_EOF n]) (.error n msg_not_number) := by
  refine run_succ _ _ _ (fun f => mul_succ ui f _) ?_
  exact run_bind _ (fun (r : Node × List Token) f => mul_loop ui f r.1 r.2) _ _
    (run_primary_eof ui n) rfl

/-- C6. A trailing operator is rejected: when the parse of `e` succeeds with the
cursor on `TK_EOF`, the parse of `e ++ op` for an operator character `op` stops
in `expect_number` with the offset of `TK_EOF`, the length of the new input. -/
theorem C6_trailing_operator (e : List Char) (toks : List Token) (t : Node)
    (r : List Token) (op : Char) (htok : tokenize e = .ok toks)
    (hparse : parse e toks = .ok (t, r)) (hr : at_eof r = .ok true)
    (hop : op = '+' ∨ op = '-' ∨ op = '*' ∨ op = '/') :
    ∃ toks', tokenize (e ++ [op]) = .ok toks' ∧
      toks'.getLast? = some (new_token .TK_EOF (e ++ [op]).length) ∧
      parse (e ++ [op]) toks' = .error (e ++ [op]).length msg_not_number := by
  obtain ⟨v, hv, hd⟩ := lexv_of_parse e toks t r htok hparse hr
  have hres : is_reserved op = true := by
    rcases hop with h | h | h | h <;> rw [h] <;> decide
  have hnd : starts_digit [op] = false := by
    rcases hop with h | h | h | h <;> rw [h] <;> decide
  have hl := lexv_append e [op] _ _ (seam_of_not_starts _ _ hnd) hv (lexv_reserved op hres)
  obtain ⟨body, ht, hm⟩ := lexv_tokens _ _ hl
  obtain ⟨bv, tk, l0, rfl, h1, h2, h3⟩ := map_view_split _ body v [] _ hm
  have : l0 = [] := List.map_eq_nil_iff.1 h3
  subst this
  refine ⟨_, ht, List.getLast?_concat _, ?_⟩
  obtain ⟨K, m, rfl, hk⟩ := parser_complete (e ++ [op]) hd
  rw [← run_parse, List.append_assoc]
  refine hk bv _ _ h1 ?_
  generalize (e ++ [op]).length = n at *
  have hne : [new_token .TK_EOF n] ≠ [] := by simp
  rcases hop with h | h | h | h
  · subst h
    refine run_bind _ (fun (q : Node × List Token) f => expr_loop _ f (K q.1) q.2)
      (.ok (m, tk :: [new_token .TK_EOF n])) _ ?_ ?_
    · exact run_const _ _ (by simp) (fun f => mul_loop_done _ f m tk _ (by rw [h2]; decide)
        (by rw [h2]; decide))
    · refine run_succ _ _ _ (fun f => expr_loop_plus _ f (K m) tk _ h2 hne) ?_
      exact run_bind _ (fun (q : Node × List Token) f => expr_loop _ f (.Add (K m) q.1) q.2) _ _
        (run_mul_eof _ n) rfl
  · subst h
    refine run_bind _ (fun (q : Node × List Token) f => expr_loop _ f (K q.1) q.2)
      (.ok (m, tk :: [new_token .TK_EOF n])) _ ?_ ?_
    · exact run_const _ _ (by simp) (fun f => mul_loop_done _ f m tk _ (by rw [h2]; decide)
        (by rw [h2]; decide))
    · refine run_succ _ _ _ (fun f => expr_loop_minus _ f (K m) tk _ h2 hne) ?_
      exact run_bind _ (fun (q : Node × List Token) f => expr_loop _ f (.Sub (K m) q.1) q.2) _ _
        (run_mul_eof _ n) rfl
  · subst h
    refine run_bind _ (fun (q : Node × List Token) f => expr_loop _ f (K q.1) q.2)
      (.error n msg_not_number) _ ?_ rfl
    refine run_succ _ _ _ (fun f => mul_loop_star _ f m tk _ h2 hne) ?_
    exact run_bind _ (fun (q : Node × List Token) f => mul_loop _ f (.Mul m q.1) q.2) _ _
      (run_primary_eof _ n) rfl
  · subst h
    refine run_bind _ (fun (q : Node × List Token) f => expr_loop _ f (K q.1) q.2)
      (.error n msg_not_number) _ ?_ rfl
    refine run_succ _ _ _ (fun f => mul_loop_slash _ f m tk _ h2 hne) ?_
    exact run_bind _ (fun (q : Node × List Token) f => mul_loop _ f (.Div m q.1) q.2) _ _
      (run_primary_eof _ n) rfl

/-- C6, witness: `1 +` is rejected by `expect_number` at offset 3. -/
theorem C6_trailing_operator_witness :
    "1 ".toList ++ ['+'] = "1 +".toList ∧ ("1 ".toList ++ ['+']).length = 3 ∧
    ∃ toks', tokenize ("1 ".toList ++ ['+']) = .ok toks' ∧
      toks'.getLast? = some (new_token .TK_EOF ("1 ".toList ++ ['+']).length) ∧
      parse ("1 ".toList ++ ['+']) toks'
        = .error ("1 ".toList ++ ['+']).length msg_not_number :=
  ⟨by decide, by decide,
   C6_trailing_operator "1 ".toList [⟨.TK_NUM, 1, 0⟩, ⟨.TK_EOF, 0, 2⟩] (.Num 1)
     [⟨.TK_EOF, 0, 2⟩] '+' (by decide) (by decide) (by decide) (Or.inl rfl)⟩

/-- C7. An unclosed parenthesis is rejected: when the parse of `e` succeeds with
the cursor on `TK_EOF`, the parse of `"(" ++ e` stops in `expect(')')` with the
offset of `TK_EOF`, the length of the new input. -/
theorem C7_unclosed_paren (e : List Char) (toks : List Token) (t : Node)
    (r : List Token) (htok : tokenize e = .ok toks)
    (hparse : parse e toks = .ok (t, r)) (hr : at_eof r = .ok true) :
    ∃ toks', tokenize ('(' :: e) = .ok toks' ∧
      toks'.getLast? = some (new_token .TK_EOF ('(' :: e).length) ∧
      parse ('(' :: e) toks' = .error ('(' :: e).length (msg_expect ')') := by
  obtain ⟨v, hv, hd⟩ := lexv_of_parse e toks t r htok hparse hr
  have hl : lexv ('(' :: e) = some (.op '(' :: v) :=
    lexv_append ['('] e _ _ (seam_of_not_ends _ _ rfl) (lexv_reserved '(' (by decide)) hv
  obtain ⟨body, ht, hm⟩ := lexv_tokens _ _ hl
  obtain ⟨lp, bv, rfl, h1, h2⟩ := List.map_eq_cons_iff.1 hm
  refine ⟨_, ht, List.getLast?_concat _, ?_⟩
  rw [← run_parse]
  generalize hn : ('(' :: e).length = n at *
  have hin : Run (fun f => expr ('(' :: e) f (bv ++ [new_token .TK_EOF n]))
      (.ok (t, [new_token .TK_EOF n])) := by
    rw [run_parse]
    exact parse_of_derives _ bv _ [] t (by rw [h2]; exact hd) (by rw [eof_view]; simp)
      (by rw [eof_view]; simp) (by rw [eof_view]; simp) (by rw [eof_view]; simp)
  refine run_succ _ _ _ (fun f => expr_succ _ f _) ?_
  refine run_bind _ (fun (q : Node × List Token) f => expr_loop _ f q.1 q.2)
    (.error n (msg_expect ')')) _ ?_ rfl
  refine run_succ _ _ _ (fun f => mul_succ _ f _) ?_
  refine run_bind _ (fun (q : Node × List Token) f => mul_loop _ f q.1 q.2)
    (.error n (msg_expect ')')) _ ?_ rfl
  refine run_succ _ _ _ (fun f => primary_paren _ f lp _ h1 (by simp)) ?_
  refine run_bind _ (fun (q : Node × List Token) f =>
    (expect ('(' :: e) ')' q.2).bind (fun u => .ok (q.1, u.2))) _ _ hin ?_
  have hx := expect_miss ('(' :: e) ')' (new_token .TK_EOF n) [] (by rw [eof_view]; simp)
  exact ⟨by simp, 0, fun f _ => by
    show (expect ('(' :: e) ')' [new_token .TK_EOF n]).bind _ = _
    rw [hx]
    rfl⟩

/-- C7, witness: `(1 + 2` is rejected by `expect(')')` at offset 6. -/
theorem C7_unclosed_paren_witness :
    '(' :: "1 + 2".toList = "(1 + 2".toList ∧ ('(' :: "1 + 2".toList).length = 6 ∧
    ∃ toks', tokenize ('(' :: "1 + 2".toList) = .ok toks' ∧
      toks'.getLast? = some (new_token .TK_EOF ('(' :: "1 + 2".toList).length) ∧
      parse ('(' :: "1 + 2".toList) toks'
        = .error ('(' :: "1 + 2".toList).length (msg_expect ')') :=
  ⟨by decide, by decide,
   C7_unclosed_paren "1 + 2".toList
     [⟨.TK_NUM, 1, 0⟩, ⟨.TK_RESERVED, 0, 2⟩, ⟨.TK_NUM, 2, 4⟩, ⟨.TK_EOF, 0, 5⟩]
     (.Add (.Num 1) (.Num 2)) [⟨.TK_EOF, 0, 5⟩] (by decide) (by decide) (by decide)⟩

/-! ## C5: lexical errors -/

/-- C5. `tokenize` fails exactly when the input has a character that is neither
white space, nor a digit, nor one of `+ - * / ( )`; the offset reported is that
of the first such character; otherwise it returns a token sequence. -/
theorem C5_tokenize_error (p : List Char) :
    ((∃ loc msg, tokenize p = .error loc msg) ↔ ∃ c ∈ p, is_other c = true) ∧
    ((∃ toks, tokenize p = .ok toks) ↔ ∀ c ∈ p, is_other c = false) ∧
    (∀ loc msg, tokenize p = .error loc msg →
      msg = msg_tokenize ∧ ∃ pre c post, p = pre ++ c :: post ∧ pre.length = loc ∧
        is_other c = true ∧ ∀ x ∈ pre, is_other x = false) := by
  rcases tokenize_at_first_other 0 p with ⟨hall, ts, e⟩ | ⟨pre, c, post, hp, hpre, hc, e⟩
  · rw [← tokenize_eq_at] at e
    refine ⟨⟨?_, ?_⟩, ⟨fun _ => hall, fun _ => ⟨ts, e⟩⟩, ?_⟩
    · rintro ⟨loc, msg, h⟩
      rw [e] at h
      cases h
    · rintro ⟨c, hc, ho⟩
      rw [hall c hc] at ho
      cases ho
    · intro loc msg h
      rw [e] at h
      cases h
  · rw [← tokenize_eq_at, Nat.zero_add] at e
    have hmem : c ∈ p := by rw [hp]; simp
    refine ⟨⟨fun _ => ⟨c, hmem, hc⟩, fun _ => ⟨_, _, e⟩⟩, ⟨?_, ?_⟩, ?_⟩
    · rintro ⟨ts, h⟩
      rw [e] at h
      cases h
    · intro hall
      rw [hall c hmem] at hc
      cases hc
    · intro loc msg h
      rw [e] at h
      simp only [Outcome.error.injEq] at h
      obtain ⟨rfl, rfl⟩ := h
      exact ⟨rfl, pre, c, post, hp, rfl, hc, hpre⟩

/-- C5, witness: `1 & 2` fails in `tokenize` at offset 2, the offset of `&`. -/
theorem C5_tokenize_error_witness :
    tokenize "1 & 2".toList = .error 2 msg_tokenize ∧
    ∃ pre c post, "1 & 2".toList = pre ++ c :: post ∧ pre.length = 2 ∧
      is_other c = true ∧ ∀ x ∈ pre, is_other x = false :=
  ⟨by decide,
   ((C5_tokenize_error "1 & 2".toList).2.2 2 msg_tokenize (by decide)).2⟩

/-! ## C9: shape of the token sequence -/

/-- C9. A token sequence returned by `tokenize` is a run of `TK_RESERVED` and
`TK_NUM` tokens followed by one `TK_EOF` token whose offset is the length of
the input; the `str` of a reserved token points into the input, at one of the
characters `+ - * / ( )`. -/
theorem C9_token_shape (p : List Char) (toks : List Token) (h : tokenize p = .ok toks) :
    toks ≠ [] ∧
    ∃ body, toks = body ++ [⟨.TK_EOF, 0, p.length⟩] ∧
      ∀ t ∈ body, t.kind ≠ .TK_EOF ∧ (t.kind = .TK_RESERVED ∨ t.kind = .TK_NUM) ∧
        (t.kind = .TK_RESERVED → t.str < p.length ∧ is_reserved (deref p t.str) = true) := by
  obtain ⟨body, e, hb⟩ := tokenize_at_shape 0 p [] rfl toks h
  simp only [Nat.zero_add, List.nil_append] at e hb
  refine ⟨tokenize_at_ne_nil 0 p toks h, body, e, ?_⟩
  intro t ht
  obtain ⟨_, hlt, hk⟩ := hb t ht
  rcases hk with ⟨hk, _, hr⟩ | ⟨hk, _⟩
  · exact ⟨by rw [hk]; decide, Or.inl hk, fun _ => ⟨hlt, hr⟩⟩
  · exact ⟨by rw [hk]; decide, Or.inr hk, fun h' => by rw [hk] at h'; cases h'⟩

/-- C9, witness: the tokens of `1+2`. -/
theorem C9_token_shape_witness :
    tokenize "1+2".toList
      = .ok [⟨.TK_NUM, 1, 0⟩, ⟨.TK_RESERVED, 0, 1⟩, ⟨.TK_NUM, 2, 2⟩, ⟨.TK_EOF, 0, 3⟩] ∧
    ([⟨.TK_NUM, 1, 0⟩, ⟨.TK_RESERVED, 0, 1⟩, ⟨.TK_NUM, 2, 2⟩, ⟨.TK_EOF, 0, 3⟩] : List Token) ≠ [] ∧
    ∃ body, ([⟨.TK_NUM, 1, 0⟩, ⟨.TK_RESERVED, 0, 1⟩, ⟨.TK_NUM, 2, 2⟩, ⟨.TK_EOF, 0, 3⟩] : List Token)
        = body ++ [⟨.TK_EOF, 0, "1+2".toList.length⟩] ∧
      ∀ t ∈ body, t.kind ≠ .TK_EOF ∧ (t.kind = .TK_RESERVED ∨ t.kind = .TK_NUM) ∧
        (t.kind = .TK_RESERVED →
          t.str < "1+2".toList.length ∧ is_reserved (deref "1+2".toList t.str) = true) :=
  ⟨by decide,
   C9_token_shape "1+2".toList
     [⟨.TK_NUM, 1, 0⟩, ⟨.TK_RESERVED, 0, 1⟩, ⟨.TK_NUM, 2, 2⟩, ⟨.TK_EOF, 0, 3⟩] (by decide)⟩

/-! ## C10: number tokens -/

/-- The tokens of `pre ++ run ++ post` for a maximal run of digits `run`. -/
theorem tokenize_run (pre run post : List Char) (toks : List Token)
    (hne : run ≠ []) (hd : ∀ c ∈ run, isdigit c = true)
    (hpre : ends_digit pre = false) (hpost : starts_digit post = false)
    (h : tokenize (pre ++ run ++ post) = .ok toks) :
    ∃ ta tp, tokenize pre = .ok ta ∧
      tokenize_at (pre.length + run.length) post = .ok tp ∧
      toks = ta.dropLast ++ ⟨.TK_NUM, num_val run, pre.length⟩ :: tp := by
  cases run with
  | nil => exact absurd rfl hne
  | cons c rs =>
    have hc := hd c (by simp)
    obtain ⟨e1, e2⟩ := takeWhile_all isdigit rs (fun x hx => hd x (by simp [hx]))
    obtain ⟨e3, e4⟩ := digit_run_append c rs post hc (seam_of_not_starts _ _ hpost)
    have happ := tokenize_at_append 0 pre ((c :: rs) ++ post) (seam_of_not_ends _ _ hpre)
    rw [← List.append_assoc, ← tokenize_eq_at, h, ← tokenize_eq_at, Nat.zero_add,
      List.cons_append, tokenize_at_digit _ c _ hc, e3, e4, e1, e2, List.nil_append] at happ
    cases hta : tokenize pre with
    | ok ta =>
      rw [hta] at happ
      simp only at happ
      cases htp : tokenize_at (pre.length + (1 + rs.length)) post with
      | ok tp =>
        rw [htp] at happ
        simp only [link, Outcome.bind, Outcome.ok.injEq] at happ
        refine ⟨ta, tp, rfl, ?_, happ⟩
        rw [List.length_cons, Nat.add_comm rs.length 1]
        exact htp
      | error loc msg => rw [htp] at happ; simp [link, Outcome.bind] at happ
      | null => rw [htp] at happ; simp [link, Outcome.bind] at happ
      | fuel => rw [htp] at happ; simp [link, Outcome.bind] at happ
    | error loc msg => rw [hta] at happ; cases happ
    | null => rw [hta] at happ; cases happ
    | fuel => rw [hta] at happ; cases happ

/-- C10 as amended. For every maximal run of digits of an input on which
`tokenize` succeeds, of any length, exactly one token is located in the run: a
`TK_NUM` token at the first offset of the run, whose `val` is the value of the
run clamped to `LONG_MAX` and converted to `int`; that is the value of the run
read in base 10 whenever it is at most 2147483647. -/
theorem C10_number_tokens (pre run post : List Char) (toks : List Token)
    (hne : run ≠ []) (hd : ∀ c ∈ run, isdigit c = true)
    (hpre : ends_digit pre = false) (hpost : starts_digit post = false)
    (h : tokenize (pre ++ run ++ post) = .ok toks) :
    toks.filter (in_run pre run) = [⟨.TK_NUM, num_val run, pre.length⟩] ∧
    (digitsVal run ≤ 2147483647 → num_val run = (digitsVal run : Int)) := by
  refine ⟨?_, num_val_small run⟩
  obtain ⟨ta, tp, hta, htp, rfl⟩ := tokenize_run pre run post toks hne hd hpre hpost h
  obtain ⟨ba, ea, hba⟩ := tokenize_at_shape 0 pre [] rfl ta hta
  obtain ⟨bp, ep, hbp⟩ := tokenize_at_shape (pre.length + run.length) post
    (pre ++ run) (by simp) tp htp
  subst ea
  subst ep
  have hlen : 0 < run.length := List.length_pos.2 hne
  have h1 : ba.filter (in_run pre run) = [] := by
    rw [List.filter_eq_nil_iff]
    intro t ht
    have := (hba t ht).2.1
    simp only [in_run, decide_eq_true_eq]
    omega
  have h2 : (bp ++ [new_token .TK_EOF (pre.length + run.length + post.length)]).filter
      (in_run pre run) = [] := by
    rw [List.filter_eq_nil_iff]
    intro t ht
    simp only [in_run, decide_eq_true_eq]
    rcases List.mem_append.1 ht with ht | ht
    · have := (hbp t ht).1
      omega
    · simp only [List.mem_singleton] at ht
      subst ht
      simp only [new_token]
      omega
  have h3 : in_run pre run ⟨.TK_NUM, num_val run, pre.length⟩ = true := by
    simp only [in_run, decide_eq_true_eq]
    omega
  rw [List.dropLast_concat, List.filter_append, h1, List.filter_cons, h3, h2]
  rfl

/-- C10, witness: the run `42` of the input `1+42 ` gives one token of value 42 at offset 2. -/
theorem C10_number_tokens_witness :
    tokenize ("1+".toList ++ "42".toList ++ " ".toList)
      = .ok [⟨.TK_NUM, 1, 0⟩, ⟨.TK_RESERVED, 0, 1⟩, ⟨.TK_NUM, 42, 2⟩, ⟨.TK_EOF, 0, 5⟩] ∧
    num_val "42".toList = 42 ∧
    ([⟨.TK_NUM, 1, 0⟩, ⟨.TK_RESERVED, 0, 1⟩, ⟨.TK_NUM, 42, 2⟩, ⟨.TK_EOF, 0, 5⟩] : List Token).filter
        (in_run "1+".toList "42".toList)
      = [⟨.TK_NUM, num_val "42".toList, "1+".toList.length⟩] ∧
    (digitsVal "42".toList ≤ 2147483647 → num_val "42".toList = (digitsVal "42".toList : Int)) :=
  ⟨by decide, by decide,
   C10_number_tokens "1+".toList "42".toList " ".toList
     [⟨.TK_NUM, 1, 0⟩, ⟨.TK_RESERVED, 0, 1⟩, ⟨.TK_NUM, 42, 2⟩, ⟨.TK_EOF, 0, 5⟩]
     (by decide) (by decide) (by decide) (by decide) (by decide)⟩

/-- C10, counterexample: the claim with `val` equal to the run read in base 10
fails for the run `2147483648`, whose token holds `-2147483648`. -/
theorem C10_number_tokens_counterexample :
    ¬ (∀ (pre run post : List Char) (toks : List Token),
      run ≠ [] → (∀ c ∈ run, isdigit c = true) →
      ends_digit pre = false → starts_digit post = false →
      tokenize (pre ++ run ++ post) = .ok toks →
      toks.filter (in_run pre run) = [⟨.TK_NUM, (digitsVal run : Int), pre.length⟩]) := by
  intro hall
  have h := hall [] "2147483648".toList []
    [⟨.TK_NUM, -2147483648, 0⟩, ⟨.TK_EOF, 0, 10⟩] (by decide) (by decide) (by decide)
    (by decide) (by decide)
  revert h
  decide

/-! ## C8: no output on error -/

theorem gen_ne_nil (t : Node) : gen t ≠ [] := by
  cases t <;> simp [gen]

theorem not_prints_gen_nil : ¬ prints_gen [] := by
  rintro ⟨t, h⟩
  exact gen_ne_nil t (List.sublist_nil.1 h)

/-- C8. No partial output on error: when `tokenize` or `expr` does not succeed
on the input, the program still terminates, its listing on standard output is
empty (not even the header is printed, and nothing printed by `gen` is on it),
and the exit status is 1. -/
theorem C8_no_partial_output (prog input : List Char)
    (hfail : ¬ ∃ toks t r, tokenize input = .ok toks ∧ parse input toks = .ok (t, r)) :
    ∃ p, main [prog, input] = .ok p ∧ p.listing = [] ∧ p.stdout = "" ∧
      ¬ prints_gen p.listing ∧ p.status = 1 := by
  rcases tokenize_at_total 0 input with ⟨ts, e⟩ | ⟨loc, e⟩
  · rw [← tokenize_eq_at] at e
    rcases parse_total input ts e with ⟨t, r, hp⟩ | ⟨loc, msg, hp⟩
    · exact absurd ⟨ts, t, r, e, hp⟩ hfail
    · refine ⟨⟨[], error_at input loc msg, 1⟩, ?_, rfl, rfl, not_prints_gen_nil, rfl⟩
      simp only [main, or_exit, e, hp]
  · rw [← tokenize_eq_at] at e
    refine ⟨⟨[], error_at input loc msg_tokenize, 1⟩, ?_, rfl, rfl, not_prints_gen_nil, rfl⟩
    simp only [main, or_exit, e]

/-- C8, witness: on `1 +` the parser fails and nothing is printed on standard output. -/
theorem C8_no_partial_output_witness :
    main ["ccb".toList, "1 +".toList]
      = .ok ⟨[], error_at "1 +".toList 3 msg_not_number, 1⟩ ∧
    ∃ p, main ["ccb".toList, "1 +".toList] = .ok p ∧ p.listing = [] ∧ p.stdout = "" ∧
      ¬ prints_gen p.listing ∧ p.status = 1 :=
  ⟨by decide,
   C8_no_partial_output "ccb".toList "1 +".toList (by
     rintro ⟨toks, t, r, h1, h2⟩
     have ht : tokenize "1 +".toList
         = .ok [⟨.TK_NUM, 1, 0⟩, ⟨.TK_RESERVED, 0, 2⟩, ⟨.TK_EOF, 0, 3⟩] := by decide
     rw [ht] at h1
     injection h1 with h1
     subst h1
     have hp : parse "1 +".toList [⟨.TK_NUM, 1, 0⟩, ⟨.TK_RESERVED, 0, 2⟩, ⟨.TK_EOF, 0, 3⟩]
         = .error 3 msg_not_number := by decide
     rw [hp] at h2
     cases h2)⟩

/-! ## C1: correctness of the generated code -/

/-- C1. Compiler correctness of `gen`: for every tree `t` whose `val` fields are
`int` values and in which no `Div` node is evaluated with a zero divisor or with
the pair `(-2^63, -1)`, and for every initial machine state, the lines of
`gen t` execute without fault and end with `eval t` pushed on the initial stack,
nothing below it changed. -/
theorem C1_gen_correct (t : Node) (hi : IntLeaves t) (hd : DivSafe t) (m : Machine) :
    ∃ m', exec (gen t) m = some m' ∧ m'.stack = eval t :: m.stack := by
  induction t generalizing m with
  | Num n =>
    simp only [IntLeaves] at hi
    refine ⟨_, rfl, ?_⟩
    simp only [eval]
    rw [wrap64_id n (by omega) (by omega)]
  | Add l r ihl ihr =>
    obtain ⟨m1, e1, s1⟩ := ihl hi.1 hd.1 m
    obtain ⟨m2, e2, s2⟩ := ihr hi.2 hd.2 m1
    obtain ⟨a2, d2, x2, st2⟩ := m2
    simp only at s2
    subst s2
    rw [gen, List.append_assoc, exec_append _ _ _ (gen_no_ret l), e1, Option.bind,
      exec_append _ _ _ (gen_no_ret r), e2]
    simp [exec, step, Option.bind, s1, eval]
  | Sub l r ihl ihr =>
    obtain ⟨m1, e1, s1⟩ := ihl hi.1 hd.1 m
    obtain ⟨m2, e2, s2⟩ := ihr hi.2 hd.2 m1
    obtain ⟨a2, d2, x2, st2⟩ := m2
    simp only at s2
    subst s2
    rw [gen, List.append_assoc, exec_append _ _ _ (gen_no_ret l), e1, Option.bind,
      exec_append _ _ _ (gen_no_ret r), e2]
    simp [exec, step, Option.bind, s1, eval]
  | Mul l r ihl ihr =>
    obtain ⟨m1, e1, s1⟩ := ihl hi.1 hd.1 m
    obtain ⟨m2, e2, s2⟩ := ihr hi.2 hd.2 m1
    obtain ⟨a2, d2, x2, st2⟩ := m2
    simp only at s2
    subst s2
    rw [gen, List.append_assoc, exec_append _ _ _ (gen_no_ret l), e1, Option.bind,
      exec_append _ _ _ (gen_no_ret r), e2]
    simp [exec, step, Option.bind, s1, eval]
  | Div l r ihl ihr =>
    obtain ⟨m1, e1, s1⟩ := ihl hi.1 hd.1 m
    obtain ⟨m2, e2, s2⟩ := ihr hi.2 hd.2.1 m1
    obtain ⟨a2, d2, x2, st2⟩ := m2
    simp only at s2
    subst s2
    have hl := eval_range l hi.1
    have hr := tdiv_range (eval l) (eval r) hl.1 hl.2 hd.2.2.1 hd.2.2.2
    have hs := step_idiv (eval l) (eval r) x2 m.stack hl.1 hl.2 hd.2.2.1 hd.2.2.2
    rw [gen, List.append_assoc, exec_append _ _ _ (gen_no_ret l), e1, Option.bind,
      exec_append _ _ _ (gen_no_ret r), e2]
    simp only [exec, step, Option.bind, s1] at hs ⊢
    rw [hs]
    refine ⟨_, rfl, ?_⟩
    simp only [eval]
    rw [wrap64_id _ hr.1 hr.2]

/-- C1, witness: `(8 - 3) / 2` on a stack holding 7. -/
theorem C1_gen_correct_witness :
    IntLeaves (.Div (.Sub (.Num 8) (.Num 3)) (.Num 2)) ∧
    DivSafe (.Div (.Sub (.Num 8) (.Num 3)) (.Num 2)) ∧
    eval (.Div (.Sub (.Num 8) (.Num 3)) (.Num 2)) = 2 ∧
    ∃ m', exec (gen (.Div (.Sub (.Num 8) (.Num 3)) (.Num 2))) ⟨0, 0, 0, [7]⟩ = some m' ∧
      m'.stack = eval (.Div (.Sub (.Num 8) (.Num 3)) (.Num 2)) :: [7] :=
  ⟨by simp [IntLeaves], by simp [DivSafe, IntLeaves]; decide, by decide,
   C1_gen_correct (.Div (.Sub (.Num 8) (.Num 3)) (.Num 2))
     (by simp [IntLeaves]) (by simp [DivSafe]; decide) ⟨0, 0, 0, [7]⟩⟩

/-! ## C18: shape of the generated code -/

/-- C18. Shape of the emitted code: the literal pushes of `gen t`, read top to
bottom, are the leaf values of `t` from left to right, one per leaf; an operator
node prints the code of its children and then one group `pop rdi`, `pop rax`,
operator instruction(s), `push rax`; so `gen t` has
`leaves + 4 * (Add, Sub, Mul nodes) + 5 * (Div nodes)` lines, and one `push`
more than `pop`s. -/
theorem C18_gen_shape (t : Node) :
    (gen t).filterMap imm_of = leaves t ∧
    (∀ l r, gen (.Add l r) = gen l ++ gen r ++ [.pop_rdi, .pop_rax, .add_rax_rdi, .push_rax]) ∧
    (∀ l r, gen (.Sub l r) = gen l ++ gen r ++ [.pop_rdi, .pop_rax, .sub_rax_rdi, .push_rax]) ∧
    (∀ l r, gen (.Mul l r) = gen l ++ gen r ++ [.pop_rdi, .pop_rax, .imul_rax_rdi, .push_rax]) ∧
    (∀ l r, gen (.Div l r)
      = gen l ++ gen r ++ [.pop_rdi, .pop_rax, .cqo, .idiv_rdi, .push_rax]) ∧
    (gen t).length = (leaves t).length + 4 * count_arith t + 5 * count_div t ∧
    ((gen t).filter is_push).length = ((gen t).filter is_pop).length + 1 := by
  refine ⟨?_, fun _ _ => rfl, fun _ _ => rfl, fun _ _ => rfl, fun _ _ => rfl, ?_, ?_⟩
  · induction t with
    | Num n => rfl
    | Add l r ihl ihr => simp [gen, leaves, List.filterMap_append, ihl, ihr, imm_of]
    | Sub l r ihl ihr => simp [gen, leaves, List.filterMap_append, ihl, ihr, imm_of]
    | Mul l r ihl ihr => simp [gen, leaves, List.filterMap_append, ihl, ihr, imm_of]
    | Div l r ihl ihr => simp [gen, leaves, List.filterMap_append, ihl, ihr, imm_of]
  · induction t with
    | Num n => rfl
    | Add l r ihl ihr =>
      simp only [gen, leaves, count_arith, count_div, List.length_append, List.length_cons,
        List.length_nil, ihl, ihr]
      omega
    | Sub l r ihl ihr =>
      simp only [gen, leaves, count_arith, count_div, List.length_append, List.length_cons,
        List.length_nil, ihl, ihr]
      omega
    | Mul l r ihl ihr =>
      simp only [gen, leaves, count_arith, count_div, List.length_append, List.length_cons,
        List.length_nil, ihl, ihr]
      omega
    | Div l r ihl ihr =>
      simp only [gen, leaves, count_arith, count_div, List.length_append, List.length_cons,
        List.length_nil, ihl, ihr]
      omega
  · induction t with
    | Num n => rfl
    | Add l r ihl ihr =>
      simp only [gen, List.filter_append, List.length_append, ihl, ihr]
      simp [is_push, is_pop]
      omega
    | Sub l r ihl ihr =>
      simp only [gen, List.filter_append, List.length_append, ihl, ihr]
      simp [is_push, is_pop]
      omega
    | Mul l r ihl ihr =>
      simp only [gen, List.filter_append, List.length_append, ihl, ihr]
      simp [is_push, is_pop]
      omega
    | Div l r ihl ihr =>
      simp only [gen, List.filter_append, List.length_append, ihl, ihr]
      simp [is_push, is_pop]
      omega

/-! ## C14: the caret of a diagnostic -/

theorem pad_spaces_eq (pos : Nat) :
    pad_spaces pos = String.mk (List.replicate (max pos 1) ' ') := by
  unfold pad_spaces
  have h : List.replicate (max pos 1) ' ' = List.replicate (pos - 1) ' ' ++ [' '] := by
    have e : max pos 1 = (pos - 1) + 1 := by omega
    rw [e, List.replicate_succ']
  rw [h]
  rfl

/-- C14, on the code: the marker line of `error_at` holds `max pos 1` spaces
before the caret, so for `pos = 0` the caret stands in column 1 and not under
the offending character; the input `@`, rejected by `tokenize` at offset 0,
shows it. -/
theorem C14_caret_column (user_input : List Char) (pos : Nat) (msg : String) :
    error_at user_input pos msg
      = String.mk user_input ++ "\n" ++ String.mk (List.replicate (max pos 1) ' ') ++ "^ "
        ++ msg ++ "\n" ∧
    error_at "@".toList 0 msg_tokenize = "@\n ^ トークナイズできません\n" ∧
    main ["ccb".toList, "@".toList] = .ok ⟨[], "@\n ^ トークナイズできません\n", 1⟩ := by
  refine ⟨?_, by decide, by decide⟩
  unfold error_at
  rw [pad_spaces_eq]

/-! ## C13 and C12: single literals and division, end to end -/

theorem num_val_range (ds : List Char) :
    -2147483648 ≤ num_val ds ∧ num_val ds ≤ 2147483647 := by
  unfold num_val toInt32
  omega

theorem lexv_spaces (ws : List Char) (h : ∀ c ∈ ws, isspace c = true) : lexv ws = some [] := by
  induction ws with
  | nil => rfl
  | cons w ws ih =>
    have := lexv_append [w] ws [] [] (seam_of_not_ends _ _ (by
      have hw := h w (by simp)
      simp only [ends_digit]
      cases hd : isdigit w with
      | false => rfl
      | true => rw [isdigit_not_isspace w hd] at hw; cases hw))
      (lexv_space w (h w (by simp))) (ih (fun c hc => h c (by simp [hc])))
    simpa using this

theorem starts_digit_spaces (ws rest : List Char) (h : ∀ c ∈ ws, isspace c = true)
    (hr : starts_digit rest = false) : starts_digit (ws ++ rest) = false := by
  cases ws with
  | nil => exact hr
  | cons w ws =>
    have hw := h w (by simp)
    simp only [List.cons_append, starts_digit]
    cases hd : isdigit w with
    | false => rfl
    | true => rw [isdigit_not_isspace w hd] at hw; cases hw

theorem ends_digit_spaces (ws : List Char) (h : ∀ c ∈ ws, isspace c = true) :
    ends_digit ws = false := by
  induction ws with
  | nil => rfl
  | cons w ws ih =>
    cases ws with
    | nil =>
      have hw := h w (by simp)
      simp only [ends_digit]
      cases hd : isdigit w with
      | false => rfl
      | true => rw [isdigit_not_isspace w hd] at hw; cases hw
    | cons x xs =>
      simp only [ends_digit]
      exact ih (fun c hc => h c (by simp [hc]))

/-- The run of `main` on an input that parses up to `TK_EOF`. -/
theorem main_of_lexv (prog p : List Char) (v : List Tok) (t : Node)
    (hv : lexv p = some v) (hd : Derives .expr v t) :
    main [prog, p] = .ok ⟨[.intel_directive, .globl_main, .label_main] ++ gen t
      ++ [.pop_rax, .ret], "", 0⟩ := by
  obtain ⟨body, ht, hp⟩ := parse_of_lexv p v t hv hd
  simp only [main, or_exit, ht, hp]

theorem stdout_single (v : Int) :
    Process.stdout ⟨[.intel_directive, .globl_main, .label_main, .push_imm v, .pop_rax, .ret],
      "", 0⟩
      = ".intel_syntax noprefix\n.globl main\nmain:\n    push " ++ toString v
        ++ "\n    pop rax\n    ret\n" := by
  simp only [Process.stdout, List.map, Line.text, String.join, List.foldl]
  simp only [String.append_assoc]
  rfl

/-- C13 as amended. An input made of one literal `n`, of any length, with white
space around it compiles to the header, one `push` of the value `tokenize` gives
to `n`, `pop rax` and `ret`; executing the listing returns that value in `rax`;
it is `n` read in base 10 whenever that is at most 2147483647. -/
theorem C13_single_literal (prog ws1 n ws2 : List Char) (m : Machine)
    (hn : is_literal n = true) (h1 : ∀ c ∈ ws1, isspace c = true)
    (h2 : ∀ c ∈ ws2, isspace c = true) :
    main [prog, ws1 ++ n ++ ws2]
      = .ok ⟨[.intel_directive, .globl_main, .label_main, .push_imm (num_val n), .pop_rax, .ret],
          "", 0⟩ ∧
    Process.stdout ⟨[.intel_directive, .globl_main, .label_main, .push_imm (num_val n),
        .pop_rax, .ret], "", 0⟩
      = ".intel_syntax noprefix\n.globl main\nmain:\n    push " ++ toString (num_val n)
        ++ "\n    pop rax\n    ret\n" ∧
    (∃ m', exec [.intel_directive, .globl_main, .label_main, .push_imm (num_val n), .pop_rax,
        .ret] m = some m' ∧ m'.rax = num_val n) ∧
    (digitsVal n ≤ 2147483647 → num_val n = (digitsVal n : Int)) := by
  refine ⟨?_, stdout_single _, ?_, num_val_small n⟩
  · have hl : lexv (ws1 ++ n ++ ws2) = some ([] ++ [.num (num_val n)] ++ []) := by
      refine lexv_append _ _ _ _ (seam_of_not_starts _ _ ?_) ?_ (lexv_spaces ws2 h2)
      · have := starts_digit_spaces ws2 [] h2 rfl
        rwa [List.append_nil] at this
      · exact lexv_append _ _ _ _ (seam_of_not_ends _ _ (ends_digit_spaces ws1 h1))
          (lexv_spaces ws1 h1) (lexv_literal n hn)
    exact main_of_lexv prog _ _ _ hl (.expr_one (.mul_one (.num _)))
  · have hr := num_val_range n
    refine ⟨_, rfl, ?_⟩
    simp only
    exact wrap64_id _ (by omega) (by omega)

/-- C13, witness: ` 42 ` compiles to a listing that pushes 42 and returns it. -/
theorem C13_single_literal_witness :
    " ".toList ++ "42".toList ++ " ".toList = " 42 ".toList ∧ num_val "42".toList = 42 ∧
    (main ["ccb".toList, " ".toList ++ "42".toList ++ " ".toList]
      = .ok ⟨[.intel_directive, .globl_main, .label_main, .push_imm (num_val "42".toList),
          .pop_rax, .ret], "", 0⟩ ∧
    Process.stdout ⟨[.intel_directive, .globl_main, .label_main, .push_imm (num_val "42".toList),
        .pop_rax, .ret], "", 0⟩
      = ".intel_syntax noprefix\n.globl main\nmain:\n    push " ++ toString (num_val "42".toList)
        ++ "\n    pop rax\n    ret\n" ∧
    (∃ m', exec [.intel_directive, .globl_main, .label_main, .push_imm (num_val "42".toList),
        .pop_rax, .ret] ⟨0, 0, 0, []⟩ = some m' ∧ m'.rax = num_val "42".toList) ∧
    (digitsVal "42".toList ≤ 2147483647 → num_val "42".toList = (digitsVal "42".toList : Int))) :=
  ⟨by decide, by decide,
   C13_single_literal "ccb".toList " ".toList "42".toList " ".toList ⟨0, 0, 0, []⟩
     (by decide) (by decide) (by decide)⟩

/-- C13, counterexample: for the literal `2147483648` the listing does not push
the literal read in base 10 but `-2147483648`. -/
theorem C13_single_literal_counterexample :
    ¬ (∀ (prog ws1 n ws2 : List Char), is_literal n = true →
      (∀ c ∈ ws1, isspace c = true) → (∀ c ∈ ws2, isspace c = true) →
      main [prog, ws1 ++ n ++ ws2]
        = .ok ⟨[.intel_directive, .globl_main, .label_main, .push_imm (digitsVal n : Int),
            .pop_rax, .ret], "", 0⟩) := by
  intro hall
  have h := hall "ccb".toList [] "2147483648".toList [] (by decide) (by decide) (by decide)
  revert h
  decide

theorem exec_div_listing (va vb : Int) (m : Machine)
    (ha1 : 0 ≤ va) (ha2 : va ≤ 2147483647) (hb1 : 0 < vb) (hb2 : vb ≤ 2147483647) :
    ∃ m', exec ([.intel_directive, .globl_main, .label_main] ++ gen (.Div (.Num va) (.Num vb))
        ++ [.pop_rax, .ret]) m = some m' ∧ m'.rax = Int.tdiv va vb := by
  have hs := step_idiv va vb m.rdx m.stack (by omega) (by omega) (by omega) (by omega)
  have hr := tdiv_range va vb (by omega) (by omega) (by omega) (by omega)
  simp only [gen, List.cons_append, List.nil_append, exec, step, Option.bind,
    wrap64_id va (by omega) (by omega), wrap64_id vb (by omega) (by omega)] at hs ⊢
  rw [hs]
  exact ⟨_, rfl, rfl⟩

/-- C12. Division truncates toward zero end to end: for literals `a` and `b`
within `int` range, `b` not zero, the listing emitted for `a ++ " / " ++ b`
(header, code of `gen`, `pop rax`, `ret`) executes without fault and returns in
`rax` the quotient of `a` by `b` truncated toward zero. -/
theorem C12_division_end_to_end (prog a b : List Char) (m : Machine)
    (ha : is_literal a = true) (hb : is_literal b = true)
    (hai : digitsVal a ≤ 2147483647) (hbi : digitsVal b ≤ 2147483647)
    (hb0 : digitsVal b ≠ 0) :
    ∃ p m', main [prog, a ++ " / ".toList ++ b] = .ok p ∧ p.status = 0 ∧
      exec p.listing m = some m' ∧
      m'.rax = Int.tdiv (digitsVal a) (digitsVal b) ∧
      m'.rax = ((digitsVal a / digitsVal b : Nat) : Int) := by
  have hin : a ++ " / ".toList ++ b = chain_input a [('/', b)] := by
    simp [chain_input]
  have hl := lexv_chain a [('/', b)] ha (by
    intro q hq
    simp only [List.mem_singleton] at hq
    subst hq
    exact ⟨hb, rfl⟩)
  have hd : Derives .expr (chain_views a [('/', b)]) (.Div (.Num (num_val a)) (.Num (num_val b))) := by
    have := Derives.expr_one (Derives.mul_div (Derives.mul_one (Derives.num (num_val a)))
      (Derives.num (num_val b)))
    simpa [chain_views] using this
  have hm := main_of_lexv prog _ _ _ hl hd
  rw [← hin] at hm
  rw [num_val_small a hai, num_val_small b hbi] at hm
  obtain ⟨m', he, hrax⟩ := exec_div_listing (digitsVal a) (digitsVal b) m
    (Int.ofNat_nonneg _) (by omega) (by omega) (by omega)
  refine ⟨_, m', hm, rfl, he, hrax, ?_⟩
  rw [hrax, Int.tdiv_eq_ediv (Int.ofNat_nonneg _) (Int.ofNat_nonneg _)]
  rfl

/-- C12, witness: `7 / 2` returns 3. -/
theorem C12_division_end_to_end_witness :
    "7".toList ++ " / ".toList ++ "2".toList = "7 / 2".toList ∧
    Int.tdiv (digitsVal "7".toList) (digitsVal "2".toList) = 3 ∧
    ∃ p m', main ["ccb".toList, "7".toList ++ " / ".toList ++ "2".toList] = .ok p ∧
      p.status = 0 ∧ exec p.listing ⟨0, 0, 0, []⟩ = some m' ∧
      m'.rax = Int.tdiv (digitsVal "7".toList) (digitsVal "2".toList) ∧
      m'.rax = ((digitsVal "7".toList / digitsVal "2".toList : Nat) : Int) :=
  ⟨by decide, by decide,
   C12_division_end_to_end "ccb".toList "7".toList "2".toList ⟨0, 0, 0, []⟩
     (by decide) (by decide) (by decide) (by decide) (by decide)⟩

/-! ## C15: tokens after the expression -/

/-- C15. Trailing tokens are ignored: when the parse of `e` succeeds with tree
`t` and the cursor on `TK_EOF`, the tokens of `e` (read through any input that
shows the same kinds, characters and values) followed by a token sequence whose
first token is a number, `(` or `)` parse to the same `t` and leave the cursor on
that first token; an input with such tokens, and in particular `e ++ s` for a
suffix `s` that starts with such a token, compiles to the run of `e`. -/
theorem C15_trailing_tokens (e : List Char) (toks : List Token) (t : Node)
    (r : List Token) (ui : List Char) (body : List Token) (x : Token) (g : List Token)
    (htok : tokenize e = .ok toks) (hparse : parse e toks = .ok (t, r))
    (hr : at_eof r = .ok true)
    (hsame : body.map (view ui) = toks.dropLast.map (view e))
    (hx : (∃ v, view ui x = .num v) ∨ view ui x = .op '(' ∨ view ui x = .op ')') :
    parse ui (body ++ x :: g) = .ok (t, x :: g) ∧
    (∀ prog, tokenize ui = .ok (body ++ x :: g) → main [prog, ui] = main [prog, e]) ∧
    (∀ prog s vx vs, ¬ (ends_digit e = true ∧ starts_digit s = true) →
      lexv s = some (vx :: vs) →
      ((∃ v, vx = .num v) ∨ vx = .op '(' ∨ vx = .op ')') →
      main [prog, e ++ s] = main [prog, e]) := by
  obtain ⟨v, hv, hd⟩ := lexv_of_parse e toks t r htok hparse hr
  have hve : toks.dropLast.map (view e) = v := by
    have : lexv e = some (toks.dropLast.map (view e)) := by unfold lexv; rw [htok]
    rw [hv] at this
    exact (Option.some.inj this).symm
  have hmain : ∀ prog, main [prog, e] = .ok ⟨[.intel_directive, .globl_main, .label_main]
      ++ gen t ++ [.pop_rax, .ret], "", 0⟩ := fun prog => main_of_lexv prog e v t hv hd
  have key : ∀ (ui : List Char) (body : List Token) (x : Token) (g : List Token),
      body.map (view ui) = v →
      ((∃ w, view ui x = .num w) ∨ view ui x = .op '(' ∨ view ui x = .op ')') →
      parse ui (body ++ x :: g) = .ok (t, x :: g) := by
    intro ui body x g hb hx
    refine parse_of_derives ui body x g t (by rw [hb]; exact hd) ?_ ?_ ?_ ?_ <;>
      (rcases hx with ⟨w, h⟩ | h | h <;> rw [h] <;> simp)
  refine ⟨key ui body x g (hsame.trans hve) hx, ?_, ?_⟩
  · intro prog ht
    rw [hmain]
    simp only [main, or_exit, ht, key ui body x g (hsame.trans hve) hx]
  · intro prog s vx vs hseam hs hvx
    have hl := lexv_append e s _ _ hseam hv hs
    obtain ⟨body', ht', hm'⟩ := lexv_tokens _ _ hl
    obtain ⟨ba, tk, tb, rfl, h1, h2, h3⟩ := map_view_split _ body' v vs vx hm'
    rw [hmain]
    rw [List.append_assoc, List.cons_append] at ht'
    simp only [main, or_exit, ht', key (e ++ s) ba tk _ h1 (by rw [h2]; exact hvx)]

/-- C15, witness: `1+2)` compiles exactly like `1+2`, and `1 2` exactly like `1`. -/
theorem C15_trailing_tokens_witness :
    main ["ccb".toList, "1+2)".toList] = main ["ccb".toList, "1+2".toList] ∧
    main ["ccb".toList, "1 2".toList] = main ["ccb".toList, "1".toList] ∧
    (parse "1+2)".toList ([⟨.TK_NUM, 1, 0⟩, ⟨.TK_RESERVED, 0, 1⟩, ⟨.TK_NUM, 2, 2⟩]
        ++ ⟨.TK_RESERVED, 0, 3⟩ :: [⟨.TK_EOF, 0, 4⟩])
      = .ok (.Add (.Num 1) (.Num 2), ⟨.TK_RESERVED, 0, 3⟩ :: [⟨.TK_EOF, 0, 4⟩]) ∧
    (∀ prog, tokenize "1+2)".toList
        = .ok ([⟨.TK_NUM, 1, 0⟩, ⟨.TK_RESERVED, 0, 1⟩, ⟨.TK_NUM, 2, 2⟩]
          ++ ⟨.TK_RESERVED, 0, 3⟩ :: [⟨.TK_EOF, 0, 4⟩]) →
      main [prog, "1+2)".toList] = main [prog, "1+2".toList]) ∧
    (∀ prog s vx vs, ¬ (ends_digit "1+2".toList = true ∧ starts_digit s = true) →
      lexv s = some (vx :: vs) →
      ((∃ v, vx = .num v) ∨ vx = .op '(' ∨ vx = .op ')') →
      main [prog, "1+2".toList ++ s] = main [prog, "1+2".toList])) :=
  ⟨by decide, by decide,
   C15_trailing_tokens "1+2".toList
     [⟨.TK_NUM, 1, 0⟩, ⟨.TK_RESERVED, 0, 1⟩, ⟨.TK_NUM, 2, 2⟩, ⟨.TK_EOF, 0, 3⟩]
     (.Add (.Num 1) (.Num 2)) [⟨.TK_EOF, 0, 3⟩] "1+2)".toList
     [⟨.TK_NUM, 1, 0⟩, ⟨.TK_RESERVED, 0, 1⟩, ⟨.TK_NUM, 2, 2⟩] ⟨.TK_RESERVED, 0, 3⟩
     [⟨.TK_EOF, 0, 4⟩] (by decide) (by decide) (by decide) (by decide)
     (Or.inr (Or.inr (by decide)))⟩

/-! ## Parser: where an error is reported, and which cursors are reached -/

theorem bind_eq_error {α β : Type} (x : Outcome α) (k : α → Outcome β) (loc : Nat)
    (msg : String) (h : x.bind k = .error loc msg) :
    x = .error loc msg ∨ ∃ a, x = .ok a ∧ k a = .error loc msg := by
  cases x with
  | ok a => exact Or.inr ⟨a, rfl, h⟩
  | error l m =>
    simp only [Outcome.bind, Outcome.error.injEq] at h
    exact Or.inl (by rw [h.1, h.2])
  | null => cases h
  | fuel => cases h

theorem consume_ne_error (ui : List Char) (op : Char) (c : List Token) (loc : Nat)
    (msg : String) : consume ui op c ≠ .error loc msg := by
  cases c with
  | nil => simp [consume]
  | cons t next => simp only [consume]; split <;> simp

theorem expect_error_at (ui : List Char) (op : Char) (c : List Token) (loc : Nat)
    (msg : String) (h : expect ui op c = .error loc msg) :
    ∃ x rest, c = x :: rest ∧ loc = x.str := by
  cases c with
  | nil => simp [expect] at h
  | cons t next =>
    simp only [expect] at h
    split at h
    · simp only [Outcome.error.injEq] at h
      exact ⟨t, next, rfl, h.1.symm⟩
    · cases h

theorem expect_number_error_at (c : List Token) (loc : Nat) (msg : String)
    (h : expect_number c = .error loc msg) :
    ∃ x rest, c = x :: rest ∧ loc = x.str := by
  cases c with
  | nil => simp [expect_number] at h
  | cons t next =>
    simp only [expect_number] at h
    split at h
    · simp only [Outcome.error.injEq] at h
      exact ⟨t, next, rfl, h.1.symm⟩
    · cases h

theorem error_at_shift (a c : List Token) (loc : Nat)
    (h : ∃ b x rest, c = b ++ x :: rest ∧ loc = x.str) :
    ∃ b x rest, a ++ c = b ++ x :: rest ∧ loc = x.str := by
  obtain ⟨b, x, rest, rfl, hl⟩ := h
  exact ⟨a ++ b, x, rest, by simp, hl⟩

/-- A parse error is reported at the token under the cursor, a token of the list. -/
theorem parser_error_at (ui : List Char) (f : Nat) :
    (∀ c loc msg, ends_eof c → expr ui f c = .error loc msg →
      ∃ a x rest, c = a ++ x :: rest ∧ loc = x.str) ∧
    (∀ n c loc msg, ends_eof c → expr_loop ui f n c = .error loc msg →
      ∃ a x rest, c = a ++ x :: rest ∧ loc = x.str) ∧
    (∀ c loc msg, ends_eof c → mul ui f c = .error loc msg →
      ∃ a x rest, c = a ++ x :: rest ∧ loc = x.str) ∧
    (∀ n c loc msg, ends_eof c → mul_loop ui f n c = .error loc msg →
      ∃ a x rest, c = a ++ x :: rest ∧ loc = x.str) ∧
    (∀ c loc msg, ends_eof c → primary ui f c = .error loc msg →
      ∃ a x rest, c = a ++ x :: rest ∧ loc = x.str) := by
  induction f with
  | zero =>
    refine ⟨?_, ?_, ?_, ?_, ?_⟩ <;> intros <;> simp_all [expr, expr_loop, mul, mul_loop, primary]
  | succ f ih =>
    obtain ⟨ihe, ihel, ihm, ihml, ihp⟩ := ih
    have snd := parser_sound ui f
    refine ⟨?_, ?_, ?_, ?_, ?_⟩
    · intro c loc msg hc h
      rw [expr_succ] at h
      rcases bind_eq_error _ _ _ _ h with h1 | ⟨⟨m, c1⟩, h1, h2⟩
      · exact ihm _ _ _ hc h1
      · obtain ⟨a1, rfl, he1, _⟩ := snd.2.2.1 _ _ _ hc h1
        exact error_at_shift a1 c1 loc (ihel _ _ _ _ he1 h2)
    · intro n c loc msg hc h
      rw [expr_loop] at h
      rcases bind_eq_error _ _ _ _ h with h1 | ⟨⟨b, c1⟩, h1, h2⟩
      · exact absurd h1 (consume_ne_error _ _ _ _ _)
      · rcases consume_spec _ _ _ _ _ hc h1 with ⟨rfl, tk, rfl, hv, hc1⟩ | ⟨rfl, rfl⟩
        · simp only [if_true] at h2
          refine error_at_shift [tk] c1 loc ?_
          rcases bind_eq_error _ _ _ _ h2 with h3 | ⟨⟨m, c2⟩, h3, h4⟩
          · exact ihm _ _ _ hc1 h3
          · obtain ⟨a1, e1, he1, _⟩ := snd.2.2.1 _ _ _ hc1 h3
            subst e1
            exact error_at_shift a1 c2 loc (ihel _ _ _ _ he1 h4)
        · simp only [Bool.false_eq_true, if_false] at h2
          rcases bind_eq_error _ _ _ _ h2 with h3 | ⟨⟨b', c2⟩, h3, h4⟩
          · exact absurd h3 (consume_ne_error _ _ _ _ _)
          · rcases consume_spec _ _ _ _ _ hc h3 with ⟨rfl, tk, rfl, hv, hc1⟩ | ⟨rfl, rfl⟩
            · simp only [if_true] at h4
              refine error_at_shift [tk] c2 loc ?_
              rcases bind_eq_error _ _ _ _ h4 with h5 | ⟨⟨m, c3⟩, h5, h6⟩
              · exact ihm _ _ _ hc1 h5
              · obtain ⟨a1, e1, he1, _⟩ := snd.2.2.1 _ _ _ hc1 h5
                subst e1
                exact error_at_shift a1 c3 loc (ihel _ _ _ _ he1 h6)
            · simp at h4
    · intro c loc msg hc h
      rw [mul_succ] at h
      rcases bind_eq_error _ _ _ _ h with h1 | ⟨⟨m, c1⟩, h1, h2⟩
      · exact ihp _ _ _ hc h1
      · obtain ⟨a1, rfl, he1, _⟩ := snd.2.2.2.2 _ _ _ hc h1
        exact error_at_shift a1 c1 loc (ihml _ _ _ _ he1 h2)
    · intro n c loc msg hc h
      rw [mul_loop] at h
      rcases bind_eq_error _ _ _ _ h with h1 | ⟨⟨b, c1⟩, h1, h2⟩
      · exact absurd h1 (consume_ne_error _ _ _ _ _)
      · rcases consume_spec _ _ _ _ _ hc h1 with ⟨rfl, tk, rfl, hv, hc1⟩ | ⟨rfl, rfl⟩
        · simp only [if_true] at h2
          refine error_at_shift [tk] c1 loc ?_
          rcases bind_eq_error _ _ _ _ h2 with h3 | ⟨⟨m, c2⟩, h3, h4⟩
          · exact ihp _ _ _ hc1 h3
          · obtain ⟨a1, e1, he1, _⟩ := snd.2.2.2.2 _ _ _ hc1 h3
            subst e1
            exact error_at_shift a1 c2 loc (ihml _ _ _ _ he1 h4)
        · simp only [Bool.false_eq_true, if_false] at h2
          rcases bind_eq_error _ _ _ _ h2 with h3 | ⟨⟨b', c2⟩, h3, h4⟩
          · exact absurd h3 (consume_ne_error _ _ _ _ _)
          · rcases consume_spec _ _ _ _ _ hc h3 with ⟨rfl, tk, rfl, hv, hc1⟩ | ⟨rfl, rfl⟩
            · simp only [if_true] at h4
              refine error_at_shift [tk] c2 loc ?_
              rcases bind_eq_error _ _ _ _ h4 with h5 | ⟨⟨m, c3⟩, h5, h6⟩
              · exact ihp _ _ _ hc1 h5
              · obtain ⟨a1, e1, he1, _⟩ := snd.2.2.2.2 _ _ _ hc1 h5
                subst e1
                exact error_at_shift a1 c3 loc (ihml _ _ _ _ he1 h6)
            · simp at h4
    · intro c loc msg hc h
      rw [primary] at h
      rcases bind_eq_error _ _ _ _ h with h1 | ⟨⟨b, c1⟩, h1, h2⟩
      · exact absurd h1 (consume_ne_error _ _ _ _ _)
      · rcases consume_spec _ _ _ _ _ hc h1 with ⟨rfl, tk, rfl, hv, hc1⟩ | ⟨rfl, rfl⟩
        · simp only [if_true] at h2
          refine error_at_shift [tk] c1 loc ?_
          rcases bind_eq_error _ _ _ _ h2 with h3 | ⟨⟨m, c2⟩, h3, h4⟩
          · exact ihe _ _ _ hc1 h3
          · obtain ⟨a1, e1, he1, _⟩ := snd.1 _ _ _ hc1 h3
            subst e1
            refine error_at_shift a1 c2 loc ?_
            rcases bind_eq_error _ _ _ _ h4 with h5 | ⟨_, _, h6⟩
            · obtain ⟨x, rest, e, hl⟩ := expect_error_at _ _ _ _ _ h5
              exact ⟨[], x, rest, e, hl⟩
            · cases h6
        · simp only [Bool.false_eq_true, if_false] at h2
          rcases bind_eq_error _ _ _ _ h2 with h3 | ⟨_, _, h4⟩
          · obtain ⟨x, rest, e, hl⟩ := expect_number_error_at _ _ _ h3
            exact ⟨[], x, rest, e, hl⟩
          · cases h4

/-- The cursor a call of `expr`, `mul` or `primary` returns with is reached
through `consume`, `expect` and `expect_number`. -/
theorem parser_reach (ui : List Char) (toks : List Token) (f : Nat) :
    (∀ c t r, Reach ui toks c → expr ui f c = .ok (t, r) → Reach ui toks r) ∧
    (∀ n c t r, Reach ui toks c → expr_loop ui f n c = .ok (t, r) → Reach ui toks r) ∧
    (∀ c t r, Reach ui toks c → mul ui f c = .ok (t, r) → Reach ui toks r) ∧
    (∀ n c t r, Reach ui toks c → mul_loop ui f n c = .ok (t, r) → Reach ui toks r) ∧
    (∀ c t r, Reach ui toks c → primary ui f c = .ok (t, r) → Reach ui toks r) := by
  induction f with
  | zero =>
    refine ⟨?_, ?_, ?_, ?_, ?_⟩ <;> intros <;> simp_all [expr, expr_loop, mul, mul_loop, primary]
  | succ f ih =>
    obtain ⟨ihe, ihel, ihm, ihml, ihp⟩ := ih
    refine ⟨?_, ?_, ?_, ?_, ?_⟩
    · intro c t r hc h
      rw [expr_succ] at h
      obtain ⟨⟨m, c1⟩, h1, h2⟩ := bind_eq_ok _ _ _ h
      exact ihel _ _ _ _ (ihm _ _ _ hc h1) h2
    · intro n c t r hc h
      rw [expr_loop] at h
      obtain ⟨⟨b, c1⟩, h1, h2⟩ := bind_eq_ok _ _ _ h
      have r1 := Reach.consume hc h1
      cases b with
      | true =>
        simp only [if_true] at h2
        obtain ⟨⟨m, c2⟩, h3, h4⟩ := bind_eq_ok _ _ _ h2
        exact ihel _ _ _ _ (ihm _ _ _ r1 h3) h4
      | false =>
        simp only [Bool.false_eq_true, if_false] at h2
        obtain ⟨⟨b', c2⟩, h3, h4⟩ := bind_eq_ok _ _ _ h2
        have r2 := Reach.consume r1 h3
        cases b' with
        | true =>
          simp only [if_true] at h4
          obtain ⟨⟨m, c3⟩, h5, h6⟩ := bind_eq_ok _ _ _ h4
          exact ihel _ _ _ _ (ihm _ _ _ r2 h5) h6
        | false =>
          simp only [Bool.false_eq_true, if_false, Outcome.ok.injEq, Prod.mk.injEq] at h4
          obtain ⟨_, rfl⟩ := h4
          exact r2
    · intro c t r hc h
      rw [mul_succ] at h
      obtain ⟨⟨m, c1⟩, h1, h2⟩ := bind_eq_ok _ _ _ h
      exact ihml _ _ _ _ (ihp _ _ _ hc h1) h2
    · intro n c t r hc h
      rw [mul_loop] at h
      obtain ⟨⟨b, c1⟩, h1, h2⟩ := bind_eq_ok _ _ _ h
      have r1 := Reach.consume hc h1
      cases b with
      | true =>
        simp only [if_true] at h2
        obtain ⟨⟨m, c2⟩, h3, h4⟩ := bind_eq_ok _ _ _ h2
        exact ihml _ _ _ _ (ihp _ _ _ r1 h3) h4
      | false =>
        simp only [Bool.false_eq_true, if_false] at h2
        obtain ⟨⟨b', c2⟩, h3, h4⟩ := bind_eq_ok _ _ _ h2
        have r2 := Reach.consume r1 h3
        cases b' with
        | true =>
          simp only [if_true] at h4
          obtain ⟨⟨m, c3⟩, h5, h6⟩ := bind_eq_ok _ _ _ h4
          exact ihml _ _ _ _ (ihp _ _ _ r2 h5) h6
        | false =>
          simp only [Bool.false_eq_true, if_false, Outcome.ok.injEq, Prod.mk.injEq] at h4
          obtain ⟨_, rfl⟩ := h4
          exact r2
    · intro c t r hc h
      rw [primary] at h
      obtain ⟨⟨b, c1⟩, h1, h2⟩ := bind_eq_ok _ _ _ h
      have r1 := Reach.consume hc h1
      cases b with
      | true =>
        simp only [if_true] at h2
        obtain ⟨⟨m, c2⟩, h3, h4⟩ := bind_eq_ok _ _ _ h2
        obtain ⟨⟨u, c3⟩, h5, h6⟩ := bind_eq_ok _ _ _ h4
        simp only [Outcome.ok.injEq, Prod.mk.injEq] at h6
        obtain ⟨_, rfl⟩ := h6
        exact Reach.expect (ihe _ _ _ r1 h3) h5
      | false =>
        simp only [Bool.false_eq_true, if_false] at h2
        obtain ⟨⟨v, c2⟩, h3, h4⟩ := bind_eq_ok _ _ _ h2
        simp only [Outcome.ok.injEq, Prod.mk.injEq] at h4
        obtain ⟨_, rfl⟩ := h4
        exact Reach.expect_number r1 h3

/-- A reached cursor is a suffix of the token list that still ends in `TK_EOF`. -/
theorem reach_suffix (ui : List Char) (toks c : List Token) (ht : ends_eof toks)
    (h : Reach ui toks c) : ∃ a, toks = a ++ c ∧ ends_eof c := by
  induction h with
  | start => exact ⟨[], rfl, ht⟩
  | consume _ hc ih =>
    obtain ⟨a, e, he⟩ := ih
    rcases consume_spec _ _ _ _ _ he hc with ⟨_, tk, rfl, _, h'⟩ | ⟨_, rfl⟩
    · exact ⟨a ++ [tk], by rw [e]; simp, h'⟩
    · exact ⟨a, e, he⟩
  | expect _ hc ih =>
    obtain ⟨a, e, he⟩ := ih
    obtain ⟨tk, rfl, _, h'⟩ := expect_spec _ _ _ _ _ he hc
    exact ⟨a ++ [tk], by rw [e]; simp, h'⟩
  | expect_number _ hc ih =>
    obtain ⟨a, e, he⟩ := ih
    obtain ⟨tk, rfl, _, h'⟩ := expect_number_spec ui _ _ _ he hc
    exact ⟨a ++ [tk], by rw [e]; simp, h'⟩

/-! ## C19: termination of the parser -/

theorem count_non_eof (p : List Char) (toks : List Token) (h : tokenize p = .ok toks) :
    (toks.filter (fun x => x.kind != .TK_EOF)).length + 1 = toks.length := by
  obtain ⟨body, e, hb⟩ := tokenize_at_shape 0 p [] rfl toks h
  subst e
  have h1 : body.filter (fun x => x.kind != .TK_EOF) = body := by
    rw [List.filter_eq_self]
    intro t ht
    rcases (hb t ht).2.2 with h | h <;> rw [h.1] <;> rfl
  rw [List.filter_append, h1]
  simp [new_token]

/-- C19. The parser terminates: on the tokens of `tokenize`, `expr` run with
enough fuel (`parse_fuel`, linear in the number of tokens, is enough) ends with a
tree or in `error_at`; the tokens consumed before the cursor it ends on are at
most the tokens other than `TK_EOF`; and every call of `expr`, `mul` and
`primary` that returns has consumed at least one token. -/
theorem C19_parser_terminates (p : List Char) (toks : List Token)
    (htok : tokenize p = .ok toks) :
    (∃ res, Run (fun f => expr p f toks) res ∧ parse p toks = res ∧
      ((∃ t a r, res = .ok (t, r) ∧ toks = a ++ r ∧
          a.length ≤ (toks.filter (fun x => x.kind != .TK_EOF)).length) ∨
       (∃ loc msg a x rest, res = .error loc msg ∧ toks = a ++ x :: rest ∧ loc = x.str ∧
          a.length ≤ (toks.filter (fun x => x.kind != .TK_EOF)).length))) ∧
    (∀ f c t r, expr p f c = .ok (t, r) → r.length < c.length) ∧
    (∀ f c t r, mul p f c = .ok (t, r) → r.length < c.length) ∧
    (∀ f c t r, primary p f c = .ok (t, r) → r.length < c.length) ∧
    (∀ f n c t r, expr_loop p f n c = .ok (t, r) → r.length ≤ c.length) ∧
    (∀ f n c t r, mul_loop p f n c = .ok (t, r) → r.length ≤ c.length) := by
  have hcnt := count_non_eof p toks htok
  have he := tokenize_ends_eof p toks htok
  refine ⟨⟨parse p toks, (run_parse p toks _).2 rfl, rfl, ?_⟩,
    fun f => (parser_len p f).1, fun f => (parser_len p f).2.2.1,
    fun f => (parser_len p f).2.2.2.2, fun f => (parser_len p f).2.1,
    fun f => (parser_len p f).2.2.2.1⟩
  rcases parse_total p toks htok with ⟨t, r, hp⟩ | ⟨loc, msg, hp⟩
  · left
    obtain ⟨a, e, her, _⟩ := derives_of_parse p toks t r he hp
    refine ⟨t, a, r, hp, e, ?_⟩
    have hr := List.length_pos.2 (ends_eof_ne_nil r her)
    have hl := congrArg List.length e
    rw [List.length_append] at hl
    omega
  · right
    obtain ⟨a, x, rest, e, hl⟩ := (parser_error_at p (parse_fuel toks)).1 toks loc msg he hp
    refine ⟨loc, msg, a, x, rest, hp, e, hl, ?_⟩
    have hl := congrArg List.length e
    rw [List.length_append, List.length_cons] at hl
    omega

/-- C19, witness: the parse of `(1 + 2` ends in `error_at` on the last of its 5 tokens. -/
theorem C19_parser_terminates_witness :
    parse "(1 + 2".toList [⟨.TK_RESERVED, 0, 0⟩, ⟨.TK_NUM, 1, 1⟩, ⟨.TK_RESERVED, 0, 3⟩,
      ⟨.TK_NUM, 2, 5⟩, ⟨.TK_EOF, 0, 6⟩] = .error 6 (msg_expect ')') ∧
    ∃ res, Run (fun f => expr "(1 + 2".toList f [⟨.TK_RESERVED, 0, 0⟩, ⟨.TK_NUM, 1, 1⟩,
      ⟨.TK_RESERVED, 0, 3⟩, ⟨.TK_NUM, 2, 5⟩, ⟨.TK_EOF, 0, 6⟩]) res :=
  ⟨by decide,
   (C19_parser_terminates "(1 + 2".toList [⟨.TK_RESERVED, 0, 0⟩, ⟨.TK_NUM, 1, 1⟩,
      ⟨.TK_RESERVED, 0, 3⟩, ⟨.TK_NUM, 2, 5⟩, ⟨.TK_EOF, 0, 6⟩] (by decide)).1.elim
        (fun res h => ⟨res, h.1⟩)⟩

/-! ## C17: the cursor -/

/-- C17. Parse-cursor invariant: a cursor reached from the first token of a
sequence returned by `tokenize` points at a token of the sequence and is never
NULL; `consume`, `expect` and `expect_number`, the only places where `token` is
assigned, never dereference NULL there, leave the cursor where it is or move it
forward by exactly one token, and never move it off `TK_EOF`; a failing
`consume` leaves it where it is; `expr`, `mul` and `primary` never end on a NULL
dereference and return with a cursor reached in this way. -/
theorem C17_cursor_invariant (p : List Char) (toks c : List Token)
    (htok : tokenize p = .ok toks) (hc : Reach p toks c) :
    (∃ a x rest, toks = a ++ x :: rest ∧ c = x :: rest) ∧
    (∀ op, consume p op c ≠ .null ∧ expect p op c ≠ .null) ∧ expect_number c ≠ .null ∧
    (∀ op b c', consume p op c = .ok (b, c') →
      (c' = c ∨ ∃ x, c = x :: c') ∧ (b = false → c' = c) ∧ (at_eof c = .ok true → c' = c)) ∧
    (∀ op u c', expect p op c = .ok (u, c') → (∃ x, c = x :: c') ∧ at_eof c = .ok false) ∧
    (∀ v c', expect_number c = .ok (v, c') → (∃ x, c = x :: c') ∧ at_eof c = .ok false) ∧
    (∀ f, expr p f c ≠ .null ∧ mul p f c ≠ .null ∧ primary p f c ≠ .null) ∧
    (∀ f t r, expr p f c = .ok (t, r) → Reach p toks r) ∧
    (∀ f t r, mul p f c = .ok (t, r) → Reach p toks r) ∧
    (∀ f t r, primary p f c = .ok (t, r) → Reach p toks r) := by
  obtain ⟨a, e, he⟩ := reach_suffix p toks c (tokenize_ends_eof p toks htok) hc
  have hkind : ∀ (x : Token) (ch : Char), view p x = .op ch → (x.kind == TokenKind.TK_EOF) = false := by
    intro x ch h
    have := view_op_kind p x ch h
    cases hk : x.kind <;> simp_all
  have hkind' : ∀ (x : Token) (v : Int), view p x = .num v → (x.kind == TokenKind.TK_EOF) = false := by
    intro x v h
    have := view_num_kind p x v h
    cases hk : x.kind <;> simp_all
  refine ⟨?_, fun op => ⟨consume_ne_null p op c he, expect_ne_null p op c he⟩,
    expect_number_ne_null c he, ?_, ?_, ?_,
    fun f => ⟨(parser_no_null p f).1 c he, (parser_no_null p f).2.2.1 c he,
      (parser_no_null p f).2.2.2.2 c he⟩,
    fun f t r => (parser_reach p toks f).1 c t r hc,
    fun f t r => (parser_reach p toks f).2.2.1 c t r hc,
    fun f t r => (parser_reach p toks f).2.2.2.2 c t r hc⟩
  · cases c with
    | nil => exact absurd rfl (ends_eof_ne_nil _ he)
    | cons x rest => exact ⟨a, x, rest, e, rfl⟩
  · intro op b c' h
    rcases consume_spec _ _ _ _ _ he h with ⟨rfl, tk, rfl, hv, _⟩ | ⟨rfl, rfl⟩
    · refine ⟨Or.inr ⟨tk, rfl⟩, fun h => Bool.noConfusion h, fun h => ?_⟩
      simp only [at_eof, hkind tk op hv, Outcome.ok.injEq] at h
      exact Bool.noConfusion h
    · exact ⟨Or.inl rfl, fun _ => rfl, fun _ => rfl⟩
  · intro op u c' h
    obtain ⟨tk, rfl, hv, _⟩ := expect_spec _ _ _ _ _ he h
    exact ⟨⟨tk, rfl⟩, by simp only [at_eof, hkind tk op hv]⟩
  · intro v c' h
    obtain ⟨tk, rfl, hv, _⟩ := expect_number_spec p _ _ _ he h
    exact ⟨⟨tk, rfl⟩, by simp only [at_eof, hkind' tk v hv]⟩

/-- C17, witness: in the tokens of `1+2`, after `expect_number` the cursor is on `+`. -/
theorem C17_cursor_invariant_witness :
    expect_number [⟨.TK_NUM, 1, 0⟩, ⟨.TK_RESERVED, 0, 1⟩, ⟨.TK_NUM, 2, 2⟩, ⟨.TK_EOF, 0, 3⟩]
      = .ok (1, [⟨.TK_RESERVED, 0, 1⟩, ⟨.TK_NUM, 2, 2⟩, ⟨.TK_EOF, 0, 3⟩]) ∧
    ∃ a x rest, ([⟨.TK_NUM, 1, 0⟩, ⟨.TK_RESERVED, 0, 1⟩, ⟨.TK_NUM, 2, 2⟩, ⟨.TK_EOF, 0, 3⟩]
        : List Token) = a ++ x :: rest ∧
      ([⟨.TK_RESERVED, 0, 1⟩, ⟨.TK_NUM, 2, 2⟩, ⟨.TK_EOF, 0, 3⟩] : List Token) = x :: rest :=
  ⟨by decide,
   (C17_cursor_invariant "1+2".toList
     [⟨.TK_NUM, 1, 0⟩, ⟨.TK_RESERVED, 0, 1⟩, ⟨.TK_NUM, 2, 2⟩, ⟨.TK_EOF, 0, 3⟩]
     [⟨.TK_RESERVED, 0, 1⟩, ⟨.TK_NUM, 2, 2⟩, ⟨.TK_EOF, 0, 3⟩] (by decide)
     (@Reach.expect_number _ _ _ _ 1 Reach.start (by decide))).1⟩

/-! ## C20: printing and parsing back -/

theorem digitChar_isdigit (k : Nat) (h : k < 10) :
    isdigit (Nat.digitChar k) = true ∧ (Nat.digitChar k).toNat - 48 = k := by
  interval_cases k <;> decide

/-- Reading the digits printed by `Nat.toDigits 10` gives the number back. -/
theorem toDigitsCore_spec (fuel : Nat) : ∀ (n : Nat) (ds : List Char), n < fuel →
    (∀ c ∈ ds, isdigit c = true) →
    (∀ c ∈ Nat.toDigitsCore 10 fuel n ds, isdigit c = true) ∧
    Nat.toDigitsCore 10 fuel n ds ≠ [] ∧
    (Nat.toDigitsCore 10 fuel n ds).foldl (fun a c => 10 * a + (c.toNat - 48)) 0
      = ds.foldl (fun a c => 10 * a + (c.toNat - 48)) n := by
  induction fuel with
  | zero => intro n ds h; omega
  | succ fuel ih =>
    intro n ds hn hds
    have hd := digitChar_isdigit (n % 10) (Nat.mod_lt _ (by decide))
    have hds' : ∀ c ∈ Nat.digitChar (n % 10) :: ds, isdigit c = true := by
      intro c hc
      rcases List.mem_cons.1 hc with rfl | hc
      · exact hd.1
      · exact hds c hc
    simp only [Nat.toDigitsCore]
    by_cases h0 : n / 10 = 0
    · simp only [h0, if_true]
      refine ⟨hds', by simp, ?_⟩
      simp only [List.foldl_cons, hd.2]
      congr 1
      omega
    · simp only [h0, if_false]
      obtain ⟨h1, h2, h3⟩ := ih (n / 10) (Nat.digitChar (n % 10) :: ds) (by omega) hds'
      refine ⟨h1, h2, ?_⟩
      rw [h3]
      simp only [List.foldl_cons, hd.2]
      congr 1
      omega

theorem toDigits_literal (n : Nat) :
    is_literal (Nat.toDigits 10 n) = true ∧ digitsVal (Nat.toDigits 10 n) = n := by
  obtain ⟨h1, h2, h3⟩ := toDigitsCore_spec (n + 1) n [] (by omega) (by simp)
  refine ⟨?_, h3⟩
  simp only [is_literal, Bool.and_eq_true, Bool.not_eq_true', List.all_eq_true]
  refine ⟨?_, h1⟩
  cases h : Nat.toDigits 10 n with
  | nil => exact absurd h h2
  | cons x xs => rfl

theorem starts_digit_render_tail (o : Char) (l : List Char) (h : isdigit o = false) :
    starts_digit (o :: l) = false := h

theorem lexv_render (t : Node) (h : ∀ v ∈ leaves t, 0 ≤ v ∧ v ≤ 2147483647) :
    lexv (render t) = some (tree_views t) := by
  have paren : ∀ (o : Char) (l r : Node), is_reserved o = true → isdigit o = false →
      lexv (render l) = some (tree_views l) → lexv (render r) = some (tree_views r) →
      lexv ('(' :: render l ++ o :: render r ++ [')'])
        = some (.op '(' :: tree_views l ++ .op o :: tree_views r ++ [.op ')']) := by
    intro o l r ho hdo hl hr
    have e : '(' :: render l ++ o :: render r ++ [')']
        = ['('] ++ (render l ++ ([o] ++ (render r ++ [')']))) := by simp
    have e' : Tok.op '(' :: tree_views l ++ Tok.op o :: tree_views r ++ [Tok.op ')']
        = [Tok.op '('] ++ (tree_views l ++ ([Tok.op o] ++ (tree_views r ++ [Tok.op ')']))) := by
      simp
    rw [e, e']
    refine lexv_append _ _ _ _ (seam_of_not_ends _ _ rfl) (lexv_reserved _ (by decide)) ?_
    refine lexv_append _ _ _ _ (seam_of_not_starts _ _ hdo) hl ?_
    refine lexv_append _ _ _ _ (seam_of_not_ends _ _ hdo) (lexv_reserved _ ho) ?_
    exact lexv_append _ _ _ _ (seam_of_not_starts _ _ rfl) hr (lexv_reserved _ (by decide))
  induction t with
  | Num v =>
    have hv := h v (by simp [leaves])
    obtain ⟨h1, h2⟩ := toDigits_literal v.toNat
    have e := lexv_literal _ h1
    rw [num_val_small _ (by rw [h2]; omega), h2, Int.toNat_of_nonneg hv.1] at e
    exact e
  | Add l r ihl ihr =>
    exact paren '+' l r (by decide) (by decide)
      (ihl (fun v hv => h v (by simp [leaves, hv]))) (ihr (fun v hv => h v (by simp [leaves, hv])))
  | Sub l r ihl ihr =>
    exact paren '-' l r (by decide) (by decide)
      (ihl (fun v hv => h v (by simp [leaves, hv]))) (ihr (fun v hv => h v (by simp [leaves, hv])))
  | Mul l r ihl ihr =>
    exact paren '*' l r (by decide) (by decide)
      (ihl (fun v hv => h v (by simp [leaves, hv]))) (ihr (fun v hv => h v (by simp [leaves, hv])))
  | Div l r ihl ihr =>
    exact paren '/' l r (by decide) (by decide)
      (ihl (fun v hv => h v (by simp [leaves, hv]))) (ihr (fun v hv => h v (by simp [leaves, hv])))

theorem derives_render (t : Node) : Derives .primary (tree_views t) t := by
  induction t with
  | Num v => exact .num v
  | Add l r ihl ihr =>
    have := Derives.paren (Derives.expr_add (Derives.expr_one (Derives.mul_one ihl))
      (Derives.mul_one ihr))
    simpa [tree_views] using this
  | Sub l r ihl ihr =>
    have := Derives.paren (Derives.expr_sub (Derives.expr_one (Derives.mul_one ihl))
      (Derives.mul_one ihr))
    simpa [tree_views] using this
  | Mul l r ihl ihr =>
    have := Derives.paren (Derives.expr_one (Derives.mul_mul (Derives.mul_one ihl) ihr))
    simpa [tree_views] using this
  | Div l r ihl ihr =>
    have := Derives.paren (Derives.expr_one (Derives.mul_div (Derives.mul_one ihl) ihr))
    simpa [tree_views] using this

/-- C20. Print/parse round trip: for a tree whose leaves hold values in
`[0, 2^31 - 1]`, `tokenize` and `expr` succeed on its fully parenthesised
rendering, the cursor ends on `TK_EOF`, and the tree returned is the tree
rendered. -/
theorem C20_round_trip (t : Node) (h : ∀ v ∈ leaves t, 0 ≤ v ∧ v ≤ 2147483647) :
    ∃ toks r, tokenize (render t) = .ok toks ∧ parse (render t) toks = .ok (t, r) ∧
      at_eof r = .ok true := by
  obtain ⟨body, ht, hp⟩ := parse_of_lexv (render t) (tree_views t) t (lexv_render t h)
    (.expr_one (.mul_one (derives_render t)))
  exact ⟨_, _, ht, hp, rfl⟩

/-- C20, witness: `Div(Sub(Num 120, Num 3), Num 0)` is rendered as `((120-3)/0)` and parsed back. -/
theorem C20_round_trip_witness :
    render (.Div (.Sub (.Num 120) (.Num 3)) (.Num 0)) = "((120-3)/0)".toList ∧
    ∃ toks r, tokenize (render (.Div (.Sub (.Num 120) (.Num 3)) (.Num 0))) = .ok toks ∧
      parse (render (.Div (.Sub (.Num 120) (.Num 3)) (.Num 0))) toks
        = .ok (.Div (.Sub (.Num 120) (.Num 3)) (.Num 0), r) ∧
      at_eof r = .ok true :=
  ⟨by decide, C20_round_trip (.Div (.Sub (.Num 120) (.Num 3)) (.Num 0)) (by decide)⟩

/-! ## Parser: token lists that read alike are parsed alike -/

theorem rel_bind {α α' β β' : Type} (R : α → α' → Prop) (S : β → β' → Prop)
    (x : Outcome α) (x' : Outcome α') (k : α → Outcome β) (k' : α' → Outcome β')
    (hx : Outcome.rel R x x') (hk : ∀ a a', R a a' → Outcome.rel S (k a) (k' a')) :
    Outcome.rel S (x.bind k) (x'.bind k') := by
  cases x <;> cases x' <;> simp only [Outcome.rel] at hx <;>
    first
    | exact hk _ _ hx
    | exact hx

theorem same_views_nil_left (ui ui' : List Char) (c' : List Token)
    (h : same_views ui ui' [] c') : c' = [] := by
  unfold same_views at h
  exact List.map_eq_nil_iff.1 h.symm

theorem same_views_cons (ui ui' : List Char) (t : Token) (next c' : List Token)
    (h : same_views ui ui' (t :: next) c') :
    ∃ t' next', c' = t' :: next' ∧ view ui t = view ui' t' ∧ same_views ui ui' next next' := by
  unfold same_views at h
  obtain ⟨t', next', rfl, h1, h2⟩ := List.map_eq_cons_iff.1 h.symm
  exact ⟨t', next', rfl, h1.symm, h2.symm⟩

theorem same_views_isEmpty (ui ui' : List Char) (c c' : List Token)
    (h : same_views ui ui' c c') : c.isEmpty = c'.isEmpty := by
  cases c with
  | nil => rw [same_views_nil_left ui ui' c' h]
  | cons t next =>
    obtain ⟨t', next', rfl, _, _⟩ := same_views_cons ui ui' t next c' h
    rfl

theorem consume_sim (ui ui' : List Char) (op : Char) (c c' : List Token)
    (h : same_views ui ui' c c') :
    Outcome.rel (fun a a' => a.1 = a'.1 ∧ same_views ui ui' a.2 a'.2)
      (consume ui op c) (consume ui' op c') := by
  cases c with
  | nil => rw [same_views_nil_left ui ui' c' h]; simp [consume, Outcome.rel]
  | cons t next =>
    obtain ⟨t', next', rfl, hv, hn⟩ := same_views_cons ui ui' t next c' h
    by_cases ho : view ui t = .op op
    · rw [consume_hit ui op t next ho, consume_hit ui' op t' next' (hv ▸ ho)]
      exact ⟨by simp only [same_views_isEmpty ui ui' next next' hn], hn⟩
    · rw [consume_miss ui op t next ho, consume_miss ui' op t' next' (hv ▸ ho)]
      exact ⟨rfl, h⟩

theorem expect_sim (ui ui' : List Char) (op : Char) (c c' : List Token)
    (h : same_views ui ui' c c') :
    Outcome.rel (fun a a' => same_views ui ui' a.2 a'.2)
      (expect ui op c) (expect ui' op c') := by
  cases c with
  | nil => rw [same_views_nil_left ui ui' c' h]; simp [expect, Outcome.rel]
  | cons t next =>
    obtain ⟨t', next', rfl, hv, hn⟩ := same_views_cons ui ui' t next c' h
    by_cases ho : view ui t = .op op
    · rw [expect_hit ui op t next ho, expect_hit ui' op t' next' (hv ▸ ho)]
      exact hn
    · rw [expect_miss ui op t next ho, expect_miss ui' op t' next' (hv ▸ ho)]
      rfl

theorem expect_number_sim (ui ui' : List Char) (c c' : List Token)
    (h : same_views ui ui' c c') :
    Outcome.rel (fun a a' => a.1 = a'.1 ∧ same_views ui ui' a.2 a'.2)
      (expect_number c) (expect_number c') := by
  cases c with
  | nil => rw [same_views_nil_left ui ui' c' h]; simp [expect_number, Outcome.rel]
  | cons t next =>
    obtain ⟨t', next', rfl, hv, hn⟩ := same_views_cons ui ui' t next c' h
    by_cases ho : ∃ v, view ui t = .num v
    · obtain ⟨v, ho⟩ := ho
      rw [expect_number_hit ui t next v ho, expect_number_hit ui' t' next' v (hv ▸ ho)]
      exact ⟨rfl, hn⟩
    · have h1 : ∀ v, view ui t ≠ .num v := fun v hv' => ho ⟨v, hv'⟩
      rw [expect_number_miss ui t next h1,
        expect_number_miss ui' t' next' (fun v => hv ▸ h1 v)]
      rfl

/-- Token lists that show the parser the same tokens are parsed to the same
tree, with cursors that read alike, or fail alike. -/
theorem parser_sim (ui ui' : List Char) (f : Nat) :
    (∀ c c', same_views ui ui' c c' →
      Outcome.rel (fun a a' => a.1 = a'.1 ∧ same_views ui ui' a.2 a'.2)
        (expr ui f c) (expr ui' f c')) ∧
    (∀ n c c', same_views ui ui' c c' →
      Outcome.rel (fun a a' => a.1 = a'.1 ∧ same_views ui ui' a.2 a'.2)
        (expr_loop ui f n c) (expr_loop ui' f n c')) ∧
    (∀ c c', same_views ui ui' c c' →
      Outcome.rel (fun a a' => a.1 = a'.1 ∧ same_views ui ui' a.2 a'.2)
        (mul ui f c) (mul ui' f c')) ∧
    (∀ n c c', same_views ui ui' c c' →
      Outcome.rel (fun a a' => a.1 = a'.1 ∧ same_views ui ui' a.2 a'.2)
        (mul_loop ui f n c) (mul_loop ui' f n c')) ∧
    (∀ c c', same_views ui ui' c c' →
      Outcome.rel (fun a a' => a.1 = a'.1 ∧ same_views ui ui' a.2 a'.2)
        (primary ui f c) (primary ui' f c')) := by
  induction f with
  | zero =>
    refine ⟨?_, ?_, ?_, ?_, ?_⟩ <;> intros <;>
      simp [expr, expr_loop, mul, mul_loop, primary, Outcome.rel]
  | succ f ih =>
    obtain ⟨ihe, ihel, ihm, ihml, ihp⟩ := ih
    refine ⟨?_, ?_, ?_, ?_, ?_⟩
    · intro c c' h
      rw [expr_succ, expr_succ]
      refine rel_bind _ _ _ _ _ _ (ihm c c' h) (fun a a' ha => ?_)
      rw [ha.1]
      exact ihel _ _ _ ha.2
    · intro n c c' h
      rw [expr_loop, expr_loop]
      refine rel_bind _ _ _ _ _ _ (consume_sim ui ui' _ c c' h) (fun a a' ha => ?_)
      rw [ha.1]
      cases a'.1 with
      | true =>
        simp only [if_true]
        refine rel_bind _ _ _ _ _ _ (ihm _ _ ha.2) (fun m m' hm => ?_)
        rw [hm.1]
        exact ihel _ _ _ hm.2
      | false =>
        simp only [Bool.false_eq_true, if_false]
        refine rel_bind _ _ _ _ _ _ (consume_sim ui ui' _ _ _ ha.2) (fun b b' hb => ?_)
        rw [hb.1]
        cases b'.1 with
        | true =>
          simp only [if_true]
          refine rel_bind _ _ _ _ _ _ (ihm _ _ hb.2) (fun m m' hm => ?_)
          rw [hm.1]
          exact ihel _ _ _ hm.2
        | false =>
          simp only [Bool.false_eq_true, if_false]
          exact ⟨rfl, hb.2⟩
    · intro c c' h
      rw [mul_succ, mul_succ]
      refine rel_bind _ _ _ _ _ _ (ihp c c' h) (fun a a' ha => ?_)
      rw [ha.1]
      exact ihml _ _ _ ha.2
    · intro n c c' h
      rw [mul_loop, mul_loop]
      refine rel_bind _ _ _ _ _ _ (consume_sim ui ui' _ c c' h) (fun a a' ha => ?_)
      rw [ha.1]
      cases a'.1 with
      | true =>
        simp only [if_true]
        refine rel_bind _ _ _ _ _ _ (ihp _ _ ha.2) (fun m m' hm => ?_)
        rw [hm.1]
        exact ihml _ _ _ hm.2
      | false =>
        simp only [Bool.false_eq_true, if_false]
        refine rel_bind _ _ _ _ _ _ (consume_sim ui ui' _ _ _ ha.2) (fun b b' hb => ?_)
        rw [hb.1]
        cases b'.1 with
        | true =>
          simp only [if_true]
          refine rel_bind _ _ _ _ _ _ (ihp _ _ hb.2) (fun m m' hm => ?_)
          rw [hm.1]
          exact ihml _ _ _ hm.2
        | false =>
          simp only [Bool.false_eq_true, if_false]
          exact ⟨rfl, hb.2⟩
    · intro c c' h
      rw [primary, primary]
      refine rel_bind _ _ _ _ _ _ (consume_sim ui ui' _ c c' h) (fun a a' ha => ?_)
      rw [ha.1]
      cases a'.1 with
      | true =>
        simp only [if_true]
        refine rel_bind _ _ _ _ _ _ (ihe _ _ ha.2) (fun m m' hm => ?_)
        refine rel_bind _ _ _ _ _ _ (expect_sim ui ui' _ _ _ hm.2) (fun u u' hu => ?_)
        exact ⟨hm.1, hu⟩
      | false =>
        simp only [Bool.false_eq_true, if_false]
        refine rel_bind _ _ _ _ _ _ (expect_number_sim ui ui' _ _ ha.2) (fun v v' hv => ?_)
        rw [hv.1]
        exact ⟨rfl, hv.2⟩

theorem parse_sim (ui ui' : List Char) (c c' : List Token) (h : same_views ui ui' c c') :
    Outcome.rel (fun a a' => a.1 = a'.1 ∧ same_views ui ui' a.2 a'.2)
      (parse ui c) (parse ui' c') := by
  have hl : c.length = c'.length := by
    have := congrArg List.length h
    simpa using this
  unfold parse parse_fuel
  rw [hl]
  exact (parser_sim ui ui' _).1 c c' h

/-! ## C11: white space -/

theorem deref_cons_succ (w : Char) (b : List Char) (j : Nat) :
    deref (w :: b) (j + 1) = deref b j := rfl

theorem reading_left (a b b' : List Char) (t : Token) (h : t.str < a.length) :
    reading (a ++ b') t = reading (a ++ b) t := by
  simp only [reading, deref_append_left a b' _ h, deref_append_left a b _ h]

theorem reading_right (a b : List Char) (w : Char) (t : Token) (h : a.length ≤ t.str) :
    reading (a ++ w :: b) (t.shift 1) = reading (a ++ b) t := by
  obtain ⟨j, hj⟩ : ∃ j, t.str = j + a.length := ⟨t.str - a.length, by omega⟩
  simp only [reading, Token.shift, hj, Prod.mk.injEq, true_and]
  rw [show j + a.length + 1 = (j + 1) + a.length by omega, deref_append_right,
    deref_append_right, deref_cons_succ]

/-- Inserting one white space character outside the runs of digits changes
only the offsets of the tokens. -/
theorem ws_step_tokens (a b : List Char) (w : Char) (hw : isspace w = true)
    (hseam : ¬ (ends_digit a = true ∧ starts_digit b = true)) :
    Outcome.rel (fun ts ts' => ts'.map (reading (a ++ w :: b)) = ts.map (reading (a ++ b)))
      (tokenize (a ++ b)) (tokenize (a ++ w :: b)) := by
  have hwd : starts_digit (w :: b) = false := by
    simp only [starts_digit]
    cases hd : isdigit w with
    | false => rfl
    | true => rw [isdigit_not_isspace w hd] at hw; cases hw
  have h0 := tokenize_at_append 0 a b hseam
  have h1 := tokenize_at_append 0 a (w :: b) (seam_of_not_starts _ _ hwd)
  rw [tokenize_at_space _ w b hw, tokenize_at_shift 1 (0 + a.length) b] at h1
  rw [tokenize_eq_at, tokenize_eq_at, h0, h1]
  cases hta : tokenize_at 0 a with
  | ok ta =>
    obtain ⟨ba, ea, hba⟩ := tokenize_at_shape 0 a [] rfl ta hta
    subst ea
    simp only [List.dropLast_concat]
    cases htb : tokenize_at (0 + a.length) b with
    | ok tb =>
      obtain ⟨bb, eb, hbb⟩ := tokenize_at_shape (0 + a.length) b a (by simp) tb htb
      have hge : ∀ t ∈ tb, a.length ≤ t.str := by
        intro t ht
        rw [eb] at ht
        rcases List.mem_append.1 ht with h | h
        · have := (hbb t h).1; omega
        · simp only [List.mem_singleton] at h
          subst h
          simp only [new_token]; omega
      simp only [shift_outcome, Outcome.bind, Outcome.rel, List.map_append, List.map_map]
      congr 1
      · exact List.map_congr_left (fun t ht => reading_left a b (w :: b) t (by
          have := (hba t ht).2.1; omega))
      · exact List.map_congr_left (fun t ht => reading_right a b w t (hge t ht))
    | error loc msg => simp [shift_outcome, Outcome.bind, Outcome.rel]
    | null => simp [shift_outcome, Outcome.bind, Outcome.rel]
    | fuel => simp [shift_outcome, Outcome.bind, Outcome.rel]
  | error loc msg => simp [Outcome.rel]
  | null => simp [Outcome.rel]
  | fuel => simp [Outcome.rel]

theorem ws_insert_tokens (s s' : List Char) (h : WsInsert s s') :
    Outcome.rel (fun ts ts' => ts'.map (reading s') = ts.map (reading s))
      (tokenize s) (tokenize s') := by
  induction h with
  | refl => cases tokenize s <;> simp [Outcome.rel]
  | @step a b w _ hw hseam ih =>
    have hs := ws_step_tokens a b w hw hseam
    revert ih hs
    cases tokenize s <;> cases tokenize (a ++ b) <;> cases tokenize (a ++ w :: b) <;>
      simp only [Outcome.rel, imp_self, implies_true, false_imp_iff, imp_false, not_false_eq_true]
    · intro h1 h2; rw [h2, h1]
    · intro h1 h2; rw [h1, h2]

theorem view_of_reading (ui ui' : List Char) (t t' : Token)
    (h : reading ui t = reading ui' t') : view ui t = view ui' t' := by
  obtain ⟨k, v, s⟩ := t
  obtain ⟨k', v', s'⟩ := t'
  simp only [reading, Prod.mk.injEq] at h
  obtain ⟨rfl, rfl, h3⟩ := h
  cases k
  · simp only [view, h3]
  · rfl
  · rfl

theorem same_views_of_reading (ui ui' : List Char) (c c' : List Token)
    (h : c'.map (reading ui') = c.map (reading ui)) : same_views ui ui' c c' := by
  induction c generalizing c' with
  | nil =>
    have : c' = [] := List.map_eq_nil_iff.1 h
    subst this
    rfl
  | cons t c ih =>
    obtain ⟨t', c2, rfl, h1, h2⟩ := List.map_eq_cons_iff.1 h
    unfold same_views
    rw [List.map_cons, List.map_cons, view_of_reading ui ui' t t' h1.symm]
    congr 1
    exact ih c2 h2

theorem same_views_symm (ui ui' : List Char) (c c' : List Token)
    (h : same_views ui ui' c c') : same_views ui' ui c' c := h.symm

/-- C11. White space is insignificant: when `s'` is `s` with white space
inserted outside the runs of digits, `tokenize` succeeds on both or on neither;
the two token sequences agree on kinds, values and the characters pointed at;
and the parser returns the same tree for both, or reports the same error. -/
theorem C11_whitespace (s s' : List Char) (h : WsInsert s s') :
    ((∃ toks, tokenize s = .ok toks) ↔ (∃ toks', tokenize s' = .ok toks')) ∧
    (∀ toks toks', tokenize s = .ok toks → tokenize s' = .ok toks' →
      toks'.map (reading s') = toks.map (reading s) ∧
      (∀ t, (∃ r, parse s toks = .ok (t, r)) ↔ (∃ r', parse s' toks' = .ok (t, r'))) ∧
      (∀ msg, (∃ loc, parse s toks = .error loc msg) ↔
        (∃ loc', parse s' toks' = .error loc' msg))) := by
  have hrel := ws_insert_tokens s s' h
  constructor
  · constructor
    · rintro ⟨toks, ht⟩
      rw [ht] at hrel
      cases ht' : tokenize s' with
      | ok toks' => exact ⟨toks', rfl⟩
      | error loc msg => rw [ht'] at hrel; exact False.elim hrel
      | null => rw [ht'] at hrel; exact False.elim hrel
      | fuel => rw [ht'] at hrel; exact False.elim hrel
    · rintro ⟨toks', ht'⟩
      rw [ht'] at hrel
      cases ht : tokenize s with
      | ok toks => exact ⟨toks, rfl⟩
      | error loc msg => rw [ht] at hrel; exact False.elim hrel
      | null => rw [ht] at hrel; exact False.elim hrel
      | fuel => rw [ht] at hrel; exact False.elim hrel
  · intro toks toks' ht ht'
    rw [ht, ht'] at hrel
    have hread : toks'.map (reading s') = toks.map (reading s) := hrel
    have hsv := same_views_of_reading s s' toks toks' hread
    have hp := parse_sim s s' toks toks' hsv
    refine ⟨hread, fun t => ⟨?_, ?_⟩, fun msg => ⟨?_, ?_⟩⟩
    · rintro ⟨r, e⟩
      rw [e] at hp
      cases e' : parse s' toks' with
      | ok a =>
        rw [e'] at hp
        obtain ⟨t', r'⟩ := a
        exact ⟨r', by rw [show t = t' from hp.1]⟩
      | error loc msg => rw [e'] at hp; exact False.elim hp
      | null => rw [e'] at hp; exact False.elim hp
      | fuel => rw [e'] at hp; exact False.elim hp
    · rintro ⟨r', e'⟩
      rw [e'] at hp
      cases e : parse s toks with
      | ok a =>
        rw [e] at hp
        obtain ⟨t', r⟩ := a
        exact ⟨r, by rw [show t' = t from hp.1]⟩
      | error loc msg => rw [e] at hp; exact False.elim hp
      | null => rw [e] at hp; exact False.elim hp
      | fuel => rw [e] at hp; exact False.elim hp
    · rintro ⟨loc, e⟩
      rw [e] at hp
      cases e' : parse s' toks' with
      | ok a => rw [e'] at hp; exact False.elim hp
      | error loc' msg' =>
        rw [e'] at hp
        exact ⟨loc', by rw [show msg = msg' from hp]⟩
      | null => rw [e'] at hp; exact False.elim hp
      | fuel => rw [e'] at hp; exact False.elim hp
    · rintro ⟨loc', e'⟩
      rw [e'] at hp
      cases e : parse s toks with
      | ok a => rw [e] at hp; exact False.elim hp
      | error loc msg' =>
        rw [e] at hp
        exact ⟨loc, by rw [show msg' = msg from hp]⟩
      | null => rw [e] at hp; exact False.elim hp
      | fuel => rw [e] at hp; exact False.elim hp

theorem ws_insert_step (s x y a b : List Char) (w : Char) (h : WsInsert s x)
    (hx : x = a ++ b) (hy : y = a ++ w :: b) (hw : isspace w = true)
    (hseam : ¬ (ends_digit a = true ∧ starts_digit b = true)) : WsInsert s y := by
  subst hx
  subst hy
  exact WsInsert.step w h hw hseam

theorem ws_insert_example : WsInsert "1+2".toList " 1  +   2 ".toList := by
  have h0 : WsInsert "1+2".toList "1+2".toList := WsInsert.refl _
  have h1 := ws_insert_step _ _ " 1+2".toList [] "1+2".toList ' ' h0
    (by decide) (by decide) (by decide) (by decide)
  have h2 := ws_insert_step _ _ " 1 +2".toList " 1".toList "+2".toList ' ' h1
    (by decide) (by decide) (by decide) (by decide)
  have h3 := ws_insert_step _ _ " 1  +2".toList " 1 ".toList "+2".toList ' ' h2
    (by decide) (by decide) (by decide) (by decide)
  have h4 := ws_insert_step _ _ " 1  + 2".toList " 1  +".toList "2".toList ' ' h3
    (by decide) (by decide) (by decide) (by decide)
  have h5 := ws_insert_step _ _ " 1  +  2".toList " 1  + ".toList "2".toList ' ' h4
    (by decide) (by decide) (by decide) (by decide)
  have h6 := ws_insert_step _ _ " 1  +   2".toList " 1  +  ".toList "2".toList ' ' h5
    (by decide) (by decide) (by decide) (by decide)
  exact ws_insert_step _ _ " 1  +   2 ".toList " 1  +   2".toList [] ' ' h6
    (by decide) (by decide) (by decide) (by decide)

/-- C11, witness: ` 1  +   2 ` and `1+2` both parse to `Add(Num 1, Num 2)`, which
evaluates to 3. -/
theorem C11_whitespace_witness :
    (∃ r, parse "1+2".toList
      [⟨.TK_NUM, 1, 0⟩, ⟨.TK_RESERVED, 0, 1⟩, ⟨.TK_NUM, 2, 2⟩, ⟨.TK_EOF, 0, 3⟩]
      = .ok (.Add (.Num 1) (.Num 2), r)) ∧
    (∃ r', parse " 1  +   2 ".toList
      [⟨.TK_NUM, 1, 1⟩, ⟨.TK_RESERVED, 0, 4⟩, ⟨.TK_NUM, 2, 8⟩, ⟨.TK_EOF, 0, 10⟩]
      = .ok (.Add (.Num 1) (.Num 2), r')) ∧
    eval (.Add (.Num 1) (.Num 2)) = 3 ∧
    ([⟨.TK_NUM, 1, 1⟩, ⟨.TK_RESERVED, 0, 4⟩, ⟨.TK_NUM, 2, 8⟩, ⟨.TK_EOF, 0, 10⟩]
        : List Token).map (reading " 1  +   2 ".toList)
      = ([⟨.TK_NUM, 1, 0⟩, ⟨.TK_RESERVED, 0, 1⟩, ⟨.TK_NUM, 2, 2⟩, ⟨.TK_EOF, 0, 3⟩]
        : List Token).map (reading "1+2".toList) :=
  ⟨⟨[⟨.TK_EOF, 0, 3⟩], by decide⟩, ⟨[⟨.TK_EOF, 0, 10⟩], by decide⟩, by decide,
   ((C11_whitespace "1+2".toList " 1  +   2 ".toList ws_insert_example).2
     [⟨.TK_NUM, 1, 0⟩, ⟨.TK_RESERVED, 0, 1⟩, ⟨.TK_NUM, 2, 2⟩, ⟨.TK_EOF, 0, 3⟩]
     [⟨.TK_NUM, 1, 1⟩, ⟨.TK_RESERVED, 0, 4⟩, ⟨.TK_NUM, 2, 8⟩, ⟨.TK_EOF, 0, 10⟩]
     (by decide) (by decide)).1⟩

/-! ## C16: the global variables -/

theorem lift_g_token {α : Type} (mem : List Char) (g : Globals) (c : List Token)
    (x : Outcome (α × List Token)) :
    lift_g mem { g with token := c } x = lift_g mem g x := by
  cases x <;> rfl

theorem bind_lift {α β : Type} (mem : List Char) (g : Globals) (X : Effect α)
    (K : α → Globals → Effect β) (x : Outcome (α × List Token))
    (k : α × List Token → Outcome (β × List Token)) (hx : X = lift_g mem g x)
    (hk : ∀ a c, K a { g with token := c } = lift_g mem g (k (a, c))) :
    X.bind K = lift_g mem g (x.bind k) := by
  subst hx
  cases x with
  | ok a =>
    obtain ⟨a, c⟩ := a
    exact hk a c
  | error loc msg => rfl
  | null => rfl
  | fuel => rfl

theorem consume_g_eq (mem : List Char) (op : Char) (g : Globals) :
    consume_g mem op g = lift_g mem g (consume mem op g.token) := by
  obtain ⟨tok, ui⟩ := g
  cases tok with
  | nil => rfl
  | cons t next =>
    simp only [consume_g, consume]
    split <;> rfl

theorem expect_g_eq (mem : List Char) (op : Char) (g : Globals) :
    expect_g mem op g = lift_g mem g (expect mem op g.token) := by
  obtain ⟨tok, ui⟩ := g
  cases tok with
  | nil => rfl
  | cons t next =>
    simp only [expect_g, expect]
    split <;> rfl

theorem expect_number_g_eq (mem : List Char) (g : Globals) :
    expect_number_g mem g = lift_g mem g (expect_number g.token) := by
  obtain ⟨tok, ui⟩ := g
  cases tok with
  | nil => rfl
  | cons t next =>
    simp only [expect_number_g, expect_number]
    split <;> rfl

/-- The parser on the globals does what the parser that passes the cursor does,
started with the cursor `token`. -/
theorem parser_g_eq (mem : List Char) (f : Nat) :
    (∀ g, expr_g mem f g = lift_g mem g (expr mem f g.token)) ∧
    (∀ n g, expr_loop_g mem f n g = lift_g mem g (expr_loop mem f n g.token)) ∧
    (∀ g, mul_g mem f g = lift_g mem g (mul mem f g.token)) ∧
    (∀ n g, mul_loop_g mem f n g = lift_g mem g (mul_loop mem f n g.token)) ∧
    (∀ g, primary_g mem f g = lift_g mem g (primary mem f g.token)) := by
  induction f with
  | zero =>
    refine ⟨?_, ?_, ?_, ?_, ?_⟩ <;> intros <;>
      simp [expr_g, expr_loop_g, mul_g, mul_loop_g, primary_g, expr, expr_loop, mul, mul_loop,
        primary, lift_g]
  | succ f ih =>
    obtain ⟨ihe, ihel, ihm, ihml, ihp⟩ := ih
    have he : ∀ (g : Globals) c, expr_g mem f { g with token := c }
        = lift_g mem g (expr mem f c) := fun g c => by
      rw [ihe, lift_g_token]
    have hel : ∀ n (g : Globals) c, expr_loop_g mem f n { g with token := c }
        = lift_g mem g (expr_loop mem f n c) := fun n g c => by
      rw [ihel, lift_g_token]
    have hm : ∀ (g : Globals) c, mul_g mem f { g with token := c }
        = lift_g mem g (mul mem f c) := fun g c => by
      rw [ihm, lift_g_token]
    have hml : ∀ n (g : Globals) c, mul_loop_g mem f n { g with token := c }
        = lift_g mem g (mul_loop mem f n c) := fun n g c => by
      rw [ihml, lift_g_token]
    have hp : ∀ (g : Globals) c, primary_g mem f { g with token := c }
        = lift_g mem g (primary mem f c) := fun g c => by
      rw [ihp, lift_g_token]
    have hc : ∀ op (g : Globals) c, consume_g mem op { g with token := c }
        = lift_g mem g (consume mem op c) := fun op g c => by
      rw [consume_g_eq, lift_g_token]
    have hx : ∀ op (g : Globals) c, expect_g mem op { g with token := c }
        = lift_g mem g (expect mem op c) := fun op g c => by
      rw [expect_g_eq, lift_g_token]
    have hn : ∀ (g : Globals) c, expect_number_g mem { g with token := c }
        = lift_g mem g (expect_number c) := fun g c => by
      rw [expect_number_g_eq, lift_g_token]
    refine ⟨?_, ?_, ?_, ?_, ?_⟩
    · intro g
      rw [expr_g, expr]
      exact bind_lift mem g _ _ _ _ (ihm g) (fun a c => hel a g c)
    · intro n g
      rw [expr_loop_g, expr_loop]
      refine bind_lift mem g _ _ _ _ (consume_g_eq mem _ g) (fun b c => ?_)
      cases b with
      | true =>
        simp only [if_true]
        exact bind_lift mem g _ _ _ _ (hm g c) (fun a c2 => hel _ g c2)
      | false =>
        simp only [Bool.false_eq_true, if_false]
        refine bind_lift mem g _ _ _ _ (hc _ g c) (fun b2 c2 => ?_)
        cases b2 with
        | true =>
          simp only [if_true]
          exact bind_lift mem g _ _ _ _ (hm g c2) (fun a c3 => hel _ g c3)
        | false =>
          simp only [Bool.false_eq_true, if_false]
          rfl
    · intro g
      rw [mul_g, mul]
      exact bind_lift mem g _ _ _ _ (ihp g) (fun a c => hml a g c)
    · intro n g
      rw [mul_loop_g, mul_loop]
      refine bind_lift mem g _ _ _ _ (consume_g_eq mem _ g) (fun b c => ?_)
      cases b with
      | true =>
        simp only [if_true]
        exact bind_lift mem g _ _ _ _ (hp g c) (fun a c2 => hml _ g c2)
      | false =>
        simp only [Bool.false_eq_true, if_false]
        refine bind_lift mem g _ _ _ _ (hc _ g c) (fun b2 c2 => ?_)
        cases b2 with
        | true =>
          simp only [if_true]
          exact bind_lift mem g _ _ _ _ (hp g c2) (fun a c3 => hml _ g c3)
        | false =>
          simp only [Bool.false_eq_true, if_false]
          rfl
    · intro g
      rw [primary_g, primary]
      refine bind_lift mem g _ _ _ _ (consume_g_eq mem _ g) (fun b c => ?_)
      cases b with
      | true =>
        simp only [if_true]
        refine bind_lift mem g _ _ _ _ (he g c) (fun a c2 => ?_)
        exact bind_lift mem g _ _ _ _ (hx _ g c2) (fun _ c3 => rfl)
      | false =>
        simp only [Bool.false_eq_true, if_false]
        exact bind_lift mem g _ _ _ _ (hn g c) (fun v c2 => rfl)

/-- What the first statements of `main` do, whatever the globals were: the
run of `tokenize` and `parse` on the argument, reported against the argument. -/
theorem front_g_eq (arg : List Char) (g : Globals) :
    front_g arg g = match tokenize arg with
      | .ok toks => lift_g arg ⟨toks, 0⟩ (parse arg toks)
      | .error loc msg => .exit (error_at arg loc msg)
      | .null => .null
      | .fuel => .fuel := by
  simp only [front_g, tokenize_g, List.drop_zero]
  change (match tokenize arg with
    | .ok toks => Effect.ret toks { g with user_input := 0 }
    | .error loc msg => error_at_g arg loc msg { g with user_input := 0 }
    | .null => Effect.null
    | .fuel => Effect.fuel).bind _ = _
  cases tokenize arg with
  | ok toks =>
    simp only [Effect.bind]
    rw [(parser_g_eq arg _).1]
    rfl
  | error loc msg =>
    simp only [Effect.bind, error_at_g, Nat.cast_zero, sub_zero, Int.natAbs_ofNat,
      List.drop_zero]
  | null => rfl
  | fuel => rfl

theorem main_from_eq (g : Globals) (argv : List (List Char)) :
    main_from g argv = main argv := by
  unfold main_from main
  split
  · rename_i prog arg
    rw [front_g_eq]
    cases tokenize arg with
    | ok toks =>
      simp only [or_exit]
      cases parse arg toks with
      | ok a => rfl
      | error loc msg =>
        simp only [lift_g, error_at_g, Nat.cast_zero, sub_zero, Int.natAbs_ofNat,
          List.drop_zero]
      | null => rfl
      | fuel => rfl
    | error loc msg => rfl
    | null => rfl
    | fuel => rfl
  · rfl

/-- C16. Determinism with respect to the global state.  In the model where
`consume`, `expect`, `expect_number` and the parser read and assign the global
`token`, and `error_at` reads the global `user_input`: whatever the values of
the two globals when `main` starts, the run is the same, listing or diagnostic,
and it is the run of `main`; the statements of `main` up to `expr()` return the
same tree and leave the same globals; so a second run, started from the
globals the first has left, returns the same again.  The independence is not
built into the functions: `consume` and `error_at` started from different
globals end differently. -/
theorem C16_globals_irrelevant (g g' : Globals) (argv : List (List Char)) :
    main_from g argv = main_from g' argv ∧
    main_from g argv = main argv ∧
    (∀ arg, front_g arg g = front_g arg g') ∧
    (∀ arg node g1, front_g arg g = .ret node g1 → front_g arg g1 = .ret node g1) ∧
    consume_g "+".toList '+' ⟨[⟨.TK_RESERVED, 0, 0⟩, ⟨.TK_EOF, 0, 1⟩], 0⟩
      ≠ consume_g "+".toList '+' ⟨[⟨.TK_EOF, 0, 1⟩], 0⟩ ∧
    expect_number_g "1+2".toList ⟨[⟨.TK_RESERVED, 0, 1⟩], 0⟩
      ≠ expect_number_g "1+2".toList ⟨[⟨.TK_RESERVED, 0, 1⟩], 2⟩ := by
  refine ⟨by rw [main_from_eq, main_from_eq], main_from_eq g argv,
    fun arg => by rw [front_g_eq, front_g_eq], fun arg node g1 h => ?_, by decide, by decide⟩
  rw [front_g_eq] at h ⊢
  exact h

/-- C16, witness: started with globals left by an earlier run, or with NULL
pointers, the run on `1+` ends in the same diagnostic at offset 2; the first
statements of `main` run twice on `1+2` return the same tree and leave the same
globals. -/
theorem C16_globals_irrelevant_witness :
    main_from ⟨[⟨.TK_NUM, 7, 3⟩, ⟨.TK_EOF, 0, 4⟩], 2⟩ ["ccb".toList, "1+".toList]
      = .ok ⟨[], "1+\n  ^ 数ではありません\n", 1⟩ ∧
    main_from ⟨[], 0⟩ ["ccb".toList, "1+".toList]
      = .ok ⟨[], "1+\n  ^ 数ではありません\n", 1⟩ ∧
    front_g "1+2".toList ⟨[], 5⟩ = .ret (.Add (.Num 1) (.Num 2)) ⟨[⟨.TK_EOF, 0, 3⟩], 0⟩ ∧
    front_g "1+2".toList ⟨[⟨.TK_EOF, 0, 3⟩], 0⟩
      = .ret (.Add (.Num 1) (.Num 2)) ⟨[⟨.TK_EOF, 0, 3⟩], 0⟩ ∧
    main_from ⟨[⟨.TK_NUM, 7, 3⟩, ⟨.TK_EOF, 0, 4⟩], 2⟩ ["ccb".toList, "1+".toList]
      = main_from ⟨[], 0⟩ ["ccb".toList, "1+".toList] :=
  ⟨by decide, by decide, by decide, by decide,
   (C16_globals_irrelevant ⟨[⟨.TK_NUM, 7, 3⟩, ⟨.TK_EOF, 0, 4⟩], 2⟩ ⟨[], 0⟩
     ["ccb".toList, "1+".toList]).1⟩

end Ccb
